import Mathlib

/-!
# IT8951 flash programmer and memory transfer: embedding and properties

A shallow embedding of `sf.c` (SPI-flash programming), of the flash,
memory-transfer, zone, load-area and channel-opening functions of `sg.c`, of the
boot-screen functions of `fw.c`, of `read_buf_from_file` (`file.c`) and of the
flash-writing commands of `flash_main.c` and `fw_main.c`, followed by the
properties proved about them.

Conventions of the embedding.

* `uint32_t` values are natural numbers below `U32 = 2^32`; every C operation
  that can leave that range is followed by an explicit `% U32`.
* `int` counters (`read`, `written`) are carried as their 32-bit
  two's-complement bit pattern; `sext` is the conversion `int → size_t`.
* The `int` fields of a zone or an image are integers in the range of `int`
  (`is_int`); `wrap_int` brings the result of an `int` operation or of a
  conversion from `uint32_t` back into that range, `to_u32` is the conversion
  `int → uint32_t`.
* A host buffer (`char *`) is a function from byte offsets to bytes.
* The SCSI generic device behind `ioctl(fd, SG_IO, ...)` is the record
  `Device`: panel geometry, flash contents, image memory, a transport fault
  schedule and the log of every command submitted so far.
* `malloc` is assumed to succeed for sizes that fit an `int`; the content of
  a fresh allocation is an arbitrary buffer passed in as `junk`.
* Loops that the C code does not bound run on `fuel`; `none` means the fuel
  ran out before the loop finished.
* A file is the record `FileSys`: what `fopen`, `stat` and `fread` answer for
  its name.
-/

namespace It8951

/-! ## Machine integers, bytes and buffers -/

/-- Number of values of a `uint32_t`. -/
abbrev U32 : Nat := 4294967296

/-- Number of values of a `size_t` (64-bit Linux). -/
abbrev U64 : Nat := 18446744073709551616

/-- Conversion of an `int` bit pattern to `size_t` (sign extension). -/
def sext (r : Nat) : Nat := if r < 2147483648 then r else r + (U64 - U32)

abbrev Byte := Fin 256

/-- Host buffer seen from a `char *`: the byte at each offset. -/
abbrev Buf := Nat → Byte

/-- Pointer arithmetic `buf + k`. -/
def Buf.shift (buf : Buf) (k : Nat) : Buf := fun i => buf (k + i)

/-- The buffer `buf` after the region starting at `buf + k` took the content `sub`. -/
def Buf.put (buf : Buf) (k : Nat) (sub : Buf) : Buf :=
  fun i => if k ≤ i then sub (i - k) else buf i

/-- Library call `memcpy(dst + off, src, n)`. -/
def memcpy (dst : Buf) (off : Nat) (src : Buf) (n : Nat) : Buf :=
  fun i => if off ≤ i ∧ i < off + n then src (i - off) else dst i

/-- Library call `memcmp(a, b, n) == 0`. -/
def memcmp_eq (a b : Buf) (n : Nat) : Bool := decide (∀ i, i < n → a i = b i)

/-- The first `n` bytes of a buffer. -/
def Buf.take (buf : Buf) (n : Nat) : List Byte := (List.range n).map buf

/-- A byte string laid out in a buffer (bytes past its end read as zero). -/
def Buf.ofList (l : List Byte) : Buf := fun i => l.getD i 0

def EIO : Nat := 5
def ENOMEM : Nat := 12
def ENODEV : Nat := 19
def EINVAL : Nat := 22

/-! ## Flash geometry (`sf.h`, `sf.c`) -/

/-- The `struct sf` of `sf.h`. -/
structure Sf where
  block_size : Nat
  n_blocks : Nat
  sector_size : Nat

/-- The static `sf` of `sf.c`. -/
def sf : Sf := { block_size := 64 * 1024, n_blocks := 64, sector_size := 4 * 1024 }

/-- The macro `SF_SIZE`: 64 blocks of 64KB (4MB). -/
def SF_SIZE : Nat := 64 * 64 * 1024

/-- The `uint32_t` value of `~(sf.block_size - 1)`. -/
def block_mask : Nat := (U32 - 1) - (sf.block_size - 1)

/-- Align a flash address with the previous erase block: `addr & ~(sf.block_size - 1)`. -/
def sf_block_align_prev (addr : Nat) : Nat := addr &&& block_mask

/-- Align a flash address with the next erase block. -/
def sf_block_align_next (addr : Nat) : Nat :=
  let baddr := addr &&& block_mask
  if baddr = addr then addr else (baddr + sf.block_size) % U32

/-! ## The device behind the SG_IO channel -/

/-- The commands of `sg.c` that the flash and memory layers submit, with their arguments. -/
inductive Cmd where
  | spi_erase (sfaddr size : Nat)
  | spi_read (sfaddr memaddr size : Nat)
  | spi_write (sfaddr memaddr size : Nat)
  | read_mem (memaddr len : Nat)
  | write_mem (memaddr len : Nat) (fast : Bool)
  deriving DecidableEq, Repr

/-- The controller as seen through `struct it8951_data`: the identity fields used by the
flash layer, the SPI flash, the image memory, the errno the transport gives to the k-th
submitted command (0: the command is carried out) and the commands submitted so far. -/
structure Device where
  width : Nat
  height : Nat
  flash : Nat → Byte
  mem : Nat → Byte
  faults : Nat → Nat
  log : List Cmd

/-- Offset of the 32-bit address `x` from the 32-bit address `base`. -/
def off32 (base x : Nat) : Nat := (x + U32 - base) % U32

/-- Value of an erased flash byte. -/
def erased : Byte := 255

/-- Programming a flash byte can only clear bits. -/
def program (old new : Byte) : Byte :=
  ⟨old.val &&& new.val, lt_of_le_of_lt Nat.and_le_right new.isLt⟩

/-- Effect of a command the transport carried out. An erase command of size `sz` erases
`sz + 1` bytes from its address; address arithmetic inside the device is 32-bit. -/
def Device.exec (d : Device) (c : Cmd) (payload : Buf) : Device :=
  match c with
  | .spi_erase a sz =>
    { d with flash := fun x => if x < U32 ∧ off32 a x ≤ sz then erased else d.flash x }
  | .spi_read a m sz =>
    { d with mem := fun x =>
        if x < U32 ∧ off32 m x < sz then d.flash ((a + off32 m x) % U32) else d.mem x }
  | .spi_write a m sz =>
    { d with flash := fun x =>
        if x < U32 ∧ off32 a x < sz then program (d.flash x) (d.mem ((m + off32 a x) % U32))
        else d.flash x }
  | .read_mem _ _ => d
  | .write_mem m len _ =>
    { d with mem := fun x => if x < U32 ∧ off32 m x < len then payload (off32 m x) else d.mem x }

/-- The call `ioctl(data->fd, SG_IO, sg_hdr)`: the command is submitted; it fails with the
scheduled errno and no effect, or is carried out. -/
def ioctl (d : Device) (c : Cmd) (payload : Buf) : Nat × Device :=
  if d.faults d.log.length ≠ 0 then
    (d.faults d.log.length, { d with log := d.log ++ [c] })
  else
    (0, { d.exec c payload with log := d.log ++ [c] })

/-- Bytes a device-to-host transfer from memory address `a` delivers. -/
def Device.mem_from (d : Device) (a : Nat) : Buf := fun j => d.mem ((a + j) % U32)

/-! ## `sg.c`: flash commands -/

/-- The `for` loop of `it8951_sg_sf_erase`: blocks `i`, `i+1`, ... (`k` of them left). -/
def erase_loop (s : Sf) (sfaddr : Nat) : Nat → Nat → Device → Nat × Device
  | 0, _, d => (0, d)
  | k + 1, i, d =>
    match ioctl d (.spi_erase ((sfaddr + i * s.block_size) % U32) (s.block_size - 1))
        (fun _ => 0) with
    | (e, d1) => if e ≠ 0 then (e, d1) else erase_loop s sfaddr k (i + 1) d1

/-- Erase the SPI flash at a given address and for a given size (`sf` is never null). -/
def it8951_sg_sf_erase (d : Device) (s : Sf) (sfaddr size : Nat) : Nat × Device :=
  if sfaddr % s.block_size ≠ 0 then (EINVAL, d)
  else
    let n_blocks := size / s.block_size + (if size % s.block_size ≠ 0 then 1 else 0)
    erase_loop s sfaddr n_blocks 0 d

/-- The static helper `it8951_sg_sf_data`. -/
def it8951_sg_sf_data (d : Device) (sfaddr memaddr size : Nat) (write : Bool) : Nat × Device :=
  ioctl d (if write then .spi_write sfaddr memaddr size else .spi_read sfaddr memaddr size)
    (fun _ => 0)

def it8951_sg_sf_write (d : Device) (_s : Sf) (sfaddr memaddr size : Nat) : Nat × Device :=
  it8951_sg_sf_data d sfaddr memaddr size true

def it8951_sg_sf_read (d : Device) (_s : Sf) (sfaddr memaddr size : Nat) : Nat × Device :=
  it8951_sg_sf_data d sfaddr memaddr size false

/-- Erase the SPI flash at a given address and for a given size (`sf.c`). -/
def sf_erase (d : Device) (_memaddr addr size : Nat) : Nat × Device :=
  it8951_sg_sf_erase d sf addr size

/-! ## `sg.c`: memory transfer -/

/-- The `while (read < size)` loop of `it8951_sg_read_mem`; `size` is a `size_t`, `read` an
`int`. Each chunk lands in the host buffer at `buf + read`. -/
def it8951_sg_read_mem_loop :
    Nat → Device → Nat → Buf → Nat → Nat → Option (Nat × Device × Buf)
  | 0, _, _, _, _, _ => none
  | fuel + 1, d, memaddr, buf, size, read =>
    if sext read < size then
      let rest := (size + U64 - sext read) % U64
      let read_size := if rest < (1 <<< 16) - 1 then rest else (1 <<< 16) - 1
      match ioctl d (.read_mem ((memaddr + read) % U32) read_size) (fun _ => 0) with
      | (e, d1) =>
        if e ≠ 0 then some (e, d1, buf)
        else
          let buf1 := memcpy buf read (d1.mem_from ((memaddr + read) % U32)) read_size
          it8951_sg_read_mem_loop fuel d1 memaddr buf1 size ((read + read_size) % U32)
    else some (0, d, buf)

/-- Read `size` bytes of image memory at `memaddr` into `buf`. -/
def it8951_sg_read_mem (fuel : Nat) (d : Device) (memaddr : Nat) (buf : Buf) (size : Nat) :
    Option (Nat × Device × Buf) :=
  it8951_sg_read_mem_loop fuel d memaddr buf size 0

/-- The `while (written < size)` loop of `it8951_sg_write_mem`. -/
def it8951_sg_write_mem_loop :
    Nat → Device → Nat → Buf → Nat → Bool → Nat → Option (Nat × Device)
  | 0, _, _, _, _, _, _ => none
  | fuel + 1, d, memaddr, buf, size, fast, written =>
    if sext written < size then
      let rest := (size + U64 - sext written) % U64
      let write_size := if rest < (1 <<< 16) - 1 then rest else (1 <<< 16) - 1
      match ioctl d (.write_mem ((memaddr + written) % U32) write_size fast)
          (buf.shift written) with
      | (e, d1) =>
        if e ≠ 0 then some (e, d1)
        else
          it8951_sg_write_mem_loop fuel d1 memaddr buf size fast ((written + write_size) % U32)
    else some (0, d)

/-- Write `size` bytes of `buf` to image memory at `memaddr`. -/
def it8951_sg_write_mem (fuel : Nat) (d : Device) (memaddr : Nat) (buf : Buf) (size : Nat)
    (fast : Bool) : Option (Nat × Device) :=
  it8951_sg_write_mem_loop fuel d memaddr buf size fast 0

/-! ## `sf.c`: flash read, verify and write -/

/-- Size of the memory bridge: `data->dev->width * data->dev->height` as a `uint32_t`. -/
def membuf_size (d : Device) : Nat := (d.width * d.height) % U32

/-- The `do ... while (read < count)` loop of `sf_read`. -/
def sf_read_loop : Nat → Device → Nat → Nat → Nat → Buf → Nat → Option (Nat × Device × Buf)
  | 0, _, _, _, _, _, _ => none
  | fuel + 1, d, memaddr, addr, count, buf, read =>
    let size :=
      if (count + U32 - read) % U32 < membuf_size d then (count + U32 - read) % U32
      else membuf_size d
    match it8951_sg_sf_read d sf ((addr + read) % U32) memaddr size with
    | (e, d1) =>
      if e ≠ 0 then some (e, d1, buf)
      else
        match it8951_sg_read_mem fuel d1 memaddr (buf.shift read) size with
        | none => none
        | some (e2, d2, chunk) =>
          if e2 ≠ 0 then some (e2, d2, buf.put read chunk)
          else if (read + size) % U32 < count then
            sf_read_loop fuel d2 memaddr addr count (buf.put read chunk) ((read + size) % U32)
          else some (0, d2, buf.put read chunk)

/-- Read SPI flash from a given address into a buffer. -/
def sf_read (fuel : Nat) (d : Device) (memaddr addr count : Nat) (buf : Buf) :
    Option (Nat × Device × Buf) :=
  if (addr + count) % U32 > SF_SIZE then some (EINVAL, d, buf)
  else sf_read_loop fuel d memaddr addr count buf 0

/-- Compare a flash section with a reference buffer. -/
def sf_verify (fuel : Nat) (d : Device) (memaddr addr size : Nat) (ref junk : Buf) :
    Option (Nat × Device) :=
  match sf_read fuel d memaddr addr size junk with
  | none => none
  | some (e, d1, buf) =>
    if e ≠ 0 then some (e, d1)
    else if memcmp_eq buf ref size then some (0, d1)
    else some ( EIO, d1)

/-- The `do ... while (written < count)` loop of `sf_write_aligned`. -/
def sf_write_aligned_loop : Nat → Device → Nat → Buf → Nat → Nat → Nat → Option (Nat × Device)
  | 0, _, _, _, _, _, _ => none
  | fuel + 1, d, memaddr, buf, count, addr, written =>
    let size :=
      if (count + U32 - written) % U32 < membuf_size d then (count + U32 - written) % U32
      else membuf_size d
    match it8951_sg_write_mem fuel d memaddr (buf.shift written) size false with
    | none => none
    | some (e, d1) =>
      if e ≠ 0 then some (e, d1)
      else
        match it8951_sg_sf_write d1 sf ((addr + written) % U32) memaddr size with
        | (e2, d2) =>
          if e2 ≠ 0 then some (e2, d2)
          else if (written + size) % U32 < count then
            sf_write_aligned_loop fuel d2 memaddr buf count addr ((written + size) % U32)
          else some (0, d2)

/-- Write a buffer at a given address into SPI flash. The destination address and the
buffer size must be both aligned with the flash "erase block" size. -/
def sf_write_aligned (fuel : Nat) (d : Device) (memaddr : Nat) (buf : Buf) (count addr : Nat)
    (verify : Bool) (junk : Buf) : Option (Nat × Device) :=
  match it8951_sg_sf_erase d sf addr count with
  | (e, d1) =>
    if e ≠ 0 then some (e, d1)
    else
      match sf_write_aligned_loop fuel d1 memaddr buf count addr 0 with
      | none => none
      | some (e2, d2) =>
        if e2 ≠ 0 then some (e2, d2)
        else if verify then sf_verify fuel d2 memaddr addr count buf junk
        else some (0, d2)

/-- Write a buffer at a given address into SPI flash. `size` is an `int`: a difference
`end - start` with the sign bit set makes `malloc` fail. -/
def sf_write (fuel : Nat) (d : Device) (memaddr : Nat) (buf : Buf) (count addr : Nat)
    (verify : Bool) (junk : Buf) : Option (Nat × Device) :=
  if (addr + count) % U32 > SF_SIZE then some (EINVAL, d)
  else
    let start := sf_block_align_prev addr
    let end_ := sf_block_align_next ((addr + count) % U32)
    if start = addr ∧ end_ = (addr + count) % U32 then
      sf_write_aligned fuel d memaddr buf count addr verify junk
    else
      let offset := (addr + U32 - start) % U32
      let size := (end_ + U32 - start) % U32
      if 2147483648 ≤ size then some (ENOMEM, d)
      else
        match sf_read fuel d memaddr start size junk with
        | none => none
        | some (e, d1, buf_align) =>
          if e ≠ 0 then some (e, d1)
          else
            sf_write_aligned fuel d1 memaddr (memcpy buf_align offset buf count) size start
              verify junk

/-- The commands that move data toward the flash: a memory write or a memory-to-flash
command. -/
def Cmd.programs : Cmd → Bool
  | .write_mem _ _ _ => true
  | .spi_write _ _ _ => true
  | _ => false

/-! ## Zones, images and the memory-address argument (`it8951.h`, `image.h`, `sg.c`) -/

/-- The `struct zone` of `it8951.h`; the fields are `int`. -/
structure Zone where
  x : Int
  y : Int
  width : Int
  height : Int
  deriving DecidableEq, Repr

/-- The `struct image` of `image.h`. -/
structure Image where
  width : Int
  height : Int
  maxcolor : Int
  buf : Buf

/-- Result of an `int` operation brought back into the range of `int` (two's complement). -/
def wrap_int (z : Int) : Int := (z + 2147483648) % 4294967296 - 2147483648

/-- Conversion of an `int` to `uint32_t`. -/
def to_u32 (z : Int) : Int := z % 4294967296

/-- The values an `int` can take. -/
def is_int (z : Int) : Prop := -2147483648 ≤ z ∧ z < 2147483648

/-- This function converts a memory address or a buffer index into an argument valid for
the ITE device: `if (memaddr < 3) memaddr |= (1 << 31)`. -/
def memaddr_to_arg (_dev : Device) (memaddr : Nat) : Nat :=
  if memaddr < 3 then memaddr ||| (1 <<< 31) else memaddr

/-- This function builds a valid screen zone based on the user input, the image size and
the screen dimensions (`zone` and `dev` are never null). The zone fields are `int`, the
panel dimensions `uint32_t`: the panel comparisons and subtractions are unsigned. -/
def sanitize_zone (user : Option Zone) (dev : Device) (img : Option Image) : Nat × Zone :=
  let zone0 : Zone :=
    match user with
    | some u => u
    | none => { x := 0, y := 0, width := 0, height := 0 }
  let zone1 : Zone :=
    match img with
    | some i =>
      let w := if zone0.width = 0 ∨ zone0.width > i.width then i.width else zone0.width
      let h := if zone0.height = 0 ∨ w > i.height then i.height else zone0.height
      { zone0 with width := w, height := h }
    | none => zone0
  let w2 :=
    if zone1.width = 0 ∨ to_u32 (wrap_int (zone1.x + zone1.width)) > (dev.width : Int) then
      wrap_int (to_u32 ((dev.width : Int) - to_u32 zone1.x))
    else zone1.width
  let h2 :=
    if zone1.height = 0 ∨ to_u32 (wrap_int (zone1.y + zone1.height)) > (dev.height : Int) then
      wrap_int (to_u32 ((dev.height : Int) - to_u32 zone1.y))
    else zone1.height
  (0, { zone1 with width := w2, height := h2 })

/-! ## `sg.c`: opening the channel -/

/-- The `struct it8951_device` of `it8951.h`, as `it8951_sg_get_sys` leaves it: the
converted fields are 32-bit values in host order, `frame_count` is kept as received. -/
structure it8951_device where
  std_cmd_num : Nat
  ext_cmd_num : Nat
  signature : Nat
  version : Nat
  width : Nat
  height : Nat
  update_memaddr : Nat
  memaddr : Nat
  temp_seg_num : Nat
  mode : Nat
  frame_count : List Byte
  buf_num : Nat

/-- The part of `struct it8951_data` a caller of `it8951_sg_open` receives. -/
structure it8951_data where
  fd : Nat
  dev : it8951_device

/-- What the operating system and the device answer while the channel is opened: the
errno of `open(devname, O_RDWR)` (0: the descriptor `fd` is returned), the errno of the
identity `ioctl` (0: the command is carried out) and the identity record as the device
sends it, byte by byte. `calloc` is assumed to succeed. -/
structure Host where
  open_errno : Nat
  fd : Nat
  sg_errno : Nat
  sysinfo : Buf

/-- The `uint32_t` stored big-endian at offset `off` of a record, in host order
(`be32toh` of the field read at that offset). -/
def be32toh (rec : Buf) (off : Nat) : Nat :=
  (rec off).val * 16777216 + (rec (off + 1)).val * 65536 + (rec (off + 2)).val * 256 +
    (rec (off + 3)).val

def supported_signatures : List Nat := [0x38393531]

/-- The signature test of `it8951_check_signature`, on the decoded identity. -/
def it8951_check_signature (dev : it8951_device) : Nat :=
  if supported_signatures.any (fun s => s == dev.signature) then 0 else ENODEV

/-- The identity handshake `it8951_sg_get_sys`: on transport failure the errno and no
identity, else the identity with its fields converted from big-endian. -/
def it8951_sg_get_sys (h : Host) : Nat × Option it8951_device :=
  if h.sg_errno ≠ 0 then (h.sg_errno, none)
  else
    (0, some
      { std_cmd_num := be32toh h.sysinfo 0
        ext_cmd_num := be32toh h.sysinfo 4
        signature := be32toh h.sysinfo 8
        version := be32toh h.sysinfo 12
        width := be32toh h.sysinfo 16
        height := be32toh h.sysinfo 20
        update_memaddr := be32toh h.sysinfo 24
        memaddr := be32toh h.sysinfo 28
        temp_seg_num := be32toh h.sysinfo 32
        mode := be32toh h.sysinfo 36
        frame_count := (List.range 32).map (fun k => h.sysinfo (40 + k))
        buf_num := be32toh h.sysinfo 72 })

/-- The function `it8951_sg_open`: the error code and, on success only, the channel
handle; on every error path the handle is freed before the return. -/
def it8951_sg_open (h : Host) : Nat × Option it8951_data :=
  if h.open_errno ≠ 0 then (h.open_errno, none)
  else
    match it8951_sg_get_sys h with
    | (e, none) => (e, none)
    | (e, some dev) =>
      if e ≠ 0 then (e, none)
      else if it8951_check_signature dev ≠ 0 then (it8951_check_signature dev, none)
      else (0, some { fd := h.fd, dev := dev })

/-! ## `sg.c`: command descriptors -/

def IT8951_CMD_CUSTOMER : Nat := 0xfe
def IT8951_CMD_READ_MEM : Nat := 0x81
def IT8951_CMD_WRITE_MEM : Nat := 0x82
def IT8951_CMD_SPI_ERASE : Nat := 0x96
def IT8951_CMD_SPI_READ : Nat := 0x97
def IT8951_CMD_SPI_WRITE : Nat := 0x98
def IT8951_CMD_FAST_WRITE_MEM : Nat := 0xa5

/-- The store `*(uint32_t *) &cdb[off] = htobe32(x)`: four bytes, most significant first. -/
def store_be32 (cdb : List Nat) (off x : Nat) : List Nat :=
  (((cdb.set off (x / 16777216 % 256)).set (off + 1) (x / 65536 % 256)).set (off + 2)
    (x / 256 % 256)).set (off + 3) (x % 256)

/-- The store `*(uint16_t *) &cdb[off] = htobe16(x)`: two bytes, most significant first. -/
def store_be16 (cdb : List Nat) (off x : Nat) : List Nat :=
  (cdb.set off (x / 256 % 256)).set (off + 1) (x % 256)

/-- The descriptor `it8951_sg_read_mem` submits for a chunk: the initial `cdb`, then the
source memory address stored at `cdb[2]` and the buffer length at `cdb[7]`. -/
def read_mem_cdb (addr read_size : Nat) : List Nat :=
  store_be16
    (store_be32
      [IT8951_CMD_CUSTOMER, 0, 0, 0, 0, 0, IT8951_CMD_READ_MEM, 0, 0, 0, 0, 0, 0, 0, 0, 0]
      2 addr)
    7 read_size

/-- The descriptor `it8951_sg_write_mem` submits for a chunk: the initial `cdb`, byte 6
replaced for a fast write, then the destination address and the buffer length. -/
def write_mem_cdb (addr write_size : Nat) (fast : Bool) : List Nat :=
  let cdb := [IT8951_CMD_CUSTOMER, 0, 0, 0, 0, 0, IT8951_CMD_WRITE_MEM, 0, 0, 0, 0, 0, 0, 0, 0, 0]
  let cdb1 := if fast then cdb.set 6 IT8951_CMD_FAST_WRITE_MEM else cdb
  store_be16 (store_be32 cdb1 2 addr) 7 write_size

/-- The 16-byte descriptor that goes with each command of the log. The flash commands
carry their arguments in the data buffer, so their descriptor holds the opcode only. -/
def Cmd.cdb : Cmd → List Nat
  | .spi_erase _ _ =>
    [IT8951_CMD_CUSTOMER, 0, 0, 0, 0, 0, IT8951_CMD_SPI_ERASE, 0, 0, 0, 0, 0, 0, 0, 0, 0]
  | .spi_read _ _ _ =>
    [IT8951_CMD_CUSTOMER, 0, 0, 0, 0, 0, IT8951_CMD_SPI_READ, 0, 0, 0, 0, 0, 0, 0, 0, 0]
  | .spi_write _ _ _ =>
    [IT8951_CMD_CUSTOMER, 0, 0, 0, 0, 0, IT8951_CMD_SPI_WRITE, 0, 0, 0, 0, 0, 0, 0, 0, 0]
  | .read_mem a l => read_mem_cdb a l
  | .write_mem a l fast => write_mem_cdb a l fast

/-! ## `sg.c`: the payload of `it8951_sg_load_area` -/

/-- The `struct load_area_args` of `sg.c`, before the conversion to big-endian. -/
structure load_area_args where
  memaddr : Nat
  x : Int
  y : Int
  width : Int
  height : Int
  deriving DecidableEq, Repr

/-- The part of `it8951_sg_load_area` that precedes the SG_IO submission: the error code
and, when the zone is built, the argument block together with the `int` product
`zone.width * zone.height`, the number of pixel bytes `memcpy` takes from `img->buf`. -/
def it8951_sg_load_area_payload (d : Device) (memaddr : Nat) (img : Option Image)
    (u_zone : Option Zone) : Nat × Option (load_area_args × Int) :=
  match img with
  | none => (EINVAL, none)
  | some i =>
    match sanitize_zone u_zone d (some i) with
    | (err, zone) =>
      if err ≠ 0 then (err, none)
      else
        (0, some
          ({ memaddr := memaddr_to_arg d memaddr, x := to_u32 zone.x, y := to_u32 zone.y,
             width := to_u32 zone.width, height := to_u32 zone.height },
            wrap_int (zone.width * zone.height)))

/-! ## `file.c`, `flash_main.c`, `fw_main.c`: the flash-writing commands -/

/-- What the C library answers for one file name: the errno of `fopen` and of `stat`
(0: success), the size `stat` reports, the bytes of the file and how many of them `fread`
delivers before it returns 0. -/
structure FileSys where
  fopen_errno : Nat
  stat_errno : Nat
  st_size : Nat
  content : Buf
  avail : Nat

/-- The function `read_buf_from_file`: the error code, `*buf` and `*size`. `buf0` and
`size0` are what the caller's variables held before the call and `fresh` is the content
of the block `malloc` returns (`malloc` is taken to succeed); the `fread` loop ends with
`*size = min(avail, st_size)` bytes of the file at the start of the block. -/
def read_buf_from_file (fs : FileSys) (fresh buf0 : Buf) (size0 : Nat) : Nat × Buf × Nat :=
  if fs.fopen_errno ≠ 0 then (fs.fopen_errno, buf0, size0)
  else if fs.stat_errno ≠ 0 then (fs.stat_errno, buf0, size0)
  else if min fs.avail fs.st_size < fs.st_size then
    ( EIO, memcpy fresh 0 fs.content (min fs.avail fs.st_size), min fs.avail fs.st_size)
  else (0, memcpy fresh 0 fs.content (min fs.avail fs.st_size), min fs.avail fs.st_size)

/-- Write file content into flash (at the given address): `write_flash_cmd` of
`flash_main.c`. The test on the result of `read_buf_from_file` is `ret < 0`. -/
def write_flash_cmd (fuel : Nat) (d : Device) (memaddr : Nat) (fs : FileSys)
    (faddr size : Nat) (fresh buf0 : Buf) (fsize0 : Nat) (junk : Buf) :
    Option (Nat × Device) :=
  match read_buf_from_file fs fresh buf0 fsize0 with
  | (ret, buf, fsize) =>
    if (ret : Int) < 0 then some (ret, d)
    else
      let size1 := if size = 0 ∨ fsize < size then fsize % U32 else size
      let size2 :=
        if size1 > (SF_SIZE + U32 - faddr) % U32 then (SF_SIZE + U32 - faddr) % U32 else size1
      sf_write fuel d memaddr buf size2 0 true junk

/-- The function `fw_write_img` of `fw.c`. -/
def fw_write_img (fuel : Nat) (d : Device) (memaddr : Nat) (fw : Buf) (size : Nat)
    (junk : Buf) : Option (Nat × Device) :=
  sf_write fuel d memaddr fw size 0 true junk

/-- Get firmware from file and write it into flash: `write_fw_cmd` of `fw_main.c`. -/
def write_fw_cmd (fuel : Nat) (d : Device) (memaddr : Nat) (fs : FileSys)
    (fresh buf0 : Buf) (fsize0 : Nat) (junk : Buf) : Option (Nat × Device) :=
  match read_buf_from_file fs fresh buf0 fsize0 with
  | (ret, fw, fw_size) =>
    if (ret : Int) < 0 then some (ret, d)
    else fw_write_img fuel d memaddr fw (fw_size % U32) junk

/-! ## `fw.c`: boot screens of firmware 0.3 -/

def FW_MAX_BS : Nat := 12
def BS_SWITCH_ADDR : Nat := 0x170000
def BS_START_ADDR : Nat := 0x180000

/-- The string "LOGO_". -/
def BS_SWITCH_TAG : List Byte := [0x4c, 0x4f, 0x47, 0x4f, 0x5f]

/-- The `struct fw_info` of `fw.h` (without the version string). A read of `bs_addr`
past the array yields 0 here. -/
structure fw_info where
  ver_maj : Int
  ver_min : Int
  have_bs : Bool
  bs_num : Nat
  bs_act : Int
  bs_addr : List Nat

/-- The low byte of a number. -/
def byte (n : Nat) : Byte := ⟨n % 256, Nat.mod_lt n (by decide)⟩

/-- The four bytes of the `uint32_t` value `htobe32(x)`, as they lie in memory. -/
def htobe32 (x : Nat) : List Byte :=
  [byte (x / 16777216), byte (x / 65536), byte (x / 256), byte x]

/-- The layout loop of `fw_0_3_get_info`: `slots` is `FW_MAX_BS - i`, `img_size` the
product `width * height`. -/
def fw_0_3_layout (img_size : Nat) : Nat → Nat → List Nat
  | 0, _ => []
  | slots + 1, addr =>
    if (addr + img_size) % U32 < SF_SIZE then
      addr :: fw_0_3_layout img_size slots (sf_block_align_next ((addr + img_size) % U32))
    else []

/-- The address `fw_0_3_get_info` decodes from the switch block: `addr = 0`, bytes 5 to 7
of the block copied to `(char *) &addr + 1`, then `be32toh`. -/
def switch_block_addr (buffer : Buf) : Nat :=
  be32toh (memcpy (fun _ => 0) 1 (buffer.shift 5) 3) 0

/-- The function `fw_0_3_get_info`. -/
def fw_0_3_get_info (fuel : Nat) (d : Device) (memaddr : Nat) (fi : fw_info) (junk : Buf) :
    Option (Nat × Device × fw_info) :=
  let layout := fw_0_3_layout (membuf_size d) FW_MAX_BS BS_START_ADDR
  let fi1 : fw_info :=
    { fi with
      have_bs := true
      bs_addr := layout ++ fi.bs_addr.drop layout.length
      bs_num := layout.length }
  match sf_read fuel d memaddr BS_SWITCH_ADDR 64 junk with
  | none => none
  | some (ret, d1, buffer) =>
    if ret ≠ 0 then some (ret, d1, fi1)
    else if memcmp_eq buffer (Buf.ofList BS_SWITCH_TAG) 5 = false then some (0, d1, fi1)
    else if layout.indexOf (switch_block_addr buffer) < layout.length then
      some (0, d1, { fi1 with bs_act := layout.indexOf (switch_block_addr buffer) })
    else some (0, d1, fi1)

/-- The 8-byte switch block `fw_0_3_enable_bs` builds for a boot screen address: the tag,
then the bytes of `htobe32(addr)` from the second one on. -/
def switch_block (addr : Nat) : List Byte := BS_SWITCH_TAG ++ (htobe32 addr).drop 1

/-- The function `fw_0_3_enable_bs`. -/
def fw_0_3_enable_bs (fuel : Nat) (d : Device) (memaddr : Nat) (fi : fw_info) (index : Nat)
    (junk : Buf) : Option (Nat × Device × fw_info) :=
  match sf_write fuel d memaddr (Buf.ofList (switch_block (fi.bs_addr.getD index 0))) 8
      BS_SWITCH_ADDR true junk with
  | none => none
  | some (ret, d1) =>
    if ret = 0 then some (ret, d1, { fi with bs_act := index }) else some (ret, d1, fi)

/-- The function `fw_write_bs`. -/
def fw_write_bs (fuel : Nat) (d : Device) (memaddr : Nat) (fi : fw_info) (bs : Buf)
    (size index : Nat) (junk : Buf) : Option (Nat × Device) :=
  if fi.have_bs = false then some (EINVAL, d)
  else if index ≥ fi.bs_num then some (EINVAL, d)
  else if size ≠ membuf_size d then some (EINVAL, d)
  else sf_write fuel d memaddr bs size (fi.bs_addr.getD index 0) true junk

/-- The function `fw_enable_bs`. -/
def fw_enable_bs (fuel : Nat) (d : Device) (memaddr : Nat) (fi : fw_info) (index : Nat)
    (junk : Buf) : Option (Nat × Device × fw_info) :=
  if fi.have_bs = false then some (EINVAL, d, fi)
  else if index > fi.bs_num then some (EINVAL, d, fi)
  else if fi.ver_maj = 0 ∧ fi.ver_min ≥ 3 then fw_0_3_enable_bs fuel d memaddr fi index junk
  else some (EINVAL, d, fi)

/-! ## Properties of the commands a call issues -/

/-- What a command asks of the flash, for a flash region `[lo, hi)`: an erase (of `sz + 1`
bytes) starts on a block boundary and stays inside the region, a memory-to-flash command
stays inside the region. The other commands do not modify the flash. -/
def Cmd.flash_within (lo hi : Nat) : Cmd → Prop
  | .spi_erase a sz => a % 65536 = 0 ∧ lo ≤ a ∧ a + sz < hi
  | .spi_write a _ sz => lo ≤ a ∧ a + sz ≤ hi
  | _ => True

/-- The commands `d1` received after the state `d` all satisfy `P`. -/
def Device.issued (d d1 : Device) (P : Cmd → Prop) : Prop :=
  ∃ l, d1.log = d.log ++ l ∧ ∀ c ∈ l, P c

/-- The flash-to-memory commands of a log. -/
def Cmd.is_spi_read : Cmd → Bool
  | .spi_read _ _ _ => true
  | _ => false

/-! ## Reference functions written from the specification -/

/-- Block count of an erase, in the words of the specification: `ceil(size / blockSize)`. -/
def spec_block_count (size : Nat) : Nat := (size + 65535) / 65536

/-- Chunk list of a memory transfer, in the words of the specification: while bytes remain,
the next chunk moves `min(remaining, 65535)` bytes starting at `addr + bytesSoFar`. The
pairs are (start address as the 32-bit value sent to the device, length); `n` bounds the
number of chunks listed. -/
def spec_chunks_from (addr size : Nat) : Nat → Nat → List (Nat × Nat)
  | 0, _ => []
  | n + 1, sofar =>
    if sofar < size then
      ((addr + sofar) % U32, min (size - sofar) 65535) ::
        spec_chunks_from addr size n (sofar + min (size - sofar) 65535)
    else []

/-- Chunk list of a whole transfer of `size` bytes at `addr`. -/
def spec_chunks (addr size : Nat) : List (Nat × Nat) := spec_chunks_from addr size size 0

/-- Number of chunks of a transfer of `size` bytes: `ceil(size / 65535)`. -/
def spec_chunk_count (size : Nat) : Nat := (size + 65534) / 65535

/-! ## Witness inputs -/

/-- A fault-free device with a 4x4 panel, flash and memory zeroed. -/
def dev0 : Device :=
  { width := 4, height := 4, flash := fun _ => 0, mem := fun _ => 0,
    faults := fun _ => 0, log := [] }

/-- A fault-free device with a 256x256 panel: the memory bridge holds one flash block. -/
def dev1 : Device :=
  { width := 256, height := 256, flash := fun _ => 0, mem := fun _ => 0,
    faults := fun _ => 0, log := [] }

/-- A 1200x1600 panel. -/
def panel_1200x1600 : Device :=
  { width := 1200, height := 1600, flash := fun _ => 0, mem := fun _ => 0,
    faults := fun _ => 0, log := [] }

/-- A 400x300 image. -/
def image_400x300 : Image := { width := 400, height := 300, maxcolor := 255, buf := fun _ => 0 }

/-- The image `load_image` builds from the name "0x300x0": no column, 300 rows. -/
def image_0x300 : Image := { width := 0, height := 300, maxcolor := 0, buf := fun _ => 0 }

/-- A host on which the device opens and answers with the signature bytes `8`, `9`, `5`,
`1` at offset 8 of an otherwise zero identity record. -/
def host_it8951 : Host :=
  { open_errno := 0, fd := 3, sg_errno := 0,
    sysinfo := fun k => if k = 8 then 0x38 else if k = 9 then 0x39 else if k = 10 then 0x35
      else if k = 11 then 0x31 else 0 }

/-- A host on which the device opens and answers with an all-zero identity record. -/
def host_other : Host :=
  { open_errno := 0, fd := 3, sg_errno := 0, sysinfo := fun _ => 0 }

/-- A fault-free device with a 200x200 panel: the memory bridge holds 40000 bytes. -/
def dev_200x200 : Device :=
  { width := 200, height := 200, flash := fun _ => 0, mem := fun _ => 0,
    faults := fun _ => 0, log := [] }

/-- A fault-free device that reports a panel without columns. -/
def dev_0x600 : Device :=
  { width := 0, height := 600, flash := fun _ => 0, mem := fun _ => 0,
    faults := fun _ => 0, log := [] }

/-- A device whose third command fails with errno 5. -/
def dev_fault2 : Device :=
  { width := 4, height := 4, flash := fun _ => 0, mem := fun _ => 0,
    faults := fun k => if k = 2 then 5 else 0, log := [] }

/-- A file of 10 bytes of value 7 of which `fread` delivers 3. -/
def file_short : FileSys :=
  { fopen_errno := 0, stat_errno := 0, st_size := 10, content := fun _ => 7, avail := 3 }

/-- A file of 3 bytes of value 7, read in full. -/
def file_777 : FileSys :=
  { fopen_errno := 0, stat_errno := 0, st_size := 3, content := fun _ => 7, avail := 3 }

/-- A firmware 0.3 description with two boot screens. -/
def fw_two_bs : fw_info :=
  { ver_maj := 0, ver_min := 3, have_bs := true, bs_num := 2, bs_act := 0,
    bs_addr := [0x180000, 0x1a0000, 0, 0, 0, 0, 0, 0, 0, 0, 0, 0] }

/-! ## Block alignment -/

theorem block_mask_eq : block_mask = 4294901760 := by decide

theorem and_block_mask (a : Nat) (h : a < U32) : a &&& block_mask = a - a % 65536 := by
  have e : block_mask = (2 ^ 16 - 1) <<< 16 := by decide
  rw [e]
  apply Nat.eq_of_testBit_eq
  intro i
  have h2 : a - a % 65536 = (a >>> 16) <<< 16 := by
    rw [Nat.shiftRight_eq_div_pow, Nat.shiftLeft_eq]
    have := Nat.div_add_mod a 65536
    norm_num
    omega
  rw [h2]
  simp only [Nat.testBit_and, Nat.testBit_shiftLeft, Nat.testBit_shiftRight,
    Nat.testBit_two_pow_sub_one]
  by_cases hi : 16 ≤ i
  · simp [hi]
    by_cases hj : i - 16 < 16
    · simp [hj]
    · simp [hj]
      apply Nat.testBit_lt_two_pow
      calc a < 2 ^ 32 := h
        _ ≤ 2 ^ i := Nat.pow_le_pow_right (by decide) (by omega)
  · simp [hi]

theorem align_prev_eq (a : Nat) (h : a < U32) : sf_block_align_prev a = a - a % 65536 :=
  and_block_mask a h

theorem align_next_eq (a : Nat) (h : a < U32) :
    sf_block_align_next a =
      if a % 65536 = 0 then a else (a - a % 65536 + 65536) % U32 := by
  unfold sf_block_align_next
  simp only [and_block_mask a h]
  have hb : sf.block_size = 65536 := by decide
  rw [hb]
  by_cases hz : a % 65536 = 0
  · simp [hz]
  · have : ¬ (a - a % 65536 = a) := by
      have := Nat.mod_le a 65536
      omega
    simp [hz, this]

/-- C9: for every 32-bit address, `sf_block_align_prev` returns a multiple of the block
size that is at most the address and less than one block below it (sum taken in the
natural numbers). -/
theorem sf_block_align_prev_bounds (addr : Nat) (h : addr < U32) :
    sf_block_align_prev addr ≤ addr ∧
    addr < sf_block_align_prev addr + sf.block_size ∧
    sf_block_align_prev addr % sf.block_size = 0 := by
  have hb : sf.block_size = 65536 := by decide
  rw [align_prev_eq addr h, hb]
  have := Nat.mod_lt addr (show 65536 > 0 by decide)
  have := Nat.mod_le addr 65536
  refine ⟨by omega, by omega, by omega⟩

theorem sf_block_align_prev_bounds_witness :
    sf_block_align_prev 4294967295 ≤ 4294967295 ∧
    4294967295 < sf_block_align_prev 4294967295 + sf.block_size ∧
    sf_block_align_prev 4294967295 % sf.block_size = 0 :=
  sf_block_align_prev_bounds 4294967295 (by decide)

/-- C10: `sf_block_align_prev` is idempotent. -/
theorem sf_block_align_prev_idem (addr : Nat) :
    sf_block_align_prev (sf_block_align_prev addr) = sf_block_align_prev addr := by
  unfold sf_block_align_prev
  rw [Nat.and_assoc, Nat.and_self]

/-! ## The transport -/

theorem ioctl_log (d : Device) (c : Cmd) (p : Buf) : (ioctl d c p).2.log = d.log ++ [c] := by
  unfold ioctl; split <;> rfl

theorem ioctl_faults (d : Device) (c : Cmd) (p : Buf) : (ioctl d c p).2.faults = d.faults := by
  unfold ioctl; split
  · rfl
  · cases c <;> rfl

theorem ioctl_width (d : Device) (c : Cmd) (p : Buf) : (ioctl d c p).2.width = d.width := by
  unfold ioctl; split
  · rfl
  · cases c <;> rfl

theorem ioctl_height (d : Device) (c : Cmd) (p : Buf) : (ioctl d c p).2.height = d.height := by
  unfold ioctl; split
  · rfl
  · cases c <;> rfl

theorem ioctl_ok (d : Device) (c : Cmd) (p : Buf) (h : (ioctl d c p).1 = 0) :
    (ioctl d c p).2 = { d.exec c p with log := d.log ++ [c] } := by
  unfold ioctl at h ⊢
  split
  · rename_i hf
    rw [if_pos hf] at h
    exact absurd h hf
  · rfl

theorem ioctl_nofault (d : Device) (c : Cmd) (p : Buf) (h : ∀ k, d.faults k = 0) :
    (ioctl d c p).1 = 0 := by
  unfold ioctl
  simp [h]

/-! ## Erase -/

theorem erase_loop_log (s : Sf) (sfaddr : Nat) : ∀ (k i : Nat) (d : Device),
    (erase_loop s sfaddr k i d).1 = 0 →
    (erase_loop s sfaddr k i d).2.log = d.log ++ (List.range k).map
      (fun j => Cmd.spi_erase ((sfaddr + (i + j) * s.block_size) % U32) (s.block_size - 1)) := by
  intro k
  induction k with
  | zero => intro i d _; simp [erase_loop]
  | succ k ih =>
    intro i d h
    simp only [erase_loop] at h ⊢
    by_cases he : (ioctl d (.spi_erase ((sfaddr + i * s.block_size) % U32) (s.block_size - 1))
        (fun _ => 0)).1 = 0
    · simp only [he, ne_eq, not_true_eq_false, if_false] at h ⊢
      rw [ih _ _ h, ioctl_log, List.range_succ_eq_map, List.map_cons, List.map_map]
      simp only [List.append_assoc, List.singleton_append, Nat.add_zero]
      congr 2
      apply List.map_congr_left
      intro j _
      simp only [Function.comp, Nat.succ_eq_add_one]
      have e : i + 1 + j = i + (j + 1) := by omega
      rw [e]
    · simp only [he, ne_eq, not_false_eq_true, if_true] at h

theorem erase_loop_nofault (s : Sf) (sfaddr : Nat) : ∀ (k i : Nat) (d : Device),
    (∀ n, d.faults n = 0) → (erase_loop s sfaddr k i d).1 = 0 := by
  intro k
  induction k with
  | zero => intro i d _; rfl
  | succ k ih =>
    intro i d h
    simp only [erase_loop]
    have he := ioctl_nofault d (.spi_erase ((sfaddr + i * s.block_size) % U32) (s.block_size - 1))
      (fun _ => 0) h
    simp only [he, ne_eq, not_true_eq_false, if_false]
    apply ih
    intro n
    rw [ioctl_faults]; exact h n

theorem erase_n_blocks (size : Nat) :
    size / sf.block_size + (if size % sf.block_size ≠ 0 then 1 else 0) =
      spec_block_count size := by
  have hb : sf.block_size = 65536 := by decide
  rw [hb]
  unfold spec_block_count
  split <;> omega

/-- C5: an erase at an address that is not a multiple of the block size fails with EINVAL
and leaves the device untouched, its command log included: no erase command is issued.
This holds for `it8951_sg_sf_erase` and for its wrapper `sf_erase`. -/
theorem erase_misaligned (d : Device) (memaddr addr size : Nat)
    (h : addr % sf.block_size ≠ 0) :
    it8951_sg_sf_erase d sf addr size = (EINVAL, d) ∧
    sf_erase d memaddr addr size = (EINVAL, d) ∧
    (sf_erase d memaddr addr size).2.log = d.log := by
  have e : it8951_sg_sf_erase d sf addr size = (EINVAL, d) := by
    unfold it8951_sg_sf_erase
    rw [if_pos h]
  refine ⟨e, e, ?_⟩
  show (it8951_sg_sf_erase d sf addr size).2.log = d.log
  rw [e]

theorem erase_misaligned_witness :
    it8951_sg_sf_erase dev0 sf 65537 1 = (EINVAL, dev0) ∧
    sf_erase dev0 0 65537 1 = (EINVAL, dev0) ∧
    (sf_erase dev0 0 65537 1).2.log = dev0.log :=
  erase_misaligned dev0 0 65537 1 (by decide)

/-- C6: a successful erase at a block-aligned address issues exactly `ceil(size / 65536)`
erase commands and nothing else; the i-th is addressed to the 32-bit value of
`addr + i * 65536`, which is `addr + i * 65536` itself whenever that is a 32-bit address.
Erasing one byte issues exactly one full-block erase command, erasing zero bytes none.
On a device without transport failure the erase is successful. -/
theorem erase_block_commands (d : Device) (addr size : Nat)
    (ha : addr % 65536 = 0) (hok : (it8951_sg_sf_erase d sf addr size).1 = 0) :
    (it8951_sg_sf_erase d sf addr size).2.log =
      d.log ++ (List.range (spec_block_count size)).map
        (fun i => Cmd.spi_erase ((addr + i * 65536) % U32) 65535) ∧
    (∀ i, i < spec_block_count size → addr + i * 65536 < U32 →
      (it8951_sg_sf_erase d sf addr size).2.log[d.log.length + i]? =
        some (Cmd.spi_erase (addr + i * 65536) 65535)) ∧
    (size = 1 → addr < U32 →
      (it8951_sg_sf_erase d sf addr size).2.log = d.log ++ [Cmd.spi_erase addr 65535]) ∧
    (size = 0 → (it8951_sg_sf_erase d sf addr size).2.log = d.log) ∧
    ((∀ k, d.faults k = 0) → ∀ sz, (it8951_sg_sf_erase d sf addr sz).1 = 0) := by
  have hb : sf.block_size = 65536 := by decide
  have hna : ¬ (addr % sf.block_size ≠ 0) := by rw [hb]; simpa using ha
  have hlog : (it8951_sg_sf_erase d sf addr size).2.log =
      d.log ++ (List.range (spec_block_count size)).map
        (fun i => Cmd.spi_erase ((addr + i * 65536) % U32) 65535) := by
    unfold it8951_sg_sf_erase at hok ⊢
    rw [if_neg hna] at hok ⊢
    simp only [erase_n_blocks] at hok ⊢
    rw [erase_loop_log _ _ _ _ _ hok]
    simp [hb]
  refine ⟨hlog, ?_, ?_, ?_, ?_⟩
  · intro i hi hlt
    rw [hlog, List.getElem?_append_right (by omega)]
    simp only [Nat.add_sub_cancel_left]
    rw [List.getElem?_map, List.getElem?_range hi]
    simp [Nat.mod_eq_of_lt hlt]
  · intro h1 hlt
    rw [hlog, h1]
    simp [spec_block_count, List.range_succ, Nat.mod_eq_of_lt hlt]
  · intro h0
    rw [hlog, h0]
    simp [spec_block_count]
  · intro hf sz
    unfold it8951_sg_sf_erase
    rw [if_neg hna]
    exact erase_loop_nofault _ _ _ _ _ hf

theorem erase_block_commands_witness :
    65536 % 65536 = 0 ∧ (it8951_sg_sf_erase dev0 sf 65536 1).1 = 0 ∧
    (it8951_sg_sf_erase dev0 sf 65536 1).2.log = dev0.log ++ [Cmd.spi_erase 65536 65535] :=
  ⟨by decide, by decide,
    (erase_block_commands dev0 65536 1 (by decide) (by decide)).2.2.1 rfl (by decide)⟩

/-! ## Memory transfer -/

theorem sext_small (r : Nat) (h : r < 2147483648) : sext r = r := by
  simp [sext, h]

theorem write_mem_loop_done (fuel : Nat) (d : Device) (memaddr : Nat) (buf : Buf)
    (size : Nat) (fast : Bool) (w : Nat) (hw : ¬ sext w < size) :
    it8951_sg_write_mem_loop (fuel + 1) d memaddr buf size fast w = some (0, d) := by
  simp only [it8951_sg_write_mem_loop, if_neg hw]

theorem write_mem_loop_step (fuel : Nat) (d : Device) (memaddr : Nat) (buf : Buf)
    (size : Nat) (fast : Bool) (w : Nat) (hw : w < size) (hs : size < 2147483648) :
    it8951_sg_write_mem_loop (fuel + 1) d memaddr buf size fast w =
      if (ioctl d (.write_mem ((memaddr + w) % U32) (min (size - w) 65535) fast)
          (buf.shift w)).1 ≠ 0 then
        some (ioctl d (.write_mem ((memaddr + w) % U32) (min (size - w) 65535) fast)
          (buf.shift w))
      else
        it8951_sg_write_mem_loop fuel
          (ioctl d (.write_mem ((memaddr + w) % U32) (min (size - w) 65535) fast)
            (buf.shift w)).2 memaddr buf size fast (w + min (size - w) 65535) := by
  have hsx : sext w = w := sext_small w (by omega)
  have hrest : (size + U64 - sext w) % U64 = size - w := by
    rw [hsx]; simp only [U64]; omega
  have hws : (if size - w < (1 <<< 16) - 1 then size - w else (1 <<< 16) - 1) =
      min (size - w) 65535 := by
    have : (1 <<< 16) - 1 = 65535 := by decide
    rw [this]; split <;> omega
  have hnext : (w + min (size - w) 65535) % U32 = w + min (size - w) 65535 := by
    simp only [U32]; omega
  simp only [it8951_sg_write_mem_loop, hrest, hws, hnext]
  rw [hsx, if_pos hw]

/-- What a memory write that returned success did: the chunks of the specification were
submitted, and memory holds the buffer from offset `w` on. -/
theorem write_mem_loop_ok (memaddr : Nat) (buf : Buf) (size : Nat) (fast : Bool)
    (hm : memaddr < U32) (hs : size < 2147483648) :
    ∀ (fuel w : Nat) (d d1 : Device), w ≤ size →
      it8951_sg_write_mem_loop fuel d memaddr buf size fast w = some (0, d1) →
      (∀ n, size - w ≤ n → d1.log = d.log ++
        (spec_chunks_from memaddr size n w).map (fun c => Cmd.write_mem c.1 c.2 fast)) ∧
      d1.flash = d.flash ∧ d1.faults = d.faults ∧ d1.width = d.width ∧
      d1.height = d.height ∧
      (∀ x, d1.mem x =
        if x < U32 ∧ w ≤ off32 memaddr x ∧ off32 memaddr x < size then
          buf (off32 memaddr x)
        else d.mem x) := by
  intro fuel
  induction fuel with
  | zero => intro w d d1 _ h; simp [it8951_sg_write_mem_loop] at h
  | succ fuel ih =>
    intro w d d1 hw h
    by_cases hlt : w < size
    · rw [write_mem_loop_step fuel d memaddr buf size fast w hlt hs] at h
      generalize hc : Cmd.write_mem ((memaddr + w) % U32) (min (size - w) 65535) fast = c at h
      by_cases he : (ioctl d c (buf.shift w)).1 = 0
      · rw [if_neg (by simpa using he)] at h
        have hd := ioctl_ok d c (buf.shift w) he
        obtain ⟨hlog, hfl, hfa, hwi, hhe, hmem⟩ :=
          ih (w + min (size - w) 65535) _ d1 (by omega) h
        refine ⟨?_, ?_, ?_, ?_, ?_, ?_⟩
        · intro n hn
          obtain ⟨n, rfl⟩ : ∃ k, n = k + 1 := ⟨n - 1, by omega⟩
          rw [hlog n (by omega), ioctl_log]
          simp only [spec_chunks_from, if_pos hlt, List.map_cons, ← hc]
          simp
        · rw [hfl, hd, ← hc]; rfl
        · rw [hfa, ioctl_faults]
        · rw [hwi, ioctl_width]
        · rw [hhe, ioctl_height]
        · intro x
          rw [hmem x, hd, ← hc]
          simp only [Device.exec, Buf.shift, off32, U32] at *
          by_cases hx : x < 4294967296
          · split <;> split <;> first | omega | (congr 1; omega) | rfl | skip
            all_goals (split <;> first | omega | (congr 1; omega) | rfl)
          · simp [hx]
      · rw [if_pos (by simpa using he)] at h
        simp only [Option.some.injEq] at h
        rw [h] at he
        exact absurd rfl he
    · have hsx : sext w = w := sext_small w (by omega)
      rw [write_mem_loop_done fuel d memaddr buf size fast w (by rw [hsx]; exact hlt)] at h
      simp only [Option.some.injEq, Prod.mk.injEq, true_and] at h
      subst h
      refine ⟨?_, rfl, rfl, rfl, rfl, ?_⟩
      · intro n _
        cases n <;> simp [spec_chunks_from, hlt]
      · intro x
        have : ¬ (x < U32 ∧ w ≤ off32 memaddr x ∧ off32 memaddr x < size) := by omega
        rw [if_neg this]

theorem write_mem_loop_total (memaddr : Nat) (buf : Buf) (size : Nat) (fast : Bool)
    (hs : size < 2147483648) :
    ∀ (fuel w : Nat) (d : Device), w ≤ size → size - w < fuel → (∀ k, d.faults k = 0) →
      ∃ d1, it8951_sg_write_mem_loop fuel d memaddr buf size fast w = some (0, d1) := by
  intro fuel
  induction fuel with
  | zero => intro w d _ h; omega
  | succ fuel ih =>
    intro w d hw hf hnf
    by_cases hlt : w < size
    · rw [write_mem_loop_step fuel d memaddr buf size fast w hlt hs]
      generalize Cmd.write_mem ((memaddr + w) % U32) (min (size - w) 65535) fast = c
      have he := ioctl_nofault d c (buf.shift w) hnf
      rw [if_neg (by simpa using he)]
      apply ih _ _ (by omega) (by omega)
      intro k; rw [ioctl_faults]; exact hnf k
    · have hsx : sext w = w := sext_small w (by omega)
      exact ⟨d, write_mem_loop_done fuel d memaddr buf size fast w (by rw [hsx]; exact hlt)⟩

theorem read_mem_loop_done (fuel : Nat) (d : Device) (memaddr : Nat) (buf : Buf)
    (size : Nat) (r : Nat) (hr : ¬ sext r < size) :
    it8951_sg_read_mem_loop (fuel + 1) d memaddr buf size r = some (0, d, buf) := by
  simp only [it8951_sg_read_mem_loop, if_neg hr]

theorem read_mem_loop_step (fuel : Nat) (d : Device) (memaddr : Nat) (buf : Buf)
    (size : Nat) (r : Nat) (hr : r < size) (hs : size < 2147483648) :
    it8951_sg_read_mem_loop (fuel + 1) d memaddr buf size r =
      if (ioctl d (.read_mem ((memaddr + r) % U32) (min (size - r) 65535)) (fun _ => 0)).1 ≠ 0
      then
        some ((ioctl d (.read_mem ((memaddr + r) % U32) (min (size - r) 65535))
          (fun _ => 0)).1,
          (ioctl d (.read_mem ((memaddr + r) % U32) (min (size - r) 65535)) (fun _ => 0)).2,
          buf)
      else
        it8951_sg_read_mem_loop fuel
          (ioctl d (.read_mem ((memaddr + r) % U32) (min (size - r) 65535)) (fun _ => 0)).2
          memaddr
          (memcpy buf r
            ((ioctl d (.read_mem ((memaddr + r) % U32) (min (size - r) 65535))
              (fun _ => 0)).2.mem_from ((memaddr + r) % U32)) (min (size - r) 65535))
          size (r + min (size - r) 65535) := by
  have hsx : sext r = r := sext_small r (by omega)
  have hrest : (size + U64 - sext r) % U64 = size - r := by
    rw [hsx]; simp only [U64]; omega
  have hws : (if size - r < (1 <<< 16) - 1 then size - r else (1 <<< 16) - 1) =
      min (size - r) 65535 := by
    have : (1 <<< 16) - 1 = 65535 := by decide
    rw [this]; split <;> omega
  have hnext : (r + min (size - r) 65535) % U32 = r + min (size - r) 65535 := by
    simp only [U32]; omega
  simp only [it8951_sg_read_mem_loop, hrest, hws, hnext]
  rw [hsx, if_pos hr]

/-- What a memory read that returned success did: the chunks of the specification were
submitted, the device is unchanged, and the buffer holds the memory content from offset
`r` on. -/
theorem read_mem_loop_ok (memaddr : Nat) (size : Nat) (hs : size < 2147483648) :
    ∀ (fuel r : Nat) (d d1 : Device) (buf buf1 : Buf), r ≤ size →
      it8951_sg_read_mem_loop fuel d memaddr buf size r = some (0, d1, buf1) →
      (∀ n, size - r ≤ n → d1.log = d.log ++
        (spec_chunks_from memaddr size n r).map (fun c => Cmd.read_mem c.1 c.2)) ∧
      d1.flash = d.flash ∧ d1.mem = d.mem ∧ d1.faults = d.faults ∧ d1.width = d.width ∧
      d1.height = d.height ∧
      (∀ i, buf1 i = if r ≤ i ∧ i < size then d.mem ((memaddr + i) % U32) else buf i) := by
  intro fuel
  induction fuel with
  | zero => intro r d d1 buf buf1 _ h; simp [it8951_sg_read_mem_loop] at h
  | succ fuel ih =>
    intro r d d1 buf buf1 hr h
    by_cases hlt : r < size
    · rw [read_mem_loop_step fuel d memaddr buf size r hlt hs] at h
      generalize hc : Cmd.read_mem ((memaddr + r) % U32) (min (size - r) 65535) = c at h
      by_cases he : (ioctl d c (fun _ => 0)).1 = 0
      · rw [if_neg (by simpa using he)] at h
        have hd := ioctl_ok d c (fun _ => 0) he
        obtain ⟨hlog, hfl, hme, hfa, hwi, hhe, hbuf⟩ :=
          ih (r + min (size - r) 65535) _ d1 _ buf1 (by omega) h
        have hm1 : (ioctl d c (fun _ => 0)).2.mem = d.mem := by rw [hd, ← hc]; rfl
        refine ⟨?_, ?_, ?_, ?_, ?_, ?_, ?_⟩
        · intro n hn
          obtain ⟨n, rfl⟩ : ∃ k, n = k + 1 := ⟨n - 1, by omega⟩
          rw [hlog n (by omega), ioctl_log]
          simp only [spec_chunks_from, if_pos hlt, List.map_cons, ← hc]
          simp
        · rw [hfl, hd, ← hc]; rfl
        · rw [hme, hm1]
        · rw [hfa, ioctl_faults]
        · rw [hwi, ioctl_width]
        · rw [hhe, ioctl_height]
        · intro i
          rw [hbuf i, hm1]
          simp only [memcpy, Device.mem_from, hm1, U32]
          split <;> split <;> first | omega | (congr 1; omega) | rfl | skip
          all_goals (split <;> first | omega | (congr 1; omega) | rfl)
      · rw [if_pos (by simpa using he)] at h
        simp only [Option.some.injEq, Prod.mk.injEq] at h
        exact absurd h.1 he
    · have hsx : sext r = r := sext_small r (by omega)
      rw [read_mem_loop_done fuel d memaddr buf size r (by rw [hsx]; exact hlt)] at h
      simp only [Option.some.injEq, Prod.mk.injEq, true_and] at h
      obtain ⟨h1, h2⟩ := h
      subst h1; subst h2
      refine ⟨?_, rfl, rfl, rfl, rfl, rfl, ?_⟩
      · intro n _
        cases n <;> simp [spec_chunks_from, hlt]
      · intro i
        have : ¬ (r ≤ i ∧ i < size) := by omega
        rw [if_neg this]

theorem read_mem_loop_total (memaddr : Nat) (size : Nat) (hs : size < 2147483648) :
    ∀ (fuel r : Nat) (d : Device) (buf : Buf), r ≤ size → size - r < fuel →
      (∀ k, d.faults k = 0) →
      ∃ d1 buf1, it8951_sg_read_mem_loop fuel d memaddr buf size r = some (0, d1, buf1) := by
  intro fuel
  induction fuel with
  | zero => intro r d buf _ h; omega
  | succ fuel ih =>
    intro r d buf hr hf hnf
    by_cases hlt : r < size
    · rw [read_mem_loop_step fuel d memaddr buf size r hlt hs]
      generalize Cmd.read_mem ((memaddr + r) % U32) (min (size - r) 65535) = c
      have he := ioctl_nofault d c (fun _ => 0) hnf
      rw [if_neg (by simpa using he)]
      apply ih _ _ _ (by omega) (by omega)
      intro k; rw [ioctl_faults]; exact hnf k
    · have hsx : sext r = r := sext_small r (by omega)
      exact ⟨d, buf, read_mem_loop_done fuel d memaddr buf size r (by rw [hsx]; exact hlt)⟩

/-! ## The chunk list of the specification -/

theorem spec_chunks_from_len (addr size : Nat) : ∀ (n sofar : Nat) (c : Nat × Nat),
    c ∈ spec_chunks_from addr size n sofar → 1 ≤ c.2 ∧ c.2 ≤ 65535 := by
  intro n
  induction n with
  | zero => intro sofar c h; simp [spec_chunks_from] at h
  | succ n ih =>
    intro sofar c h
    simp only [spec_chunks_from] at h
    split at h
    · rcases List.mem_cons.mp h with h | h
      · subst h; simp only; omega
      · exact ih _ c h
    · simp at h

theorem spec_chunks_from_sum (addr size : Nat) : ∀ (n sofar : Nat), size - sofar ≤ n →
    ((spec_chunks_from addr size n sofar).map Prod.snd).sum = size - sofar := by
  intro n
  induction n with
  | zero => intro sofar h; simp [spec_chunks_from]; omega
  | succ n ih =>
    intro sofar h
    simp only [spec_chunks_from]
    split
    · simp only [List.map_cons, List.sum_cons]
      rw [ih _ (by omega)]
      omega
    · simp; omega

theorem spec_chunks_from_count (addr size : Nat) : ∀ (n sofar : Nat), size - sofar ≤ n →
    (spec_chunks_from addr size n sofar).length = (size - sofar + 65534) / 65535 := by
  intro n
  induction n with
  | zero => intro sofar h; simp [spec_chunks_from]; omega
  | succ n ih =>
    intro sofar h
    simp only [spec_chunks_from]
    split
    · simp only [List.length_cons]
      rw [ih _ (by omega)]
      omega
    · simp; omega

theorem spec_chunks_from_contig (addr size : Nat) : ∀ (n sofar k : Nat),
    k < (spec_chunks_from addr size n sofar).length →
    ((spec_chunks_from addr size n sofar)[k]?).map Prod.fst =
      some ((addr + sofar +
        (((spec_chunks_from addr size n sofar).take k).map Prod.snd).sum) % U32) := by
  intro n
  induction n with
  | zero => intro sofar k h; simp [spec_chunks_from] at h
  | succ n ih =>
    intro sofar k h
    simp only [spec_chunks_from] at h ⊢
    split at h
    · rename_i hlt
      simp only [if_pos hlt]
      cases k with
      | zero => simp
      | succ k =>
        simp only [List.length_cons, Nat.add_lt_add_iff_right] at h
        simp only [List.getElem?_cons_succ, List.take_succ_cons, List.map_cons, List.sum_cons]
        rw [ih _ k h]
        congr 2
        omega
    · simp at h

theorem spec_chunks_from_nth (addr size : Nat) : ∀ (n sofar k : Nat),
    k < (spec_chunks_from addr size n sofar).length →
    (spec_chunks_from addr size n sofar)[k]? =
      some ((addr + (sofar + 65535 * k)) % U32, min (size - (sofar + 65535 * k)) 65535) := by
  intro n
  induction n with
  | zero => intro sofar k h; simp [spec_chunks_from] at h
  | succ n ih =>
    intro sofar k h
    simp only [spec_chunks_from] at h ⊢
    split at h
    · rename_i hlt
      simp only [if_pos hlt]
      cases k with
      | zero => simp
      | succ k =>
        simp only [List.length_cons, Nat.add_lt_add_iff_right] at h
        simp only [List.getElem?_cons_succ]
        rw [ih _ k h]
        have hk : 0 < (spec_chunks_from addr size n (sofar + min (size - sofar) 65535)).length := by
          omega
        have hfull : min (size - sofar) 65535 = 65535 := by
          by_contra hne
          have : ¬ (sofar + min (size - sofar) 65535 < size) := by omega
          cases n with
          | zero => simp [spec_chunks_from] at hk
          | succ n => simp [spec_chunks_from, this] at hk
        rw [hfull]
        have e1 : sofar + 65535 + 65535 * k = sofar + 65535 * (k + 1) := by omega
        rw [e1]
    · simp at h

/-! ## Whole memory transfers -/

theorem spec_chunks_count (addr size : Nat) :
    (spec_chunks addr size).length = spec_chunk_count size := by
  unfold spec_chunks spec_chunk_count
  rw [spec_chunks_from_count addr size size 0 (by omega)]
  simp

/-- A memory write of less than 2^31 bytes on a device without transport failure returns
success, submits the chunks of the specification and leaves the buffer in memory. -/
theorem write_mem_lands (fuel : Nat) (d : Device) (memaddr : Nat) (buf : Buf) (size : Nat)
    (fast : Bool) (hm : memaddr < U32) (hs : size < 2147483648) (hfuel : size < fuel)
    (hnf : ∀ k, d.faults k = 0) :
    ∃ d1, it8951_sg_write_mem fuel d memaddr buf size fast = some (0, d1) ∧
      d1.log = d.log ++ (spec_chunks memaddr size).map (fun c => Cmd.write_mem c.1 c.2 fast) ∧
      d1.log.length = d.log.length + spec_chunk_count size ∧
      (∀ j, j < size → d1.mem ((memaddr + j) % U32) = buf j) := by
  obtain ⟨d1, h1⟩ := write_mem_loop_total memaddr buf size fast hs fuel 0 d (by omega)
    (by omega) hnf
  obtain ⟨hlog, -, -, -, -, hmem⟩ :=
    write_mem_loop_ok memaddr buf size fast hm hs fuel 0 d d1 (by omega) h1
  have hl := hlog size (by omega)
  refine ⟨d1, h1, hl, ?_, ?_⟩
  · rw [hl, List.length_append, List.length_map]
    exact congrArg _ (spec_chunks_count memaddr size)
  · intro j hj
    rw [hmem]
    have ho : off32 memaddr ((memaddr + j) % U32) = j := by
      simp only [off32, U32] at *; omega
    have hx : (memaddr + j) % U32 < U32 := Nat.mod_lt _ (by decide)
    rw [ho, if_pos ⟨hx, by omega, hj⟩]

/-- A memory read of less than 2^31 bytes on a device without transport failure returns
success, submits the chunks of the specification and delivers the memory content. -/
theorem read_mem_delivers (fuel : Nat) (d : Device) (memaddr : Nat) (buf : Buf) (size : Nat)
    (hs : size < 2147483648) (hfuel : size < fuel) (hnf : ∀ k, d.faults k = 0) :
    ∃ d1 buf1, it8951_sg_read_mem fuel d memaddr buf size = some (0, d1, buf1) ∧
      d1.log = d.log ++ (spec_chunks memaddr size).map (fun c => Cmd.read_mem c.1 c.2) ∧
      d1.log.length = d.log.length + spec_chunk_count size ∧
      (∀ j, j < size → buf1 j = d.mem ((memaddr + j) % U32)) := by
  obtain ⟨d1, buf1, h1⟩ := read_mem_loop_total memaddr size hs fuel 0 d buf (by omega)
    (by omega) hnf
  obtain ⟨hlog, -, -, -, -, -, hbuf⟩ :=
    read_mem_loop_ok memaddr size hs fuel 0 d d1 buf buf1 (by omega) h1
  have hl := hlog size (by omega)
  refine ⟨d1, buf1, h1, hl, ?_, ?_⟩
  · rw [hl, List.length_append, List.length_map]
    exact congrArg _ (spec_chunks_count memaddr size)
  · intro j hj
    rw [hbuf, if_pos ⟨by omega, hj⟩]

/-- C7 (as amended): on a device without transport failure, writing a buffer of exactly
65535, 65536 and 131071 bytes with `it8951_sg_write_mem` returns success after 1, 2 and 3
chunked submissions respectively, and in each case every byte of the buffer is in memory
at the destination address. -/
theorem write_mem_boundary_sizes (fuel : Nat) (d : Device) (memaddr : Nat) (buf : Buf)
    (fast : Bool) (hm : memaddr < U32) (hfuel : 131071 < fuel) (hnf : ∀ k, d.faults k = 0) :
    (∃ d1, it8951_sg_write_mem fuel d memaddr buf 65535 fast = some (0, d1) ∧
      d1.log.length = d.log.length + 1 ∧
      ∀ j, j < 65535 → d1.mem ((memaddr + j) % U32) = buf j) ∧
    (∃ d1, it8951_sg_write_mem fuel d memaddr buf 65536 fast = some (0, d1) ∧
      d1.log.length = d.log.length + 2 ∧
      ∀ j, j < 65536 → d1.mem ((memaddr + j) % U32) = buf j) ∧
    (∃ d1, it8951_sg_write_mem fuel d memaddr buf 131071 fast = some (0, d1) ∧
      d1.log.length = d.log.length + 3 ∧
      ∀ j, j < 131071 → d1.mem ((memaddr + j) % U32) = buf j) := by
  refine ⟨?_, ?_, ?_⟩
  · obtain ⟨d1, h, -, hl, hmem⟩ :=
      write_mem_lands fuel d memaddr buf 65535 fast hm (by decide) (by omega) hnf
    exact ⟨d1, h, hl, hmem⟩
  · obtain ⟨d1, h, -, hl, hmem⟩ :=
      write_mem_lands fuel d memaddr buf 65536 fast hm (by decide) (by omega) hnf
    exact ⟨d1, h, hl, hmem⟩
  · obtain ⟨d1, h, -, hl, hmem⟩ :=
      write_mem_lands fuel d memaddr buf 131071 fast hm (by decide) (by omega) hnf
    exact ⟨d1, h, hl, hmem⟩

theorem write_mem_boundary_sizes_witness :
    (0 : Nat) < U32 ∧ 131071 < 131072 ∧ (∀ k, dev0.faults k = 0) ∧
    ∃ d1, it8951_sg_write_mem 131072 dev0 0 (Buf.ofList [1, 2, 3]) 131071 true =
        some (0, d1) ∧
      d1.log.length = dev0.log.length + 3 ∧
      ∀ j, j < 131071 → d1.mem ((0 + j) % U32) = Buf.ofList [1, 2, 3] j :=
  ⟨by decide, by decide, fun _ => rfl,
    (write_mem_boundary_sizes 131072 dev0 0 (Buf.ofList [1, 2, 3]) true (by decide) (by decide)
      (fun _ => rfl)).2.2⟩

/-- C7 (as stated) fails: a write of 131071 bytes takes three submissions, not two. -/
theorem write_mem_131071_three_chunks :
    ∃ d1, it8951_sg_write_mem 4 dev0 0 (fun _ => 0) 131071 false = some (0, d1) ∧
      d1.log = [Cmd.write_mem 0 65535 false, Cmd.write_mem 65535 65535 false,
        Cmd.write_mem 131070 1 false] ∧
      d1.log.length ≠ 2 := by
  refine ⟨_, rfl, ?_, ?_⟩ <;> decide

/-! ## The `int` byte counter of the memory transfer loops -/

theorem read_mem_loop_step_full (fuel : Nat) (d : Device) (memaddr : Nat) (buf : Buf)
    (size r : Nat) (hr : r < 2147483648) (hfull : r + 65535 ≤ size)
    (hs : size < 9223372036854775808) (hnf : ∀ k, d.faults k = 0) :
    ∃ d1 buf1, it8951_sg_read_mem_loop (fuel + 1) d memaddr buf size r =
        it8951_sg_read_mem_loop fuel d1 memaddr buf1 size (r + 65535) ∧
      d1.log = d.log ++ [Cmd.read_mem ((memaddr + r) % U32) 65535] ∧
      d1.faults = d.faults := by
  have hsx : sext r = r := sext_small r hr
  have hrest : (size + U64 - sext r) % U64 = size - r := by
    rw [hsx]; simp only [U64]; omega
  have hws : (if size - r < (1 <<< 16) - 1 then size - r else (1 <<< 16) - 1) = 65535 := by
    have : (1 <<< 16) - 1 = 65535 := by decide
    rw [this]; split <;> omega
  have hnext : (r + 65535) % U32 = r + 65535 := by
    simp only [U32]; omega
  have he := ioctl_nofault d (.read_mem ((memaddr + r) % U32) 65535) (fun _ => 0) hnf
  refine ⟨(ioctl d (.read_mem ((memaddr + r) % U32) 65535) (fun _ => 0)).2,
    memcpy buf r ((ioctl d (.read_mem ((memaddr + r) % U32) 65535)
      (fun _ => 0)).2.mem_from ((memaddr + r) % U32)) 65535, ?_,
    ioctl_log d (.read_mem ((memaddr + r) % U32) 65535) (fun _ => 0),
    ioctl_faults d _ _⟩
  simp only [it8951_sg_read_mem_loop, hrest, hws, hnext]
  rw [hsx, if_pos (by omega)]
  simp only [he, ne_eq, not_true_eq_false, if_false]

theorem read_mem_loop_full (memaddr size : Nat) (hs : size < 9223372036854775808) :
    ∀ (n fuel r : Nat) (d : Device) (buf : Buf), (∀ k, d.faults k = 0) →
      r + 65535 * n ≤ size → r + 65535 * n < 2147483648 + 65535 →
      ∃ d1 buf1, it8951_sg_read_mem_loop (fuel + n) d memaddr buf size r =
          it8951_sg_read_mem_loop fuel d1 memaddr buf1 size (r + 65535 * n) ∧
        d1.log.length = d.log.length + n ∧ d1.faults = d.faults := by
  intro n
  induction n with
  | zero => intro fuel r d buf _ _ _; exact ⟨d, buf, rfl, rfl, rfl⟩
  | succ n ih =>
    intro fuel r d buf hnf h1 h2
    obtain ⟨d1, buf1, hstep, hlog, hfa⟩ :=
      read_mem_loop_step_full (fuel + n) d memaddr buf size r (by omega) (by omega) hs hnf
    obtain ⟨d2, buf2, hrest, hlog2, hfa2⟩ :=
      ih fuel (r + 65535) d1 buf1 (by intro k; rw [hfa]; exact hnf k) (by omega) (by omega)
    refine ⟨d2, buf2, ?_, ?_, ?_⟩
    · have e : fuel + (n + 1) = fuel + n + 1 := by omega
      rw [e, hstep, hrest]
      congr 1
      omega
    · rw [hlog2, hlog, List.length_append]
      simp; omega
    · rw [hfa2, hfa]

/-- C8 at a failing input: a memory read of 4294967295 bytes (the largest size a caller
holding a `uint32_t` size can pass) returns success after only 32769 submissions: once
`read` passes 2^31 - 1 the `int` counter is negative, its conversion to `size_t` exceeds
`size`, and the loop stops. The specification asks for `ceil(size / 65535) = 65537`
chunks whose lengths sum to `size`. -/
theorem read_mem_int_counter_overflow (k : Nat) (buf : Buf) :
    ∃ d1 buf1, it8951_sg_read_mem (32770 + k) dev0 0 buf 4294967295 = some (0, d1, buf1) ∧
      d1.log.length = 32769 ∧ spec_chunk_count 4294967295 = 65537 ∧
      32769 * 65535 < 4294967295 := by
  obtain ⟨d1, buf1, h, hlen, -⟩ := read_mem_loop_full 0 4294967295 (by decide) 32769 (k + 1) 0
    dev0 buf (fun _ => rfl) (by decide) (by decide)
  refine ⟨d1, buf1, ?_, ?_, by decide, by decide⟩
  · have e : 32770 + k = k + 1 + 32769 := by omega
    unfold it8951_sg_read_mem
    rw [e, h]
    apply read_mem_loop_done
    decide
  · rw [hlen]; rfl

/-! ## Effect of the flash commands -/

theorem program_erased (b : Byte) : program erased b = b := by
  apply Fin.ext
  show 255 &&& b.val = b.val
  rw [Nat.and_comm]
  have h := Nat.and_pow_two_sub_one_eq_mod b.val 8
  norm_num at h
  rw [h]
  exact Nat.mod_eq_of_lt b.isLt

theorem erase_loop_effect (a : Nat) : ∀ (k i : Nat) (d : Device),
    (erase_loop sf a k i d).1 = 0 → a + (i + k) * 65536 ≤ U32 →
    (∀ x, (erase_loop sf a k i d).2.flash x =
      if a + i * 65536 ≤ x ∧ x < a + (i + k) * 65536 then erased else d.flash x) ∧
    (erase_loop sf a k i d).2.mem = d.mem ∧
    (erase_loop sf a k i d).2.faults = d.faults ∧
    (erase_loop sf a k i d).2.width = d.width ∧
    (erase_loop sf a k i d).2.height = d.height := by
  have hb : sf.block_size = 65536 := by decide
  intro k
  induction k with
  | zero =>
    intro i d _ _
    refine ⟨?_, rfl, rfl, rfl, rfl⟩
    intro x
    have : ¬ (a + i * 65536 ≤ x ∧ x < a + (i + 0) * 65536) := by omega
    rw [if_neg this]; rfl
  | succ k ih =>
    intro i d h hr
    simp only [erase_loop, hb] at h ⊢
    generalize hc : Cmd.spi_erase ((a + i * 65536) % U32) (65536 - 1) = c at h ⊢
    by_cases he : (ioctl d c (fun _ => 0)).1 = 0
    · simp only [he, ne_eq, not_true_eq_false, if_false] at h ⊢
      have hd := ioctl_ok d c (fun _ => 0) he
      obtain ⟨hfl, hme, hfa, hwi, hhe⟩ := ih (i + 1) _ h (by omega)
      refine ⟨?_, ?_, ?_, ?_, ?_⟩
      · intro x
        rw [hfl x, hd, ← hc]
        simp only [Device.exec, off32, U32] at *
        split <;> split <;> first | omega | rfl | skip
        all_goals (split <;> first | omega | rfl)
      · rw [hme, hd, ← hc]; rfl
      · rw [hfa, ioctl_faults]
      · rw [hwi, ioctl_width]
      · rw [hhe, ioctl_height]
    · simp only [he, ne_eq, not_false_eq_true, if_true] at h

theorem sf_erase_effect (d : Device) (addr count : Nat) (ha : addr % 65536 = 0)
    (hc : count % 65536 = 0) (hr : addr + count ≤ U32)
    (h : (it8951_sg_sf_erase d sf addr count).1 = 0) :
    (∀ x, (it8951_sg_sf_erase d sf addr count).2.flash x =
      if addr ≤ x ∧ x < addr + count then erased else d.flash x) ∧
    (it8951_sg_sf_erase d sf addr count).2.mem = d.mem ∧
    (it8951_sg_sf_erase d sf addr count).2.faults = d.faults ∧
    (it8951_sg_sf_erase d sf addr count).2.width = d.width ∧
    (it8951_sg_sf_erase d sf addr count).2.height = d.height := by
  have hb : sf.block_size = 65536 := by decide
  have hna : ¬ (addr % sf.block_size ≠ 0) := by rw [hb]; simpa using ha
  have hn : spec_block_count count * 65536 = count := by
    unfold spec_block_count; omega
  unfold it8951_sg_sf_erase at h ⊢
  rw [if_neg hna] at h ⊢
  simp only [erase_n_blocks] at h ⊢
  obtain ⟨hfl, hrest⟩ := erase_loop_effect addr (spec_block_count count) 0 d h (by omega)
  refine ⟨?_, hrest⟩
  intro x
  rw [hfl x]
  have e1 : addr + 0 * 65536 = addr := by omega
  have e2 : addr + (0 + spec_block_count count) * 65536 = addr + count := by omega
  rw [e1, e2]

/-! ## Effect of `sf_read` -/

theorem chunk_size_eq (count read m : Nat) (hr : read ≤ count) (hc : count < U32) :
    (if (count + U32 - read) % U32 < m then (count + U32 - read) % U32 else m) =
      min (count - read) m := by
  have : (count + U32 - read) % U32 = count - read := by
    simp only [U32] at *; omega
  rw [this]; split <;> omega

theorem sg_sf_read_eq (d : Device) (s : Sf) (a m sz : Nat) :
    it8951_sg_sf_read d s a m sz = ioctl d (.spi_read a m sz) (fun _ => 0) := by
  simp [it8951_sg_sf_read, it8951_sg_sf_data]

theorem sg_sf_write_eq (d : Device) (s : Sf) (a m sz : Nat) :
    it8951_sg_sf_write d s a m sz = ioctl d (.spi_write a m sz) (fun _ => 0) := by
  simp [it8951_sg_sf_write, it8951_sg_sf_data]

theorem membuf_size_congr (d d1 : Device) (hw : d1.width = d.width)
    (hh : d1.height = d.height) : membuf_size d1 = membuf_size d := by
  unfold membuf_size; rw [hw, hh]

theorem sf_read_loop_ok (memaddr addr count : Nat) (hm : memaddr < U32)
    (hrange : addr + count ≤ SF_SIZE) :
    ∀ (fuel read : Nat) (d d1 : Device) (buf buf1 : Buf), read ≤ count →
      sf_read_loop fuel d memaddr addr count buf read = some (0, d1, buf1) →
      d1.flash = d.flash ∧ d1.faults = d.faults ∧ d1.width = d.width ∧
      d1.height = d.height ∧
      (∀ i, buf1 i = if read ≤ i ∧ i < count then d.flash (addr + i) else buf i) := by
  have hsz : SF_SIZE = 4194304 := by decide
  intro fuel
  induction fuel with
  | zero => intro read d d1 buf buf1 _ h; simp [sf_read_loop] at h
  | succ fuel ih =>
    intro read d d1 buf buf1 hr h
    simp only [sf_read_loop] at h
    rw [chunk_size_eq count read (membuf_size d) hr (by simp only [U32]; omega)] at h
    have ha : (addr + read) % U32 = addr + read := by simp only [U32]; omega
    rw [sg_sf_read_eq, ha] at h
    generalize hsize : min (count - read) (membuf_size d) = size at h
    have hsl : size ≤ count - read := by omega
    generalize hc : Cmd.spi_read (addr + read) memaddr size = c at h
    by_cases he : (ioctl d c (fun _ => 0)).1 = 0
    · rw [if_neg (by simpa using he)] at h
      have hd := ioctl_ok d c (fun _ => 0) he
      cases hrm : it8951_sg_read_mem fuel (ioctl d c (fun _ => 0)).2 memaddr
          (buf.shift read) size with
      | none => rw [hrm] at h; simp at h
      | some r =>
        obtain ⟨e2, d2, chunk⟩ := r
        rw [hrm] at h
        simp only at h
        by_cases he2 : e2 = 0
        · subst he2
          simp only [ne_eq, not_true_eq_false, if_false] at h
          obtain ⟨-, hfl2, hme2, hfa2, hwi2, hhe2, hbuf2⟩ :=
            read_mem_loop_ok memaddr size (by omega) fuel 0 _ d2 _ chunk (by omega) hrm
          have hnext : (read + size) % U32 = read + size := by simp only [U32]; omega
          rw [hnext] at h
          have hfl1 : (ioctl d c (fun _ => 0)).2.flash = d.flash := by rw [hd, ← hc]; rfl
          have hchunk : ∀ i, read ≤ i →
              buf.put read chunk i =
                if i < read + size then d.flash (addr + i) else buf i := by
            intro i hi
            simp only [Buf.put, if_pos hi]
            rw [hbuf2, hd, ← hc]
            simp only [Device.exec, Buf.shift, off32, U32] at *
            split
            · have hx : (memaddr + (i - read)) % 4294967296 < 4294967296 :=
                Nat.mod_lt _ (by decide)
              have ho : ((memaddr + (i - read)) % 4294967296 + 4294967296 - memaddr) %
                  4294967296 = i - read := by omega
              rw [if_pos ⟨hx, by omega⟩, if_pos (by omega), ho]
              congr 1; omega
            · rw [if_neg (by omega)]
              congr 1; omega
          by_cases hlt : read + size < count
          · rw [if_pos hlt] at h
            obtain ⟨hfl3, hfa3, hwi3, hhe3, hbuf3⟩ := ih (read + size) d2 d1 _ buf1 (by omega) h
            refine ⟨?_, ?_, ?_, ?_, ?_⟩
            · rw [hfl3, hfl2, hfl1]
            · rw [hfa3, hfa2, ioctl_faults]
            · rw [hwi3, hwi2, ioctl_width]
            · rw [hhe3, hhe2, ioctl_height]
            · intro i
              rw [hbuf3 i, hfl2, hfl1]
              by_cases hi : read ≤ i
              · rw [hchunk i hi]
                split <;> split <;> first | omega | rfl | skip
                all_goals (split <;> first | omega | rfl)
              · rw [if_neg (by omega), if_neg (by omega)]
                simp only [Buf.put, if_neg hi]
          · rw [if_neg hlt] at h
            simp only [Option.some.injEq, Prod.mk.injEq, true_and] at h
            obtain ⟨h1, h2⟩ := h
            subst h1; subst h2
            refine ⟨?_, ?_, ?_, ?_, ?_⟩
            · rw [hfl2, hfl1]
            · rw [hfa2, ioctl_faults]
            · rw [hwi2, ioctl_width]
            · rw [hhe2, ioctl_height]
            · intro i
              by_cases hi : read ≤ i
              · rw [hchunk i hi]
                split <;> split <;> first | omega | rfl
              · rw [if_neg (by omega)]
                simp only [Buf.put, if_neg hi]
        · rw [if_pos (by simpa using he2)] at h
          simp only [Option.some.injEq, Prod.mk.injEq] at h
          exact absurd h.1 he2
    · rw [if_pos (by simpa using he)] at h
      simp only [Option.some.injEq, Prod.mk.injEq] at h
      exact absurd h.1 he

theorem sf_read_ok (fuel : Nat) (d d1 : Device) (memaddr addr count : Nat) (buf buf1 : Buf)
    (hm : memaddr < U32) (hrange : addr + count ≤ SF_SIZE)
    (h : sf_read fuel d memaddr addr count buf = some (0, d1, buf1)) :
    d1.flash = d.flash ∧ d1.faults = d.faults ∧ d1.width = d.width ∧
    d1.height = d.height ∧
    (∀ i, buf1 i = if i < count then d.flash (addr + i) else buf i) := by
  have hsz : SF_SIZE = 4194304 := by decide
  unfold sf_read at h
  have hc : ¬ ((addr + count) % U32 > SF_SIZE) := by simp only [U32]; omega
  rw [if_neg hc] at h
  obtain ⟨h1, h2, h3, h4, h5⟩ :=
    sf_read_loop_ok memaddr addr count hm hrange fuel 0 d d1 buf buf1 (by omega) h
  refine ⟨h1, h2, h3, h4, ?_⟩
  intro i
  rw [h5 i]
  simp

theorem sf_read_loop_total (memaddr addr count : Nat) (hrange : addr + count ≤ SF_SIZE) :
    ∀ (fuel read : Nat) (d : Device) (buf : Buf), read ≤ count → count - read + 1 < fuel →
      1 ≤ membuf_size d → (∀ k, d.faults k = 0) →
      ∃ d1 buf1, sf_read_loop fuel d memaddr addr count buf read = some (0, d1, buf1) := by
  have hsz : SF_SIZE = 4194304 := by decide
  intro fuel
  induction fuel with
  | zero => intro read d buf _ h; omega
  | succ fuel ih =>
    intro read d buf hr hf hmb hnf
    simp only [sf_read_loop]
    rw [chunk_size_eq count read (membuf_size d) hr (by simp only [U32]; omega)]
    have ha : (addr + read) % U32 = addr + read := by simp only [U32]; omega
    rw [sg_sf_read_eq, ha]
    generalize hsize : min (count - read) (membuf_size d) = size
    have hsl : size ≤ count - read := by omega
    generalize Cmd.spi_read (addr + read) memaddr size = c
    have he := ioctl_nofault d c (fun _ => 0) hnf
    rw [if_neg (by simpa using he)]
    have hnf1 : ∀ k, (ioctl d c (fun _ => 0)).2.faults k = 0 := by
      intro k; rw [ioctl_faults]; exact hnf k
    obtain ⟨d2, chunk, hrm⟩ := read_mem_loop_total memaddr size (by omega) fuel 0
      (ioctl d c (fun _ => 0)).2 (buf.shift read) (by omega) (by omega) hnf1
    obtain ⟨-, -, -, hfa2, hwi2, hhe2, -⟩ :=
      read_mem_loop_ok memaddr size (by omega) fuel 0 _ d2 _ chunk (by omega) hrm
    have hrm2 : it8951_sg_read_mem fuel (ioctl d c (fun _ => 0)).2 memaddr
        (buf.shift read) size = some (0, d2, chunk) := hrm
    rw [hrm2]
    simp only [ne_eq, not_true_eq_false, if_false]
    have hnext : (read + size) % U32 = read + size := by simp only [U32]; omega
    rw [hnext]
    by_cases hlt : read + size < count
    · rw [if_pos hlt]
      have hmb2 : membuf_size d2 = membuf_size d := by
        apply membuf_size_congr
        · rw [hwi2, ioctl_width]
        · rw [hhe2, ioctl_height]
      apply ih _ _ _ (by omega) (by omega) (by omega)
      intro k; rw [hfa2]; exact hnf1 k
    · rw [if_neg hlt]
      exact ⟨_, _, rfl⟩

theorem sf_read_total (fuel : Nat) (d : Device) (memaddr addr count : Nat) (buf : Buf)
    (hrange : addr + count ≤ SF_SIZE) (hfuel : count + 1 < fuel) (hmb : 1 ≤ membuf_size d)
    (hnf : ∀ k, d.faults k = 0) :
    ∃ d1 buf1, sf_read fuel d memaddr addr count buf = some (0, d1, buf1) := by
  have hsz : SF_SIZE = 4194304 := by decide
  unfold sf_read
  have hc : ¬ ((addr + count) % U32 > SF_SIZE) := by simp only [U32]; omega
  rw [if_neg hc]
  exact sf_read_loop_total memaddr addr count hrange fuel 0 d buf (by omega) (by omega)
    hmb hnf

/-! ## Effect of `sf_verify` -/

theorem sf_verify_ok (fuel : Nat) (d d1 : Device) (memaddr addr size : Nat) (ref junk : Buf)
    (hm : memaddr < U32) (hrange : addr + size ≤ SF_SIZE)
    (h : sf_verify fuel d memaddr addr size ref junk = some (0, d1)) :
    d1.flash = d.flash ∧ d1.faults = d.faults ∧ d1.width = d.width ∧
    d1.height = d.height := by
  unfold sf_verify at h
  cases hr : sf_read fuel d memaddr addr size junk with
  | none => rw [hr] at h; simp at h
  | some r =>
    obtain ⟨e, d2, buf⟩ := r
    rw [hr] at h
    simp only at h
    by_cases he : e = 0
    · subst he
      obtain ⟨h1, h2, h3, h4, -⟩ := sf_read_ok fuel d d2 memaddr addr size junk buf hm hrange hr
      simp only [ne_eq, not_true_eq_false, if_false] at h
      split at h
      · simp only [Option.some.injEq, Prod.mk.injEq, true_and] at h
        subst h
        exact ⟨h1, h2, h3, h4⟩
      · simp [ EIO] at h
    · rw [if_pos (by simpa using he)] at h
      simp only [Option.some.injEq, Prod.mk.injEq] at h
      exact absurd h.1 he

theorem sf_verify_total (fuel : Nat) (d : Device) (memaddr addr size : Nat) (ref junk : Buf)
    (hm : memaddr < U32) (hrange : addr + size ≤ SF_SIZE) (hfuel : size + 1 < fuel)
    (hmb : 1 ≤ membuf_size d) (hnf : ∀ k, d.faults k = 0)
    (hsame : ∀ i, i < size → d.flash (addr + i) = ref i) :
    ∃ d1, sf_verify fuel d memaddr addr size ref junk = some (0, d1) := by
  obtain ⟨d1, buf1, hr⟩ := sf_read_total fuel d memaddr addr size junk hrange hfuel hmb hnf
  obtain ⟨-, -, -, -, hbuf⟩ := sf_read_ok fuel d d1 memaddr addr size junk buf1 hm hrange hr
  refine ⟨d1, ?_⟩
  unfold sf_verify
  rw [hr]
  simp only [ne_eq, not_true_eq_false, if_false]
  have : memcmp_eq buf1 ref size = true := by
    unfold memcmp_eq
    simp only [decide_eq_true_eq]
    intro i hi
    rw [hbuf i, if_pos hi]
    exact hsame i hi
  rw [if_pos this]

/-! ## Effect of `sf_write_aligned` -/

theorem spi_write_effect (d0 d1 : Device) (memaddr a size : Nat) (src : Buf)
    (hm : memaddr < U32) (ha : a + size ≤ U32)
    (hmem : ∀ x, d1.mem x =
      if x < U32 ∧ 0 ≤ off32 memaddr x ∧ off32 memaddr x < size then src (off32 memaddr x)
      else d0.mem x) (x : Nat) :
    (d1.exec (.spi_write a memaddr size) (fun _ => 0)).flash x =
      if a ≤ x ∧ x < a + size then program (d1.flash x) (src (x - a)) else d1.flash x := by
  simp only [Device.exec]
  by_cases hx : a ≤ x ∧ x < a + size
  · have ho : off32 a x = x - a := by simp only [off32, U32] at *; omega
    have hx1 : x < U32 ∧ off32 a x < size := by
      rw [ho]; simp only [U32] at *; omega
    rw [if_pos hx1, if_pos hx, hmem, ho]
    have ho2 : off32 memaddr ((memaddr + (x - a)) % U32) = x - a := by
      simp only [off32, U32] at *; omega
    have hx2 : (memaddr + (x - a)) % U32 < U32 := Nat.mod_lt _ (by decide)
    rw [ho2, if_pos ⟨hx2, by omega, by omega⟩]
  · have hx1 : ¬ (x < U32 ∧ off32 a x < size) := by
      simp only [off32, U32] at *; omega
    rw [if_neg hx1, if_neg hx]

theorem sf_write_aligned_loop_ok (memaddr addr count : Nat) (buf : Buf) (hm : memaddr < U32)
    (hrange : addr + count ≤ SF_SIZE) :
    ∀ (fuel written : Nat) (d d1 : Device), written ≤ count →
      (∀ x, addr + written ≤ x → x < addr + count → d.flash x = erased) →
      sf_write_aligned_loop fuel d memaddr buf count addr written = some (0, d1) →
      (∀ x, d1.flash x =
        if addr + written ≤ x ∧ x < addr + count then buf (x - addr) else d.flash x) ∧
      d1.faults = d.faults ∧ d1.width = d.width ∧ d1.height = d.height := by
  have hsz : SF_SIZE = 4194304 := by decide
  intro fuel
  induction fuel with
  | zero => intro written d d1 _ _ h; simp [sf_write_aligned_loop] at h
  | succ fuel ih =>
    intro written d d1 hw her h
    simp only [sf_write_aligned_loop] at h
    rw [chunk_size_eq count written (membuf_size d) hw (by simp only [U32]; omega)] at h
    have ha : (addr + written) % U32 = addr + written := by simp only [U32]; omega
    rw [ha] at h
    generalize hsize : min (count - written) (membuf_size d) = size at h
    have hsl : size ≤ count - written := by omega
    cases hwm : it8951_sg_write_mem fuel d memaddr (buf.shift written) size false with
    | none => rw [hwm] at h; simp at h
    | some r =>
      obtain ⟨e, d2⟩ := r
      rw [hwm] at h
      simp only at h
      by_cases he : e = 0
      · subst he
        simp only [ne_eq, not_true_eq_false, if_false] at h
        obtain ⟨-, hfl2, hfa2, hwi2, hhe2, hmem2⟩ :=
          write_mem_loop_ok memaddr (buf.shift written) size false hm (by omega) fuel 0 d d2
            (by omega) hwm
        rw [sg_sf_write_eq] at h
        generalize hc : Cmd.spi_write (addr + written) memaddr size = c at h
        by_cases he3 : (ioctl d2 c (fun _ => 0)).1 = 0
        · rw [if_neg (by simpa using he3)] at h
          have hd3 := ioctl_ok d2 c (fun _ => 0) he3
          have hnext : (written + size) % U32 = written + size := by simp only [U32]; omega
          rw [hnext] at h
          have hfl3 : ∀ x, (ioctl d2 c (fun _ => 0)).2.flash x =
              if addr + written ≤ x ∧ x < addr + written + size then buf (x - addr)
              else d.flash x := by
            intro x
            rw [hd3, ← hc]
            show (d2.exec (.spi_write (addr + written) memaddr size) (fun _ => 0)).flash x = _
            rw [spi_write_effect d d2 memaddr (addr + written) size (buf.shift written) hm
              (by simp only [U32]; omega) hmem2 x, hfl2]
            split
            · rename_i hx
              rw [her x (by omega) (by omega), program_erased]
              simp only [Buf.shift]
              congr 1; omega
            · rfl
          by_cases hlt : written + size < count
          · rw [if_pos hlt] at h
            obtain ⟨hfl4, hfa4, hwi4, hhe4⟩ := ih (written + size) _ d1 (by omega)
              (by
                intro x hx1 hx2
                rw [hfl3 x, if_neg (by omega)]
                exact her x (by omega) hx2) h
            refine ⟨?_, ?_, ?_, ?_⟩
            · intro x
              rw [hfl4 x, hfl3 x]
              split <;> split <;> first | omega | rfl | skip
              all_goals (split <;> first | omega | rfl)
            · rw [hfa4, ioctl_faults, hfa2]
            · rw [hwi4, ioctl_width, hwi2]
            · rw [hhe4, ioctl_height, hhe2]
          · rw [if_neg hlt] at h
            simp only [Option.some.injEq, Prod.mk.injEq, true_and] at h
            subst h
            refine ⟨?_, ?_, ?_, ?_⟩
            · intro x
              rw [hfl3 x]
              split <;> split <;> first | omega | rfl
            · rw [ioctl_faults, hfa2]
            · rw [ioctl_width, hwi2]
            · rw [ioctl_height, hhe2]
        · rw [if_pos (by simpa using he3)] at h
          simp only [Option.some.injEq, Prod.mk.injEq] at h
          exact absurd h.1 he3
      · rw [if_pos (by simpa using he)] at h
        simp only [Option.some.injEq, Prod.mk.injEq] at h
        exact absurd h.1 he

theorem sf_write_aligned_loop_total (memaddr addr count : Nat) (buf : Buf)
    (hm : memaddr < U32) (hrange : addr + count ≤ SF_SIZE) :
    ∀ (fuel written : Nat) (d : Device), written ≤ count → count - written + 1 < fuel →
      1 ≤ membuf_size d → (∀ k, d.faults k = 0) →
      ∃ d1, sf_write_aligned_loop fuel d memaddr buf count addr written = some (0, d1) := by
  have hsz : SF_SIZE = 4194304 := by decide
  intro fuel
  induction fuel with
  | zero => intro written d _ h; omega
  | succ fuel ih =>
    intro written d hw hf hmb hnf
    simp only [sf_write_aligned_loop]
    rw [chunk_size_eq count written (membuf_size d) hw (by simp only [U32]; omega)]
    have ha : (addr + written) % U32 = addr + written := by simp only [U32]; omega
    rw [ha]
    generalize hsize : min (count - written) (membuf_size d) = size
    have hsl : size ≤ count - written := by omega
    obtain ⟨d2, hwm⟩ := write_mem_loop_total memaddr (buf.shift written) size false (by omega)
      fuel 0 d (by omega) (by omega) hnf
    obtain ⟨-, -, hfa2, hwi2, hhe2, -⟩ :=
      write_mem_loop_ok memaddr (buf.shift written) size false hm (by omega) fuel 0 d d2
        (by omega) hwm
    have hwm2 : it8951_sg_write_mem fuel d memaddr (buf.shift written) size false =
        some (0, d2) := hwm
    rw [hwm2]
    simp only [ne_eq, not_true_eq_false, if_false]
    rw [sg_sf_write_eq]
    generalize Cmd.spi_write (addr + written) memaddr size = c
    have hnf2 : ∀ k, d2.faults k = 0 := by intro k; rw [hfa2]; exact hnf k
    have he := ioctl_nofault d2 c (fun _ => 0) hnf2
    rw [if_neg (by simpa using he)]
    have hnext : (written + size) % U32 = written + size := by simp only [U32]; omega
    rw [hnext]
    by_cases hlt : written + size < count
    · rw [if_pos hlt]
      have hmb2 : membuf_size (ioctl d2 c (fun _ => 0)).2 = membuf_size d := by
        apply membuf_size_congr
        · rw [ioctl_width, hwi2]
        · rw [ioctl_height, hhe2]
      apply ih _ _ (by omega) (by omega) (by omega)
      intro k; rw [ioctl_faults]; exact hnf2 k
    · rw [if_neg hlt]
      exact ⟨_, rfl⟩

/-- What an aligned flash write that returned success did to the flash. -/
theorem sf_write_aligned_ok (fuel : Nat) (d d1 : Device) (memaddr : Nat) (buf : Buf)
    (count addr : Nat) (verify : Bool) (junk : Buf) (hm : memaddr < U32)
    (ha : addr % 65536 = 0) (hc : count % 65536 = 0) (hrange : addr + count ≤ SF_SIZE)
    (h : sf_write_aligned fuel d memaddr buf count addr verify junk = some (0, d1)) :
    (∀ x, d1.flash x = if addr ≤ x ∧ x < addr + count then buf (x - addr) else d.flash x) ∧
    d1.faults = d.faults ∧ d1.width = d.width ∧ d1.height = d.height := by
  have hsz : SF_SIZE = 4194304 := by decide
  unfold sf_write_aligned at h
  by_cases he : (it8951_sg_sf_erase d sf addr count).1 = 0
  · simp only [he, ne_eq, not_true_eq_false, if_false] at h
    obtain ⟨hfl1, -, hfa1, hwi1, hhe1⟩ :=
      sf_erase_effect d addr count ha hc (by simp only [U32]; omega) he
    cases hl : sf_write_aligned_loop fuel (it8951_sg_sf_erase d sf addr count).2 memaddr buf
        count addr 0 with
    | none => rw [hl] at h; simp at h
    | some r =>
      obtain ⟨e2, d2⟩ := r
      rw [hl] at h
      simp only at h
      by_cases he2 : e2 = 0
      · subst he2
        simp only [ne_eq, not_true_eq_false, if_false] at h
        obtain ⟨hfl2, hfa2, hwi2, hhe2⟩ :=
          sf_write_aligned_loop_ok memaddr addr count buf hm hrange fuel 0 _ d2 (by omega)
            (by intro x hx1 hx2; rw [hfl1 x, if_pos ⟨by omega, hx2⟩]) hl
        have hfl : ∀ x, d2.flash x =
            if addr ≤ x ∧ x < addr + count then buf (x - addr) else d.flash x := by
          intro x
          rw [hfl2 x, hfl1 x]
          split <;> split <;> first | omega | rfl
        cases verify with
        | false =>
          simp only [Bool.false_eq_true, if_false, Option.some.injEq, Prod.mk.injEq,
            true_and] at h
          subst h
          exact ⟨hfl, by rw [hfa2, hfa1], by rw [hwi2, hwi1], by rw [hhe2, hhe1]⟩
        | true =>
          simp only [if_true] at h
          obtain ⟨h1, h2, h3, h4⟩ := sf_verify_ok fuel d2 d1 memaddr addr count buf junk hm
            hrange h
          refine ⟨?_, by rw [h2, hfa2, hfa1], by rw [h3, hwi2, hwi1], by rw [h4, hhe2, hhe1]⟩
          intro x
          rw [h1]; exact hfl x
      · rw [if_pos (by simpa using he2)] at h
        simp only [Option.some.injEq, Prod.mk.injEq] at h
        exact absurd h.1 he2
  · simp only [he, ne_eq, not_false_eq_true, if_true, Option.some.injEq, Prod.mk.injEq] at h
    exact h.1.elim

theorem sf_write_aligned_total (fuel : Nat) (d : Device) (memaddr : Nat) (buf : Buf)
    (count addr : Nat) (verify : Bool) (junk : Buf) (hm : memaddr < U32)
    (ha : addr % 65536 = 0) (hc : count % 65536 = 0) (hrange : addr + count ≤ SF_SIZE)
    (hfuel : count + 1 < fuel) (hmb : 1 ≤ membuf_size d) (hnf : ∀ k, d.faults k = 0) :
    ∃ d1, sf_write_aligned fuel d memaddr buf count addr verify junk = some (0, d1) := by
  have hsz : SF_SIZE = 4194304 := by decide
  have hb : sf.block_size = 65536 := by decide
  have hna : ¬ (addr % sf.block_size ≠ 0) := by rw [hb]; simpa using ha
  have he : (it8951_sg_sf_erase d sf addr count).1 = 0 := by
    unfold it8951_sg_sf_erase
    rw [if_neg hna]
    exact erase_loop_nofault _ _ _ _ _ hnf
  obtain ⟨hfl1, -, hfa1, hwi1, hhe1⟩ :=
    sf_erase_effect d addr count ha hc (by simp only [U32]; omega) he
  have hmb1 : membuf_size (it8951_sg_sf_erase d sf addr count).2 = membuf_size d :=
    membuf_size_congr _ _ hwi1 hhe1
  have hnf1 : ∀ k, (it8951_sg_sf_erase d sf addr count).2.faults k = 0 := by
    intro k; rw [hfa1]; exact hnf k
  obtain ⟨d2, hl⟩ := sf_write_aligned_loop_total memaddr addr count buf hm hrange fuel 0
    (it8951_sg_sf_erase d sf addr count).2 (by omega) (by omega) (by omega) hnf1
  obtain ⟨hfl2, hfa2, hwi2, hhe2⟩ :=
    sf_write_aligned_loop_ok memaddr addr count buf hm hrange fuel 0 _ d2 (by omega)
      (by intro x hx1 hx2; rw [hfl1 x, if_pos ⟨by omega, hx2⟩]) hl
  unfold sf_write_aligned
  simp only [he, ne_eq, not_true_eq_false, if_false, hl]
  cases verify with
  | false => exact ⟨d2, by simp⟩
  | true =>
    simp only [if_true]
    apply sf_verify_total fuel d2 memaddr addr count buf junk hm hrange hfuel
    · rw [membuf_size_congr _ d2 hwi2 hhe2, hmb1]; exact hmb
    · intro k; rw [hfa2]; exact hnf1 k
    · intro i hi
      rw [hfl2, if_pos ⟨by omega, by omega⟩]
      congr 1; omega

/-! ## Effect of `sf_write` -/

theorem sf_write_unfold (fuel : Nat) (d : Device) (memaddr : Nat) (buf : Buf)
    (count addr : Nat) (verify : Bool) (junk : Buf) (hrange : addr + count ≤ SF_SIZE) :
    sf_write fuel d memaddr buf count addr verify junk =
      if addr % 65536 = 0 ∧ count % 65536 = 0 then
        sf_write_aligned fuel d memaddr buf count addr verify junk
      else
        match sf_read fuel d memaddr (addr - addr % 65536)
            ((addr + count + 65535) / 65536 * 65536 - (addr - addr % 65536)) junk with
        | none => none
        | some (e, d1, buf_align) =>
          if e ≠ 0 then some (e, d1)
          else
            sf_write_aligned fuel d1 memaddr (memcpy buf_align (addr % 65536) buf count)
              ((addr + count + 65535) / 65536 * 65536 - (addr - addr % 65536))
              (addr - addr % 65536) verify junk := by
  have hsz : SF_SIZE = 4194304 := by decide
  have hsum : (addr + count) % U32 = addr + count := by simp only [U32]; omega
  have hc : ¬ ((addr + count) % U32 > SF_SIZE) := by rw [hsum]; omega
  have hstart : sf_block_align_prev addr = addr - addr % 65536 :=
    align_prev_eq addr (by simp only [U32]; omega)
  have hend : sf_block_align_next (addr + count) = (addr + count + 65535) / 65536 * 65536 := by
    rw [align_next_eq (addr + count) (by simp only [U32]; omega)]
    simp only [U32]
    split <;> omega
  unfold sf_write
  rw [if_neg hc]
  simp only [hsum, hstart, hend]
  by_cases hal : addr % 65536 = 0 ∧ count % 65536 = 0
  · have h1 : addr - addr % 65536 = addr ∧ (addr + count + 65535) / 65536 * 65536 =
        addr + count := by omega
    rw [if_pos h1, if_pos hal]
  · have h1 : ¬ (addr - addr % 65536 = addr ∧ (addr + count + 65535) / 65536 * 65536 =
        addr + count) := by omega
    have hoff : (addr + U32 - (addr - addr % 65536)) % U32 = addr % 65536 := by
      simp only [U32]; omega
    have hsize : ((addr + count + 65535) / 65536 * 65536 + U32 - (addr - addr % 65536)) % U32 =
        (addr + count + 65535) / 65536 * 65536 - (addr - addr % 65536) := by
      simp only [U32]; omega
    have hint : ¬ (2147483648 ≤
        (addr + count + 65535) / 65536 * 65536 - (addr - addr % 65536)) := by omega
    rw [if_neg h1, if_neg hal, hoff, hsize, if_neg hint]

/-- What a flash write that returned success did to the flash: the caller's bytes are at
`[addr, addr + count)` and every other byte is as before. -/
theorem sf_write_ok (fuel : Nat) (d d1 : Device) (memaddr : Nat) (buf : Buf)
    (count addr : Nat) (verify : Bool) (junk : Buf) (hm : memaddr < U32)
    (hrange : addr + count ≤ SF_SIZE)
    (h : sf_write fuel d memaddr buf count addr verify junk = some (0, d1)) :
    (∀ x, d1.flash x = if addr ≤ x ∧ x < addr + count then buf (x - addr) else d.flash x) ∧
    d1.faults = d.faults ∧ d1.width = d.width ∧ d1.height = d.height := by
  have hsz : SF_SIZE = 4194304 := by decide
  rw [sf_write_unfold fuel d memaddr buf count addr verify junk hrange] at h
  by_cases hal : addr % 65536 = 0 ∧ count % 65536 = 0
  · rw [if_pos hal] at h
    exact sf_write_aligned_ok fuel d d1 memaddr buf count addr verify junk hm hal.1 hal.2
      hrange h
  · rw [if_neg hal] at h
    generalize hstart : addr - addr % 65536 = start at h
    generalize hsize : (addr + count + 65535) / 65536 * 65536 - start = size at h
    have hs1 : start % 65536 = 0 := by omega
    have hs2 : size % 65536 = 0 := by omega
    have hs3 : start + size ≤ SF_SIZE := by omega
    cases hr : sf_read fuel d memaddr start size junk with
    | none => rw [hr] at h; simp at h
    | some r =>
      obtain ⟨e, d2, buf_align⟩ := r
      rw [hr] at h
      simp only at h
      by_cases he : e = 0
      · subst he
        simp only [ne_eq, not_true_eq_false, if_false] at h
        obtain ⟨hfl2, hfa2, hwi2, hhe2, hbuf2⟩ :=
          sf_read_ok fuel d d2 memaddr start size junk buf_align hm hs3 hr
        obtain ⟨hfl3, hfa3, hwi3, hhe3⟩ :=
          sf_write_aligned_ok fuel d2 d1 memaddr _ size start verify junk hm hs1 hs2 hs3 h
        refine ⟨?_, by rw [hfa3, hfa2], by rw [hwi3, hwi2], by rw [hhe3, hhe2]⟩
        intro x
        rw [hfl3 x, hfl2]
        by_cases hx : start ≤ x ∧ x < start + size
        · rw [if_pos hx]
          simp only [memcpy]
          by_cases hx2 : addr ≤ x ∧ x < addr + count
          · rw [if_pos hx2, if_pos (by omega)]
            congr 1; omega
          · rw [if_neg hx2, if_neg (by omega), hbuf2, if_pos (by omega)]
            congr 1; omega
        · rw [if_neg hx, if_neg (by omega)]
      · rw [if_pos (by simpa using he)] at h
        simp only [Option.some.injEq, Prod.mk.injEq] at h
        exact absurd h.1 he

/-- On a device without transport failure and with a non-empty memory bridge, every
in-range flash write returns success. -/
theorem sf_write_total (fuel : Nat) (d : Device) (memaddr : Nat) (buf : Buf)
    (count addr : Nat) (verify : Bool) (junk : Buf) (hm : memaddr < U32)
    (hrange : addr + count ≤ SF_SIZE) (hfuel : SF_SIZE + 1 < fuel)
    (hmb : 1 ≤ membuf_size d) (hnf : ∀ k, d.faults k = 0) :
    ∃ d1, sf_write fuel d memaddr buf count addr verify junk = some (0, d1) := by
  have hsz : SF_SIZE = 4194304 := by decide
  rw [sf_write_unfold fuel d memaddr buf count addr verify junk hrange]
  by_cases hal : addr % 65536 = 0 ∧ count % 65536 = 0
  · rw [if_pos hal]
    exact sf_write_aligned_total fuel d memaddr buf count addr verify junk hm hal.1 hal.2
      hrange (by omega) hmb hnf
  · rw [if_neg hal]
    generalize hstart : addr - addr % 65536 = start
    generalize hsize : (addr + count + 65535) / 65536 * 65536 - start = size
    have hs1 : start % 65536 = 0 := by omega
    have hs2 : size % 65536 = 0 := by omega
    have hs3 : start + size ≤ SF_SIZE := by omega
    obtain ⟨d2, buf_align, hr⟩ :=
      sf_read_total fuel d memaddr start size junk hs3 (by omega) hmb hnf
    obtain ⟨-, hfa2, hwi2, hhe2, -⟩ :=
      sf_read_ok fuel d d2 memaddr start size junk buf_align hm hs3 hr
    rw [hr]
    simp only [ne_eq, not_true_eq_false, if_false]
    apply sf_write_aligned_total fuel d2 memaddr _ size start verify junk hm hs1 hs2 hs3
      (by omega)
    · rw [membuf_size_congr d d2 hwi2 hhe2]; exact hmb
    · intro k; rw [hfa2]; exact hnf k

theorem buf_take_ofList (out : Buf) (B : List Byte)
    (h : ∀ i, i < B.length → out i = Buf.ofList B i) : out.take B.length = B := by
  apply List.ext_getElem
  · simp [Buf.take]
  · intro i h1 h2
    simp only [Buf.take, List.getElem_map, List.getElem_range]
    rw [h i h2]
    simp [Buf.ofList, List.getD, List.getElem?_eq_getElem h2]

/-- C1: on a device without transport failure whose memory bridge `width * height` (as the
code computes it) holds at least one byte, writing the byte string `B` at any flash
address `A` with `A + len(B) <= 4 MiB` succeeds, and reading `len(B)` bytes back from `A`
succeeds and returns exactly `B`. Nothing is assumed on the alignment of `A` or `len(B)`,
on the prior flash content, or on the `verify` flag. -/
theorem sf_write_read_roundtrip (fuel : Nat) (d : Device) (memaddr A : Nat) (B : List Byte)
    (verify : Bool) (junk out0 : Buf) (hm : memaddr < U32)
    (hrange : A + B.length ≤ SF_SIZE) (hfuel : SF_SIZE + 1 < fuel)
    (hmb : 1 ≤ membuf_size d) (hnf : ∀ k, d.faults k = 0) :
    ∃ d1 d2 out,
      sf_write fuel d memaddr (Buf.ofList B) B.length A verify junk = some (0, d1) ∧
      sf_read fuel d1 memaddr A B.length out0 = some (0, d2, out) ∧
      out.take B.length = B := by
  have hsz : SF_SIZE = 4194304 := by decide
  obtain ⟨d1, hw⟩ := sf_write_total fuel d memaddr (Buf.ofList B) B.length A verify junk hm
    hrange hfuel hmb hnf
  obtain ⟨hfl1, hfa1, hwi1, hhe1⟩ :=
    sf_write_ok fuel d d1 memaddr (Buf.ofList B) B.length A verify junk hm hrange hw
  obtain ⟨d2, out, hr⟩ := sf_read_total fuel d1 memaddr A B.length out0 hrange (by omega)
    (by rw [membuf_size_congr d d1 hwi1 hhe1]; exact hmb) (by intro k; rw [hfa1]; exact hnf k)
  obtain ⟨-, -, -, -, hout⟩ := sf_read_ok fuel d1 d2 memaddr A B.length out0 out hm hrange hr
  refine ⟨d1, d2, out, hw, hr, ?_⟩
  apply buf_take_ofList
  intro i hi
  rw [hout i, if_pos hi, hfl1, if_pos ⟨by omega, by omega⟩]
  congr 1; omega

/-- C2: after a successful `sf_write` of an in-range region, every flash byte outside
`[addr, addr + len)` holds the value it had before the write; in particular the bytes of
`[alignDown(addr), addr)` and `[addr + len, alignUp(addr + len))`, which an unaligned
write erases together with the region. This holds whatever the alignment of the region.
On a device without transport failure and with a non-empty memory bridge the write is
successful. -/
theorem sf_write_preserves_outside (fuel : Nat) (d : Device) (memaddr : Nat) (buf : Buf)
    (count addr : Nat) (verify : Bool) (junk : Buf) (hm : memaddr < U32)
    (hrange : addr + count ≤ SF_SIZE) :
    (∀ d1, sf_write fuel d memaddr buf count addr verify junk = some (0, d1) →
      (∀ x, ¬ (addr ≤ x ∧ x < addr + count) → d1.flash x = d.flash x) ∧
      (∀ x, sf_block_align_prev addr ≤ x → x < addr → d1.flash x = d.flash x) ∧
      (∀ x, addr + count ≤ x → x < sf_block_align_next (addr + count) →
        d1.flash x = d.flash x)) ∧
    (SF_SIZE + 1 < fuel → 1 ≤ membuf_size d → (∀ k, d.faults k = 0) →
      ∃ d1, sf_write fuel d memaddr buf count addr verify junk = some (0, d1)) := by
  refine ⟨?_, ?_⟩
  · intro d1 h
    obtain ⟨hfl, -⟩ := sf_write_ok fuel d d1 memaddr buf count addr verify junk hm hrange h
    refine ⟨?_, ?_, ?_⟩
    · intro x hx
      rw [hfl x, if_neg hx]
    · intro x _ hx
      rw [hfl x, if_neg (by omega)]
    · intro x hx _
      rw [hfl x, if_neg (by omega)]
  · intro hfuel hmb hnf
    exact sf_write_total fuel d memaddr buf count addr verify junk hm hrange hfuel hmb hnf

theorem sf_write_read_roundtrip_witness :
    (1048576 : Nat) < U32 ∧ 100 + [(1 : Byte), 2, 3].length ≤ SF_SIZE ∧
    1 ≤ membuf_size dev0 ∧
    ∃ d1 d2 out,
      sf_write 4194306 dev0 1048576 (Buf.ofList [1, 2, 3]) [(1 : Byte), 2, 3].length 100 true
        (fun _ => 0) = some (0, d1) ∧
      sf_read 4194306 d1 1048576 100 [(1 : Byte), 2, 3].length (fun _ => 0) =
        some (0, d2, out) ∧
      out.take [(1 : Byte), 2, 3].length = [1, 2, 3] :=
  ⟨by decide, by decide, by decide,
    sf_write_read_roundtrip 4194306 dev0 1048576 100 [1, 2, 3] true (fun _ => 0) (fun _ => 0)
      (by decide) (by decide) (by decide) (by decide) (fun _ => rfl)⟩

theorem sf_write_preserves_outside_witness :
    (1048576 : Nat) < U32 ∧ 100 + 10 ≤ SF_SIZE ∧
    ∃ d1, sf_write 4194306 dev0 1048576 (fun _ => 7) 10 100 true (fun _ => 0) = some (0, d1) ∧
      (∀ x, ¬ (100 ≤ x ∧ x < 100 + 10) → d1.flash x = dev0.flash x) := by
  have h := sf_write_preserves_outside 4194306 dev0 1048576 (fun _ => 7) 10 100 true
    (fun _ => 0) (by decide) (by decide)
  obtain ⟨d1, h1⟩ := h.2 (by decide) (by decide) (fun _ => rfl)
  exact ⟨by decide, by decide, d1, h1, (h.1 d1 h1).1⟩

/-! ## The range checks of `sf_write` and `sf_read` -/

/-- C3 at a failing input: for `addr = 0xffff0000` and `count = 65536` the sum
`addr + count` is 2^32, far beyond the 4 MiB flash, but its 32-bit value is 0, so the
range check passes: `sf_write` returns success after an erase command, two memory writes
and a memory-to-flash command at `0xffff0000`. -/
theorem sf_write_range_check_wraps :
    4294901760 + 65536 > SF_SIZE ∧
    ∃ d1, sf_write 4 dev1 0 (fun _ => 0) 65536 4294901760 false (fun _ => 0) = some (0, d1) ∧
      d1.log = [Cmd.spi_erase 4294901760 65535, Cmd.write_mem 0 65535 false,
        Cmd.write_mem 65535 1 false, Cmd.spi_write 4294901760 0 65536] := by
  refine ⟨by decide, _, rfl, ?_⟩
  decide

/-- C4 at a failing input: for `addr = 0xffffffff` and `count = 1` the sum `addr + count`
is 2^32, but its 32-bit value is 0, so the range check passes: `sf_read` returns success
after a flash-to-memory command at `0xffffffff` and a memory read. -/
theorem sf_read_range_check_wraps :
    4294967295 + 1 > SF_SIZE ∧
    ∃ d1 out, sf_read 3 dev0 0 4294967295 1 (fun _ => 0) = some (0, d1, out) ∧
      d1.log = [Cmd.spi_read 4294967295 0 1, Cmd.read_mem 0 1] := by
  refine ⟨by decide, _, _, rfl, ?_⟩
  decide

/-- In the absence of 32-bit wrap-around the range check of `sf_write` rejects every
request that ends beyond the flash, before any command is submitted. -/
theorem sf_write_out_of_range (fuel : Nat) (d : Device) (memaddr : Nat) (buf : Buf)
    (count addr : Nat) (verify : Bool) (junk : Buf) (hlt : addr + count < U32)
    (hbig : SF_SIZE < addr + count) :
    sf_write fuel d memaddr buf count addr verify junk = some (EINVAL, d) := by
  unfold sf_write
  rw [Nat.mod_eq_of_lt hlt, if_pos hbig]

/-- In the absence of 32-bit wrap-around the range check of `sf_read` rejects every
request that ends beyond the flash, before any command is submitted. -/
theorem sf_read_out_of_range (fuel : Nat) (d : Device) (memaddr addr count : Nat) (buf : Buf)
    (hlt : addr + count < U32) (hbig : SF_SIZE < addr + count) :
    sf_read fuel d memaddr addr count buf = some (EINVAL, d, buf) := by
  unfold sf_read
  rw [Nat.mod_eq_of_lt hlt, if_pos hbig]

/-- The chunk list of the specification: every chunk holds 1 to 65535 bytes, each chunk
starts where the previous ones end, the lengths sum to `size`, and there are
`ceil(size / 65535)` chunks. -/
theorem spec_chunks_props (addr size : Nat) :
    (∀ c, c ∈ spec_chunks addr size → 1 ≤ c.2 ∧ c.2 ≤ 65535) ∧
    (∀ k, k < (spec_chunks addr size).length →
      ((spec_chunks addr size)[k]?).map Prod.fst =
        some ((addr + (((spec_chunks addr size).take k).map Prod.snd).sum) % U32)) ∧
    ((spec_chunks addr size).map Prod.snd).sum = size ∧
    (spec_chunks addr size).length = spec_chunk_count size := by
  refine ⟨?_, ?_, ?_, spec_chunks_count addr size⟩
  · intro c hc
    exact spec_chunks_from_len addr size size 0 c hc
  · intro k hk
    have := spec_chunks_from_contig addr size size 0 k hk
    simpa [spec_chunks] using this
  · have := spec_chunks_from_sum addr size size 0 (by omega)
    simpa [spec_chunks] using this

/-! ## `sf_block_align_next` -/

/-- C11 (as amended): for every 32-bit address up to `0xffff0000`, `sf_block_align_next`
returns a multiple of the block size that is at least the address and less than one
block above it; for the addresses above `0xffff0000` the 32-bit sum wraps and the function
returns 0. -/
theorem sf_block_align_next_ge (addr : Nat) (h : addr < U32) :
    (addr ≤ 4294901760 →
      addr ≤ sf_block_align_next addr ∧ sf_block_align_next addr < addr + sf.block_size ∧
      sf_block_align_next addr % sf.block_size = 0) ∧
    (4294901760 < addr → sf_block_align_next addr = 0) := by
  have hb : sf.block_size = 65536 := by decide
  rw [align_next_eq addr h, hb]
  simp only [U32] at *
  refine ⟨?_, ?_⟩
  · intro hle
    split <;> omega
  · intro hgt
    split <;> omega

theorem sf_block_align_next_ge_witness :
    (70000 : Nat) < U32 ∧ (70000 : Nat) ≤ 4294901760 ∧
    70000 ≤ sf_block_align_next 70000 ∧ sf_block_align_next 70000 < 70000 + sf.block_size ∧
    sf_block_align_next 70000 % sf.block_size = 0 :=
  ⟨by decide, by decide, (sf_block_align_next_ge 70000 (by decide)).1 (by decide)⟩

/-- C11 (as stated) fails: the address `0xffffffff` is aligned up to 0. -/
theorem sf_block_align_next_wraps :
    sf_block_align_next 4294967295 = 0 ∧ ¬ (4294967295 ≤ sf_block_align_next 4294967295) := by
  decide

/-- C12: on a 32-bit address that is a multiple of the block size `sf_block_align_next`
is the identity. -/
theorem sf_block_align_next_aligned (addr : Nat) (h : addr < U32)
    (ha : addr % sf.block_size = 0) : sf_block_align_next addr = addr := by
  have hb : sf.block_size = 65536 := by decide
  rw [hb] at ha
  rw [align_next_eq addr h, if_pos ha]

theorem sf_block_align_next_aligned_witness :
    (4128768 : Nat) < U32 ∧ 4128768 % sf.block_size = 0 ∧
    sf_block_align_next 4128768 = 4128768 :=
  ⟨by decide, by decide, sf_block_align_next_aligned 4128768 (by decide) (by decide)⟩

/-! ## `memaddr_to_arg` -/

/-- C17: `memaddr_to_arg` sets the top bit of the buffer indexes 0, 1 and 2 (the result is
`0x80000000 | m`, that is `0x80000000 + m`) and returns every value from 3 on unmodified. -/
theorem memaddr_to_arg_encoding (dev : Device) (m : Nat) :
    (m < 3 → memaddr_to_arg dev m = 2147483648 ||| m ∧
      memaddr_to_arg dev m = 2147483648 + m) ∧
    (3 ≤ m → memaddr_to_arg dev m = m) := by
  refine ⟨?_, ?_⟩
  · intro h
    unfold memaddr_to_arg
    rw [if_pos h]
    interval_cases m <;> decide
  · intro h
    unfold memaddr_to_arg
    rw [if_neg (by omega)]

theorem memaddr_to_arg_encoding_witness :
    (2 : Nat) < 3 ∧ memaddr_to_arg dev0 2 = 2147483648 ||| 2 ∧
    memaddr_to_arg dev0 2 = 2147483648 + 2 ∧ (3 : Nat) ≤ 3 ∧ memaddr_to_arg dev0 3 = 3 :=
  ⟨by decide, ((memaddr_to_arg_encoding dev0 2).1 (by decide)).1,
    ((memaddr_to_arg_encoding dev0 2).1 (by decide)).2, by decide,
    (memaddr_to_arg_encoding dev0 3).2 (by decide)⟩

/-! ## `sanitize_zone` -/

/-- The panel step of `sanitize_zone` on one axis: `pos` is `x` or `y`, `len` the width or
height left by the image step, `lim` the panel width or height. -/
theorem panel_clamp_le (pos len : Int) (lim : Nat) (hp : is_int pos) (hl : is_int len)
    (hlim : lim < U32) :
    pos + (if len = 0 ∨ to_u32 (wrap_int (pos + len)) > (lim : Int) then
      wrap_int (to_u32 ((lim : Int) - to_u32 pos)) else len) ≤ (lim : Int) := by
  unfold is_int at hp hl
  simp only [to_u32, wrap_int, U32] at *
  split <;> omega

theorem is_int_ite (c : Prop) [Decidable c] (a b : Int) (ha : is_int a) (hb : is_int b) :
    is_int (if c then a else b) := by
  split
  · exact ha
  · exact hb

/-- C13: for every user zone with `int` fields, non-negative ones in particular (or no
user zone), every 32-bit panel geometry and every optional image with `int` dimensions,
the zone returned by `sanitize_zone` satisfies `x + width <= panel.width` and
`y + height <= panel.height` (sums of integers; the width and height may be negative). -/
theorem sanitize_zone_within_panel (user : Option Zone) (dev : Device) (img : Option Image)
    (hu : ∀ u, user = some u → is_int u.x ∧ is_int u.y ∧ is_int u.width ∧ is_int u.height)
    (hi : ∀ i, img = some i → is_int i.width ∧ is_int i.height)
    (hw : dev.width < U32) (hh : dev.height < U32) :
    (sanitize_zone user dev img).1 = 0 ∧
    (sanitize_zone user dev img).2.x + (sanitize_zone user dev img).2.width ≤ (dev.width : Int) ∧
    (sanitize_zone user dev img).2.y + (sanitize_zone user dev img).2.height ≤
      (dev.height : Int) := by
  have h0 : is_int 0 := by unfold is_int; omega
  refine ⟨rfl, ?_, ?_⟩
  · cases user with
    | none =>
      cases img with
      | none => exact panel_clamp_le 0 0 dev.width h0 h0 hw
      | some i =>
        simp only [sanitize_zone]
        exact panel_clamp_le _ _ _ h0 (is_int_ite _ _ _ (hi i rfl).1 h0) hw
    | some u =>
      obtain ⟨hx, -, hwd, -⟩ := hu u rfl
      cases img with
      | none => exact panel_clamp_le u.x u.width dev.width hx hwd hw
      | some i =>
        simp only [sanitize_zone]
        exact panel_clamp_le _ _ _ hx (is_int_ite _ _ _ (hi i rfl).1 hwd) hw
  · cases user with
    | none =>
      cases img with
      | none => exact panel_clamp_le 0 0 dev.height h0 h0 hh
      | some i =>
        simp only [sanitize_zone]
        exact panel_clamp_le _ _ _ h0 (is_int_ite _ _ _ (hi i rfl).2 h0) hh
    | some u =>
      obtain ⟨-, hy, -, hht⟩ := hu u rfl
      cases img with
      | none => exact panel_clamp_le u.y u.height dev.height hy hht hh
      | some i =>
        simp only [sanitize_zone]
        exact panel_clamp_le _ _ _ hy (is_int_ite _ _ _ (hi i rfl).2 hht) hh

theorem sanitize_zone_within_panel_witness :
    (sanitize_zone (some ⟨1300, 0, 500, 2000⟩) panel_1200x1600 (some image_400x300)).1 = 0 ∧
    (sanitize_zone (some ⟨1300, 0, 500, 2000⟩) panel_1200x1600 (some image_400x300)).2.x +
      (sanitize_zone (some ⟨1300, 0, 500, 2000⟩) panel_1200x1600 (some image_400x300)).2.width ≤
      (panel_1200x1600.width : Int) ∧
    (sanitize_zone (some ⟨1300, 0, 500, 2000⟩) panel_1200x1600 (some image_400x300)).2.y +
      (sanitize_zone (some ⟨1300, 0, 500, 2000⟩) panel_1200x1600 (some image_400x300)).2.height ≤
      (panel_1200x1600.height : Int) :=
  sanitize_zone_within_panel (some ⟨1300, 0, 500, 2000⟩) panel_1200x1600 (some image_400x300)
    (by
      intro u hu
      simp only [Option.some.injEq] at hu
      subst hu
      unfold is_int
      decide)
    (by
      intro i hi
      simp only [Option.some.injEq] at hi
      subst hi
      unfold is_int
      decide)
    (by decide) (by decide)

/-- C14 at a failing input: with a 400x300 image and a user zone of width 100 and height
1000 on a 1200x1600 panel, the height test of the image step compares the zone *width*
(100) with the image height (300), so the height is not clamped: the sanitized zone is
1000 rows high, more than the 300 rows of the image. -/
theorem sanitize_zone_height_not_clamped :
    sanitize_zone (some ⟨0, 0, 100, 1000⟩) panel_1200x1600 (some image_400x300) =
      (0, ⟨0, 0, 100, 1000⟩) ∧
    ¬ ((1000 : Int) ≤ image_400x300.height) := by
  decide

/-- The width is clamped to the width of an image that has at least one column. -/
theorem sanitize_zone_width_le_image (u : Zone) (dev : Device) (i : Image)
    (hx : 0 ≤ u.x ∧ is_int u.x) (hwd : 0 ≤ u.width ∧ is_int u.width)
    (hi : 1 ≤ i.width ∧ is_int i.width) (hw : dev.width < U32) :
    (sanitize_zone (some u) dev (some i)).2.width ≤ i.width := by
  unfold is_int at *
  simp only [sanitize_zone, to_u32, wrap_int, U32] at *
  split <;> split <;> omega

/-- C15 (as amended): for an unset zone at `(x, y)` inside the panel and an image with at
least one column and one row, `sanitize_zone` returns the width
`min(image.width, panel.width - x)` and the height `min(image.height, panel.height - y)`;
on the 1200x1600 panel with the 400x300 image and `x = 1100`, `y = 0` this is the zone
`x = 1100, y = 0, width = 100, height = 300`. -/
theorem sanitize_zone_unset (dev : Device) (i : Image) (x y : Int)
    (hx : 0 ≤ x ∧ x ≤ dev.width ∧ is_int x) (hy : 0 ≤ y ∧ y ≤ dev.height ∧ is_int y)
    (hiw : 1 ≤ i.width ∧ is_int i.width) (hih : 1 ≤ i.height ∧ is_int i.height)
    (hw : dev.width < U32) (hh : dev.height < U32) :
    sanitize_zone (some ⟨x, y, 0, 0⟩) dev (some i) =
      (0, ⟨x, y, min i.width ((dev.width : Int) - x), min i.height ((dev.height : Int) - y)⟩) ∧
    sanitize_zone (some ⟨1100, 0, 0, 0⟩) panel_1200x1600 (some image_400x300) =
      (0, ⟨1100, 0, 100, 300⟩) := by
  refine ⟨?_, by decide⟩
  unfold is_int at *
  simp only [sanitize_zone, to_u32, wrap_int, U32, true_or, if_true, Prod.mk.injEq,
    Zone.mk.injEq, true_and] at *
  refine ⟨?_, ?_⟩
  · split <;> omega
  · split <;> omega

theorem sanitize_zone_unset_witness :
    sanitize_zone (some ⟨1100, 0, 0, 0⟩) panel_1200x1600 (some image_400x300) =
      (0, ⟨1100, 0, min image_400x300.width ((panel_1200x1600.width : Int) - 1100),
        min image_400x300.height ((panel_1200x1600.height : Int) - 0)⟩) :=
  (sanitize_zone_unset panel_1200x1600 image_400x300 1100 0
    (by unfold is_int; decide) (by unfold is_int; decide) (by unfold is_int; decide)
    (by unfold is_int; decide) (by decide) (by decide)).1

/-- C15 (as stated) fails on an image without columns: the image step leaves the width
at 0, which the panel step takes for an unset width and replaces by the rest of the
panel, 100, where `min(image.width, panel.width - x)` is 0. -/
theorem sanitize_zone_unset_empty_image :
    sanitize_zone (some ⟨1100, 0, 0, 0⟩) panel_1200x1600 (some image_0x300) =
      (0, ⟨1100, 0, 100, 300⟩) ∧
    min image_0x300.width ((panel_1200x1600.width : Int) - 1100) = 0 := by
  decide

/-- C16 at a failing input: a user zone at `x = 1300` on a 1200 pixel wide panel gets the
width `1200 - 1300 = -100`. -/
theorem sanitize_zone_negative_width :
    sanitize_zone (some ⟨1300, 0, 0, 0⟩) panel_1200x1600 none = (0, ⟨1300, 0, -100, 1600⟩) ∧
    (sanitize_zone (some ⟨1300, 0, 0, 0⟩) panel_1200x1600 none).2.width < 0 := by
  decide

/-- The panel step on one axis keeps a non-negative length non-negative when the
position is inside a panel of `int` size. -/
theorem panel_clamp_nonneg (pos len : Int) (lim : Nat) (hp : 0 ≤ pos ∧ pos ≤ (lim : Int))
    (hl : 0 ≤ len ∧ is_int len) (hlim : lim < 2147483648) :
    0 ≤ (if len = 0 ∨ to_u32 (wrap_int (pos + len)) > (lim : Int) then
      wrap_int (to_u32 ((lim : Int) - to_u32 pos)) else len) := by
  unfold is_int at hl
  simp only [to_u32, wrap_int] at *
  split <;> omega

/-- Without an image, a zone placed inside a panel of `int` size keeps a non-negative
width and height. -/
theorem sanitize_zone_nonneg (u : Zone) (dev : Device)
    (hx : 0 ≤ u.x ∧ u.x ≤ (dev.width : Int)) (hy : 0 ≤ u.y ∧ u.y ≤ (dev.height : Int))
    (hwd : 0 ≤ u.width ∧ is_int u.width) (hht : 0 ≤ u.height ∧ is_int u.height)
    (hw : dev.width < 2147483648) (hh : dev.height < 2147483648) :
    0 ≤ (sanitize_zone (some u) dev none).2.width ∧
    0 ≤ (sanitize_zone (some u) dev none).2.height :=
  ⟨panel_clamp_nonneg u.x u.width dev.width hx hwd hw,
    panel_clamp_nonneg u.y u.height dev.height hy hht hh⟩

/-! ## Opening the channel -/

theorem check_signature_iff (dev : it8951_device) :
    (it8951_check_signature dev = 0 ↔ dev.signature = 0x38393531) ∧
    (dev.signature ≠ 0x38393531 → it8951_check_signature dev = ENODEV) := by
  unfold it8951_check_signature supported_signatures
  simp only [List.any_cons, List.any_nil, Bool.or_false, beq_iff_eq]
  refine ⟨?_, ?_⟩
  · constructor
    · intro h
      by_contra hne
      rw [if_neg (fun h2 => hne h2.symm)] at h
      exact absurd h (by decide)
    · intro h
      rw [if_pos h.symm]
  · intro hne
    rw [if_neg (fun h2 => hne h2.symm)]

/-- C20: `it8951_check_signature` returns 0 exactly when the decoded signature is
`0x38393531`, and ENODEV otherwise. Whenever `it8951_sg_open` delivers a channel the
decoded signature is `0x38393531`; when the device file opens and the identity
handshake succeeds, `it8951_sg_open` returns 0 with a channel for that signature, and
ENODEV without a channel for every other signature. -/
theorem open_only_whitelisted (h : Host) :
    (∀ dev : it8951_device,
      (it8951_check_signature dev = 0 ↔ dev.signature = 0x38393531) ∧
      (dev.signature ≠ 0x38393531 → it8951_check_signature dev = ENODEV)) ∧
    (∀ data, (it8951_sg_open h).2 = some data →
      (it8951_sg_open h).1 = 0 ∧ data.dev.signature = 0x38393531 ∧
      data.dev.signature = be32toh h.sysinfo 8) ∧
    (h.open_errno = 0 → h.sg_errno = 0 → be32toh h.sysinfo 8 ≠ 0x38393531 →
      it8951_sg_open h = (ENODEV, none)) ∧
    (h.open_errno = 0 → h.sg_errno = 0 → be32toh h.sysinfo 8 = 0x38393531 →
      (it8951_sg_open h).1 = 0 ∧ (it8951_sg_open h).2 ≠ none) := by
  refine ⟨check_signature_iff, ?_, ?_, ?_⟩
  · intro data hd
    unfold it8951_sg_open at hd ⊢
    by_cases ho : h.open_errno = 0
    · by_cases hs : h.sg_errno = 0
      · simp only [ho, hs, it8951_sg_get_sys, ne_eq, not_true_eq_false, if_false] at hd ⊢
        split at hd
        · simp at hd
        · rename_i hc
          simp only [Option.some.injEq] at hd
          simp only [hc, if_false, true_and]
          subst hd
          simp only [not_not] at hc
          exact ⟨((check_signature_iff _).1).1 hc, rfl⟩
      · simp [ho, hs, it8951_sg_get_sys] at hd
    · simp [ho] at hd
  · intro ho hs hne
    unfold it8951_sg_open
    simp only [ho, hs, it8951_sg_get_sys, ne_eq, not_true_eq_false, if_false]
    have hc := (check_signature_iff
      { std_cmd_num := be32toh h.sysinfo 0
        ext_cmd_num := be32toh h.sysinfo 4
        signature := be32toh h.sysinfo 8
        version := be32toh h.sysinfo 12
        width := be32toh h.sysinfo 16
        height := be32toh h.sysinfo 20
        update_memaddr := be32toh h.sysinfo 24
        memaddr := be32toh h.sysinfo 28
        temp_seg_num := be32toh h.sysinfo 32
        mode := be32toh h.sysinfo 36
        frame_count := (List.range 32).map (fun k => h.sysinfo (40 + k))
        buf_num := be32toh h.sysinfo 72 }).2 hne
    rw [hc]
    simp [ENODEV]
  · intro ho hs heq
    unfold it8951_sg_open
    simp only [ho, hs, it8951_sg_get_sys, ne_eq, not_true_eq_false, if_false]
    have hc := ((check_signature_iff
      { std_cmd_num := be32toh h.sysinfo 0
        ext_cmd_num := be32toh h.sysinfo 4
        signature := be32toh h.sysinfo 8
        version := be32toh h.sysinfo 12
        width := be32toh h.sysinfo 16
        height := be32toh h.sysinfo 20
        update_memaddr := be32toh h.sysinfo 24
        memaddr := be32toh h.sysinfo 28
        temp_seg_num := be32toh h.sysinfo 32
        mode := be32toh h.sysinfo 36
        frame_count := (List.range 32).map (fun k => h.sysinfo (40 + k))
        buf_num := be32toh h.sysinfo 72 }).1).2 heq
    rw [hc]
    simp

theorem open_only_whitelisted_witness :
    it8951_sg_open host_other = (ENODEV, none) ∧
    (it8951_sg_open host_it8951).1 = 0 ∧ (it8951_sg_open host_it8951).2 ≠ none :=
  ⟨(open_only_whitelisted host_other).2.2.1 rfl rfl (by decide),
    (open_only_whitelisted host_it8951).2.2.2 rfl rfl (by decide)⟩

/-! ## The verify pass -/

theorem sf_write_aligned_verify (fuel : Nat) (d : Device) (memaddr : Nat) (buf : Buf)
    (count addr : Nat) (junk : Buf) :
    sf_write_aligned fuel d memaddr buf count addr true junk =
      match sf_write_aligned fuel d memaddr buf count addr false junk with
      | none => none
      | some (e, d2) =>
        if e ≠ 0 then some (e, d2) else sf_verify fuel d2 memaddr addr count buf junk := by
  simp only [sf_write_aligned]
  by_cases he : (it8951_sg_sf_erase d sf addr count).1 = 0
  · simp only [he, ne_eq, not_true_eq_false, if_false, Bool.false_eq_true, if_true]
    cases hl : sf_write_aligned_loop fuel (it8951_sg_sf_erase d sf addr count).2 memaddr buf
        count addr 0 with
    | none => rfl
    | some r =>
      obtain ⟨e2, d2⟩ := r
      simp only
      by_cases he2 : e2 = 0
      · subst he2
        simp
      · simp [he2]
  · simp [he]

theorem sf_verify_result (fuel : Nat) (d d1 : Device) (memaddr addr size : Nat)
    (ref junk out : Buf) (hr : sf_read fuel d memaddr addr size junk = some (0, d1, out)) :
    sf_verify fuel d memaddr addr size ref junk =
      some (if ∀ i, i < size → out i = ref i then 0 else EIO, d1) := by
  unfold sf_verify memcmp_eq
  rw [hr]
  simp only [ne_eq, not_true_eq_false, if_false, decide_eq_true_eq]
  split <;> rfl

/-- C19: when the read-back succeeds, `sf_verify` returns 0 if the bytes read back equal
the reference buffer on the whole range and EIO otherwise, so it returns 0 exactly when
they are equal. With verify requested, an aligned write whose erase and write commands
succeeded returns what the verify pass returns: 0 when the read-back of the written
range equals the written buffer, EIO when at least one byte differs. -/
theorem verify_decides (fuel : Nat) (d : Device) (memaddr : Nat) :
    (∀ addr size ref junk d1 out,
      sf_read fuel d memaddr addr size junk = some (0, d1, out) →
      sf_verify fuel d memaddr addr size ref junk =
        some (if ∀ i, i < size → out i = ref i then 0 else EIO, d1) ∧
      (sf_verify fuel d memaddr addr size ref junk = some (0, d1) ↔
        ∀ i, i < size → out i = ref i)) ∧
    (∀ buf count addr junk d2 d3 out,
      sf_write_aligned fuel d memaddr buf count addr false junk = some (0, d2) →
      sf_read fuel d2 memaddr addr count junk = some (0, d3, out) →
      sf_write_aligned fuel d memaddr buf count addr true junk =
        some (if ∀ i, i < count → out i = buf i then 0 else EIO, d3)) := by
  refine ⟨?_, ?_⟩
  · intro addr size ref junk d1 out hr
    have h := sf_verify_result fuel d d1 memaddr addr size ref junk out hr
    refine ⟨h, ?_⟩
    rw [h]
    by_cases hc : ∀ i, i < size → out i = ref i
    · rw [if_pos hc]
      exact ⟨fun _ => hc, fun _ => rfl⟩
    · rw [if_neg hc]
      constructor
      · intro h2
        simp [ EIO] at h2
      · intro h2
        exact absurd h2 hc
  · intro buf count addr junk d2 d3 out hw hr
    rw [sf_write_aligned_verify, hw]
    simp only [ne_eq, not_true_eq_false, if_false]
    exact sf_verify_result fuel d2 d3 memaddr addr count buf junk out hr

theorem verify_decides_witness :
    ∃ d1 out, sf_read 4 dev0 0 0 2 (fun _ => 0) = some (0, d1, out) ∧
      sf_verify 4 dev0 0 0 2 (fun _ => 7) (fun _ => 0) = some ( EIO, d1) ∧
      sf_verify 4 dev0 0 0 2 (fun _ => 0) (fun _ => 0) = some (0, d1) := by
  refine ⟨_, _, rfl, ?_, ?_⟩
  · rw [((verify_decides 4 dev0 0).1 0 2 (fun _ => 7) (fun _ => 0) _ _ rfl).1]
    rfl
  · rw [((verify_decides 4 dev0 0).1 0 2 (fun _ => 0) (fun _ => 0) _ _ rfl).1]
    rfl

/-! ## The two paths of `sf_write` -/

theorem sf_write_aligned_loop_log (memaddr addr count : Nat) (buf : Buf) (hm : memaddr < U32)
    (hrange : addr + count ≤ SF_SIZE) :
    ∀ (fuel written : Nat) (d d1 : Device), written ≤ count →
      sf_write_aligned_loop fuel d memaddr buf count addr written = some (0, d1) →
      ∃ rest, d1.log = d.log ++ rest ∧ ∀ c, c ∈ rest → c.programs = true := by
  have hsz : SF_SIZE = 4194304 := by decide
  intro fuel
  induction fuel with
  | zero => intro written d d1 _ h; simp [sf_write_aligned_loop] at h
  | succ fuel ih =>
    intro written d d1 hw h
    simp only [sf_write_aligned_loop] at h
    rw [chunk_size_eq count written (membuf_size d) hw (by simp only [U32]; omega)] at h
    generalize hsize : min (count - written) (membuf_size d) = size at h
    have hsl : size ≤ count - written := by omega
    cases hwm : it8951_sg_write_mem fuel d memaddr (buf.shift written) size false with
    | none => rw [hwm] at h; simp at h
    | some r =>
      obtain ⟨e, d2⟩ := r
      rw [hwm] at h
      simp only at h
      by_cases he : e = 0
      · subst he
        simp only [ne_eq, not_true_eq_false, if_false] at h
        obtain ⟨hlog2, -⟩ :=
          write_mem_loop_ok memaddr (buf.shift written) size false hm (by omega) fuel 0 d d2
            (by omega) hwm
        have hl2 := hlog2 size (by omega)
        rw [sg_sf_write_eq] at h
        generalize hc : Cmd.spi_write ((addr + written) % U32) memaddr size = c at h
        have hcp : c.programs = true := by rw [← hc]; rfl
        by_cases he3 : (ioctl d2 c (fun _ => 0)).1 = 0
        · rw [if_neg (by simpa using he3)] at h
          have hnext : (written + size) % U32 = written + size := by simp only [U32]; omega
          rw [hnext] at h
          have hl3 : (ioctl d2 c (fun _ => 0)).2.log = d.log ++
              ((spec_chunks_from memaddr size size 0).map
                (fun c => Cmd.write_mem c.1 c.2 false) ++ [c]) := by
            rw [ioctl_log, hl2, List.append_assoc]
          have hp3 : ∀ c1, c1 ∈ (spec_chunks_from memaddr size size 0).map
              (fun c => Cmd.write_mem c.1 c.2 false) ++ [c] → c1.programs = true := by
            intro c1 hc1
            rcases List.mem_append.mp hc1 with h1 | h1
            · obtain ⟨p, -, rfl⟩ := List.mem_map.mp h1
              rfl
            · rw [List.mem_singleton.mp h1]; exact hcp
          by_cases hlt : written + size < count
          · rw [if_pos hlt] at h
            obtain ⟨rest, hl4, hp4⟩ := ih (written + size) _ d1 (by omega) h
            refine ⟨((spec_chunks_from memaddr size size 0).map
              (fun c => Cmd.write_mem c.1 c.2 false) ++ [c]) ++ rest,
              by rw [hl4, hl3, List.append_assoc], ?_⟩
            intro c1 hc1
            rcases List.mem_append.mp hc1 with h1 | h1
            · exact hp3 c1 h1
            · exact hp4 c1 h1
          · rw [if_neg hlt] at h
            simp only [Option.some.injEq, Prod.mk.injEq, true_and] at h
            subst h
            exact ⟨_, hl3, hp3⟩
        · rw [if_pos (by simpa using he3)] at h
          simp only [Option.some.injEq, Prod.mk.injEq] at h
          exact absurd h.1 he3
      · rw [if_pos (by simpa using he)] at h
        simp only [Option.some.injEq, Prod.mk.injEq] at h
        exact absurd h.1 he

/-- The commands of an aligned write without verify that returned success: the erase
commands of the blocks of `[addr, addr + count)`, then memory writes and memory-to-flash
commands only. -/
theorem sf_write_aligned_log (fuel : Nat) (d d1 : Device) (memaddr : Nat) (buf : Buf)
    (count addr : Nat) (junk : Buf) (hm : memaddr < U32) (ha : addr % 65536 = 0)
    (hc : count % 65536 = 0) (hrange : addr + count ≤ SF_SIZE)
    (h : sf_write_aligned fuel d memaddr buf count addr false junk = some (0, d1)) :
    ∃ rest, d1.log = d.log ++ (List.range (count / 65536)).map
        (fun i => Cmd.spi_erase (addr + i * 65536) 65535) ++ rest ∧
      ∀ c, c ∈ rest → c.programs = true := by
  have hsz : SF_SIZE = 4194304 := by decide
  unfold sf_write_aligned at h
  by_cases he : (it8951_sg_sf_erase d sf addr count).1 = 0
  · simp only [he, ne_eq, not_true_eq_false, if_false] at h
    have hcnt : spec_block_count count = count / 65536 := by
      unfold spec_block_count; omega
    have hlog1 : (it8951_sg_sf_erase d sf addr count).2.log = d.log ++
        (List.range (count / 65536)).map (fun i => Cmd.spi_erase (addr + i * 65536) 65535) := by
      have hb : sf.block_size = 65536 := by decide
      have hna : ¬ (addr % sf.block_size ≠ 0) := by rw [hb]; simpa using ha
      unfold it8951_sg_sf_erase at he ⊢
      rw [if_neg hna] at he ⊢
      simp only [erase_n_blocks] at he ⊢
      rw [erase_loop_log _ _ _ _ _ he, hcnt]
      congr 1
      apply List.map_congr_left
      intro i hi
      have hi2 := List.mem_range.mp hi
      have : (addr + (0 + i) * sf.block_size) % U32 = addr + i * 65536 := by
        rw [hb]; simp only [U32]; omega
      rw [this, hb]
    cases hl : sf_write_aligned_loop fuel (it8951_sg_sf_erase d sf addr count).2 memaddr buf
        count addr 0 with
    | none => rw [hl] at h; simp at h
    | some r =>
      obtain ⟨e2, d2⟩ := r
      rw [hl] at h
      simp only at h
      by_cases he2 : e2 = 0
      · subst he2
        simp only [ne_eq, not_true_eq_false, if_false, Bool.false_eq_true, Option.some.injEq,
          Prod.mk.injEq, true_and] at h
        subst h
        obtain ⟨rest, hl2, hp2⟩ :=
          sf_write_aligned_loop_log memaddr addr count buf hm hrange fuel 0 _ d2 (by omega) hl
        exact ⟨rest, by rw [hl2, hlog1], hp2⟩
      · rw [if_pos (by simpa using he2)] at h
        simp only [Option.some.injEq, Prod.mk.injEq] at h
        exact absurd h.1 he2
  · simp only [he, ne_eq, not_false_eq_true, if_true, Option.some.injEq, Prod.mk.injEq] at h
    exact h.1.elim

/-- A flash read that returned success began with a flash-to-memory command. -/
theorem sf_read_loop_log (memaddr addr count : Nat) (hrange : addr + count ≤ SF_SIZE) :
    ∀ (fuel read : Nat) (d d1 : Device) (buf buf1 : Buf), read ≤ count →
      sf_read_loop fuel d memaddr addr count buf read = some (0, d1, buf1) →
      ∃ rest, d1.log = d.log ++
        Cmd.spi_read (addr + read) memaddr (min (count - read) (membuf_size d)) :: rest := by
  have hsz : SF_SIZE = 4194304 := by decide
  intro fuel
  induction fuel with
  | zero => intro read d d1 buf buf1 _ h; simp [sf_read_loop] at h
  | succ fuel ih =>
    intro read d d1 buf buf1 hr h
    simp only [sf_read_loop] at h
    rw [chunk_size_eq count read (membuf_size d) hr (by simp only [U32]; omega)] at h
    have ha : (addr + read) % U32 = addr + read := by simp only [U32]; omega
    rw [sg_sf_read_eq, ha] at h
    generalize hsize : min (count - read) (membuf_size d) = size at h ⊢
    have hsl : size ≤ count - read := by omega
    generalize hc : Cmd.spi_read (addr + read) memaddr size = c at h ⊢
    by_cases he : (ioctl d c (fun _ => 0)).1 = 0
    · rw [if_neg (by simpa using he)] at h
      cases hrm : it8951_sg_read_mem fuel (ioctl d c (fun _ => 0)).2 memaddr
          (buf.shift read) size with
      | none => rw [hrm] at h; simp at h
      | some r =>
        obtain ⟨e2, d2, chunk⟩ := r
        rw [hrm] at h
        simp only at h
        by_cases he2 : e2 = 0
        · subst he2
          simp only [ne_eq, not_true_eq_false, if_false] at h
          obtain ⟨hlog2, -⟩ :=
            read_mem_loop_ok memaddr size (by omega) fuel 0 _ d2 _ chunk (by omega) hrm
          have hl2 := hlog2 size (by omega)
          rw [ioctl_log] at hl2
          have hnext : (read + size) % U32 = read + size := by simp only [U32]; omega
          rw [hnext] at h
          by_cases hlt : read + size < count
          · rw [if_pos hlt] at h
            obtain ⟨rest, hl3⟩ := ih (read + size) d2 d1 _ buf1 (by omega) h
            refine ⟨(spec_chunks_from memaddr size size 0).map
              (fun c => Cmd.read_mem c.1 c.2) ++
              Cmd.spi_read (addr + (read + size)) memaddr
                (min (count - (read + size)) (membuf_size d2)) :: rest, ?_⟩
            rw [hl3, hl2]
            simp
          · rw [if_neg hlt] at h
            simp only [Option.some.injEq, Prod.mk.injEq, true_and] at h
            obtain ⟨h1, -⟩ := h
            subst h1
            exact ⟨(spec_chunks_from memaddr size size 0).map (fun c => Cmd.read_mem c.1 c.2),
              by rw [hl2]; simp⟩
        · rw [if_pos (by simpa using he2)] at h
          simp only [Option.some.injEq, Prod.mk.injEq] at h
          exact absurd h.1 he2
    · rw [if_pos (by simpa using he)] at h
      simp only [Option.some.injEq, Prod.mk.injEq] at h
      exact absurd h.1 he

theorem sf_verify_reads (fuel : Nat) (d d1 : Device) (memaddr addr size : Nat)
    (ref junk : Buf) (h : sf_verify fuel d memaddr addr size ref junk = some (0, d1)) :
    ∃ out, sf_read fuel d memaddr addr size junk = some (0, d1, out) := by
  unfold sf_verify at h
  cases hr : sf_read fuel d memaddr addr size junk with
  | none => rw [hr] at h; simp at h
  | some r =>
    obtain ⟨e, d2, out⟩ := r
    rw [hr] at h
    simp only at h
    by_cases he : e = 0
    · subst he
      simp only [ne_eq, not_true_eq_false, if_false] at h
      split at h
      · simp only [Option.some.injEq, Prod.mk.injEq, true_and] at h
        subst h
        exact ⟨out, rfl⟩
      · simp [ EIO] at h
    · rw [if_pos (by simpa using he)] at h
      simp only [Option.some.injEq, Prod.mk.injEq] at h
      exact absurd h.1 he

theorem aligned_iff (addr count : Nat) (hrange : addr + count ≤ SF_SIZE) :
    (sf_block_align_prev addr = addr ∧
      sf_block_align_next ((addr + count) % U32) = (addr + count) % U32) ↔
    (addr % 65536 = 0 ∧ (addr + count) % 65536 = 0) := by
  have hsz : SF_SIZE = 4194304 := by decide
  have hsum : (addr + count) % U32 = addr + count := by simp only [U32]; omega
  rw [hsum, align_prev_eq addr (by simp only [U32]; omega),
    align_next_eq (addr + count) (by simp only [U32]; omega)]
  simp only [U32]
  constructor
  · intro ⟨h1, h2⟩
    split at h2 <;> omega
  · intro ⟨h1, h2⟩
    rw [if_pos h2]
    omega

theorem superset_eq (addr count : Nat) (hrange : addr + count ≤ SF_SIZE) :
    sf_block_align_prev addr = addr - addr % 65536 ∧
    sf_block_align_next (addr + count) - sf_block_align_prev addr =
      (addr + count + 65535) / 65536 * 65536 - (addr - addr % 65536) ∧
    addr - sf_block_align_prev addr = addr % 65536 := by
  have hsz : SF_SIZE = 4194304 := by decide
  rw [align_prev_eq addr (by simp only [U32]; omega),
    align_next_eq (addr + count) (by simp only [U32]; omega)]
  simp only [U32]
  refine ⟨trivial, ?_, by omega⟩
  split <;> omega

/-- C18 (as amended): for a request inside the flash, the test of `sf_write` selects the
direct path exactly when `addr` and `addr + len` are both block-aligned. On the direct
path `sf_write` is `sf_write_aligned` on the caller's buffer: without verify a successful
write issues the erase commands of the blocks of `[addr, addr + len)`, which erase exactly
that range, and after them memory writes and memory-to-flash commands only, so no
flash-read command; with verify the same is followed by `sf_verify`. Otherwise
`sf_write` reads the whole superset `[alignDown(addr), alignUp(addr + len))` into a
scratch buffer and calls `sf_write_aligned` over the superset on the data read with the
bytes from offset `addr - alignDown(addr)` on, `len` of them, replaced by the caller's. -/
theorem sf_write_paths (fuel : Nat) (d : Device) (memaddr : Nat) (buf : Buf)
    (count addr : Nat) (verify : Bool) (junk : Buf) (hm : memaddr < U32)
    (hrange : addr + count ≤ SF_SIZE) :
    ((sf_block_align_prev addr = addr ∧
        sf_block_align_next ((addr + count) % U32) = (addr + count) % U32) ↔
      (addr % 65536 = 0 ∧ (addr + count) % 65536 = 0)) ∧
    ((addr % 65536 = 0 ∧ (addr + count) % 65536 = 0) →
      sf_write fuel d memaddr buf count addr verify junk =
        sf_write_aligned fuel d memaddr buf count addr verify junk ∧
      (∀ d1, sf_write fuel d memaddr buf count addr false junk = some (0, d1) →
        ∃ rest, d1.log = d.log ++ (List.range (count / 65536)).map
            (fun i => Cmd.spi_erase (addr + i * 65536) 65535) ++ rest ∧
          ∀ c, c ∈ rest → c.programs = true) ∧
      ((it8951_sg_sf_erase d sf addr count).1 = 0 →
        ∀ x, (it8951_sg_sf_erase d sf addr count).2.flash x =
          if addr ≤ x ∧ x < addr + count then erased else d.flash x) ∧
      sf_write fuel d memaddr buf count addr true junk =
        (match sf_write fuel d memaddr buf count addr false junk with
        | none => none
        | some (e, d2) =>
          if e ≠ 0 then some (e, d2) else sf_verify fuel d2 memaddr addr count buf junk)) ∧
    (¬ (addr % 65536 = 0 ∧ (addr + count) % 65536 = 0) →
      sf_write fuel d memaddr buf count addr verify junk =
        (match sf_read fuel d memaddr (sf_block_align_prev addr)
            (sf_block_align_next (addr + count) - sf_block_align_prev addr) junk with
        | none => none
        | some (e, d1, data) =>
          if e ≠ 0 then some (e, d1)
          else
            sf_write_aligned fuel d1 memaddr
              (memcpy data (addr - sf_block_align_prev addr) buf count)
              (sf_block_align_next (addr + count) - sf_block_align_prev addr)
              (sf_block_align_prev addr) verify junk) ∧
      (∀ d1 data, sf_read fuel d memaddr (sf_block_align_prev addr)
          (sf_block_align_next (addr + count) - sf_block_align_prev addr) junk =
            some (0, d1, data) →
        (∀ i, i < sf_block_align_next (addr + count) - sf_block_align_prev addr →
          data i = d.flash (sf_block_align_prev addr + i)) ∧
        (∀ i, memcpy data (addr - sf_block_align_prev addr) buf count i =
          if addr - sf_block_align_prev addr ≤ i ∧
              i < addr - sf_block_align_prev addr + count then
            buf (i - (addr - sf_block_align_prev addr))
          else data i))) := by
  have hsz : SF_SIZE = 4194304 := by decide
  obtain ⟨hstart, hsize, hoff⟩ := superset_eq addr count hrange
  refine ⟨aligned_iff addr count hrange, ?_, ?_⟩
  · intro hal
    have hal2 : addr % 65536 = 0 ∧ count % 65536 = 0 := by omega
    have hdirect : ∀ v, sf_write fuel d memaddr buf count addr v junk =
        sf_write_aligned fuel d memaddr buf count addr v junk := by
      intro v
      rw [sf_write_unfold fuel d memaddr buf count addr v junk hrange, if_pos hal2]
    refine ⟨hdirect verify, ?_, ?_, ?_⟩
    · intro d1 h
      rw [hdirect] at h
      exact sf_write_aligned_log fuel d d1 memaddr buf count addr junk hm hal2.1 hal2.2
        hrange h
    · intro he
      exact (sf_erase_effect d addr count hal2.1 hal2.2 (by simp only [U32]; omega) he).1
    · rw [hdirect, hdirect]
      exact sf_write_aligned_verify fuel d memaddr buf count addr junk
  · intro hnal
    have hnal2 : ¬ (addr % 65536 = 0 ∧ count % 65536 = 0) := by omega
    refine ⟨?_, ?_⟩
    · rw [sf_write_unfold fuel d memaddr buf count addr verify junk hrange, if_neg hnal2,
        hsize, hoff, hstart]
    · intro d1 data hr
      refine ⟨?_, fun i => rfl⟩
      intro i hi
      obtain ⟨-, -, -, -, hbuf⟩ := sf_read_ok fuel d d1 memaddr _ _ junk data hm
        (by rw [hsize, hstart]; omega) hr
      rw [hbuf i, if_pos hi]

theorem sf_write_paths_witness :
    (1048576 : Nat) < U32 ∧ 100 + 10 ≤ SF_SIZE ∧ ¬ (100 % 65536 = 0 ∧ (100 + 10) % 65536 = 0) ∧
    sf_write 4194306 dev0 1048576 (fun _ => 7) 10 100 true (fun _ => 0) =
      (match sf_read 4194306 dev0 1048576 (sf_block_align_prev 100)
          (sf_block_align_next (100 + 10) - sf_block_align_prev 100) (fun _ => 0) with
      | none => none
      | some (e, d1, data) =>
        if e ≠ 0 then some (e, d1)
        else
          sf_write_aligned 4194306 d1 1048576
            (memcpy data (100 - sf_block_align_prev 100) (fun _ => 7) 10)
            (sf_block_align_next (100 + 10) - sf_block_align_prev 100)
            (sf_block_align_prev 100) true (fun _ => 0)) :=
  ⟨by decide, by decide, by decide,
    ((sf_write_paths 4194306 dev0 1048576 (fun _ => 7) 10 100 true (fun _ => 0) (by decide)
      (by decide)).2.2 (by decide)).1⟩

/-- C18 (as stated) fails: a block-aligned request that ends beyond the flash is rejected
and takes no path, and the direct path of a write with verify issues a flash-read command
for the read-back. -/
theorem sf_write_direct_path_exceptions :
    sf_write 4 dev1 0 (fun _ => 7) 65536 4194304 false (fun _ => 0) = some (EINVAL, dev1) ∧
    ∃ d1 pre rest,
      sf_write 4194306 dev1 0 (fun _ => 7) 65536 0 true (fun _ => 0) = some (0, d1) ∧
      d1.log = pre ++ Cmd.spi_read 0 0 65536 :: rest := by
  refine ⟨sf_write_out_of_range 4 dev1 0 (fun _ => 7) 65536 4194304 false (fun _ => 0)
    (by decide) (by decide), ?_⟩
  have hr : 0 + 65536 ≤ SF_SIZE := by decide
  obtain ⟨d1, h⟩ := sf_write_total 4194306 dev1 0 (fun _ => 7) 65536 0 true (fun _ => 0)
    (by decide) hr (by decide) (by decide) (fun _ => rfl)
  refine ⟨d1, ?_⟩
  have h2 := h
  rw [sf_write_unfold 4194306 dev1 0 (fun _ => 7) 65536 0 true (fun _ => 0) hr,
    if_pos (by decide), sf_write_aligned_verify] at h2
  cases hf : sf_write_aligned 4194306 dev1 0 (fun _ => 7) 65536 0 false (fun _ => 0) with
  | none => rw [hf] at h2; simp at h2
  | some r =>
    obtain ⟨e, d2⟩ := r
    rw [hf] at h2
    simp only at h2
    by_cases he : e = 0
    · subst he
      simp only [ne_eq, not_true_eq_false, if_false] at h2
      obtain ⟨-, -, hwi, hhe⟩ := sf_write_aligned_ok 4194306 dev1 d2 0 (fun _ => 7) 65536 0
        false (fun _ => 0) (by decide) (by decide) (by decide) hr hf
      obtain ⟨out, hrd⟩ := sf_verify_reads _ _ _ _ _ _ _ _ h2
      unfold sf_read at hrd
      rw [if_neg (by decide)] at hrd
      obtain ⟨rest, hl⟩ := sf_read_loop_log 0 0 65536 hr 4194306 0 d2 d1 _ out (by omega) hrd
      have hmb : membuf_size d2 = 65536 := by
        rw [membuf_size_congr dev1 d2 hwi hhe]; decide
      rw [hmb] at hl
      exact ⟨d2.log, rest, h, hl⟩
    · rw [if_pos (by simpa using he)] at h2
      simp only [Option.some.injEq, Prod.mk.injEq] at h2
      exact absurd h2.1 he

/-! ## Erase: abort on the first failure -/

theorem ioctl_fault (d : Device) (c : Cmd) (p : Buf) (h : d.faults d.log.length ≠ 0) :
    ioctl d c p = (d.faults d.log.length, { d with log := d.log ++ [c] }) := by
  unfold ioctl
  rw [if_pos h]

theorem erase_loop_abort (s : Sf) (sfaddr : Nat) : ∀ (k i j : Nat) (d : Device),
    j < k → (∀ m, m < j → d.faults (d.log.length + m) = 0) →
    d.faults (d.log.length + j) ≠ 0 →
    (erase_loop s sfaddr k i d).1 = d.faults (d.log.length + j) ∧
    (erase_loop s sfaddr k i d).2.log = d.log ++ (List.range (j + 1)).map
      (fun m => Cmd.spi_erase ((sfaddr + (i + m) * s.block_size) % U32) (s.block_size - 1)) ∧
    (erase_loop s sfaddr k i d).2.faults = d.faults := by
  intro k
  induction k with
  | zero => intro i j d hj; omega
  | succ k ih =>
    intro i j d hj hok hf
    cases j with
    | zero =>
      simp only [Nat.add_zero] at hf
      simp only [erase_loop, ioctl_fault d _ _ hf, ne_eq, hf, not_false_eq_true, if_true,
        Nat.add_zero]
      simp [List.range_succ]
    | succ j =>
      have h0 : d.faults d.log.length = 0 := by simpa using hok 0 (by omega)
      have hio : (ioctl d (.spi_erase ((sfaddr + i * s.block_size) % U32) (s.block_size - 1))
          (fun _ => 0)).1 = 0 := by
        unfold ioctl; simp [h0]
      simp only [erase_loop, hio, ne_eq, not_true_eq_false, if_false]
      have hlen : (ioctl d (.spi_erase ((sfaddr + i * s.block_size) % U32) (s.block_size - 1))
          (fun _ => 0)).2.log.length = d.log.length + 1 := by
        rw [ioctl_log]; simp
      have e1 : ∀ m, d.log.length + 1 + m = d.log.length + (m + 1) := by intro m; omega
      obtain ⟨r1, r2, r3⟩ := ih (i + 1) j
        (ioctl d (.spi_erase ((sfaddr + i * s.block_size) % U32) (s.block_size - 1))
          (fun _ => 0)).2 (by omega)
        (by
          intro m hm
          rw [ioctl_faults, hlen, e1]
          exact hok (m + 1) (by omega))
        (by rw [ioctl_faults, hlen, e1]; exact hf)
      rw [ioctl_faults, hlen, e1] at r1
      rw [ioctl_faults] at r3
      refine ⟨r1, ?_, r3⟩
      rw [r2, ioctl_log, List.range_succ_eq_map (j + 1), List.map_cons, List.map_map]
      simp only [List.append_assoc, List.singleton_append, Nat.add_zero]
      congr 2
      apply List.map_congr_left
      intro m _
      simp only [Function.comp, Nat.succ_eq_add_one]
      have e : i + 1 + m = i + (m + 1) := by omega
      rw [e]

/-- C23: erase aborts on the first failure. If the transport carries out the erase
commands of blocks 0 to i-1 and fails the one of block i (i below the block count
`ceil(size / 65536)`) with errno e, `it8951_sg_sf_erase` returns e and has issued exactly
the i+1 erase commands of blocks 0 to i: no command for a later block. The wrapper
`sf_erase` does the same. -/
theorem erase_aborts_on_first_failure (d : Device) (memaddr addr size i : Nat)
    (ha : addr % 65536 = 0) (hi : i < spec_block_count size)
    (hok : ∀ m, m < i → d.faults (d.log.length + m) = 0)
    (hf : d.faults (d.log.length + i) ≠ 0) :
    (it8951_sg_sf_erase d sf addr size).1 = d.faults (d.log.length + i) ∧
    (it8951_sg_sf_erase d sf addr size).2.log =
      d.log ++ (List.range (i + 1)).map
        (fun m => Cmd.spi_erase ((addr + m * 65536) % U32) 65535) ∧
    (it8951_sg_sf_erase d sf addr size).2.log.length = d.log.length + (i + 1) ∧
    sf_erase d memaddr addr size = it8951_sg_sf_erase d sf addr size := by
  have hb : sf.block_size = 65536 := by decide
  have hna : ¬ (addr % sf.block_size ≠ 0) := by rw [hb]; simpa using ha
  have hun : it8951_sg_sf_erase d sf addr size =
      erase_loop sf addr (spec_block_count size) 0 d := by
    unfold it8951_sg_sf_erase
    rw [if_neg hna]
    simp only [erase_n_blocks]
  obtain ⟨r1, r2, _⟩ := erase_loop_abort sf addr (spec_block_count size) 0 i d hi hok hf
  have hlog : (it8951_sg_sf_erase d sf addr size).2.log =
      d.log ++ (List.range (i + 1)).map
        (fun m => Cmd.spi_erase ((addr + m * 65536) % U32) 65535) := by
    rw [hun, r2]
    simp [hb]
  refine ⟨by rw [hun]; exact r1, hlog, ?_, rfl⟩
  rw [hlog]
  simp

theorem erase_aborts_on_first_failure_witness :
    (it8951_sg_sf_erase dev_fault2 sf 0 262144).1 = 5 ∧
    (it8951_sg_sf_erase dev_fault2 sf 0 262144).2.log =
      [Cmd.spi_erase 0 65535, Cmd.spi_erase 65536 65535, Cmd.spi_erase 131072 65535] :=
  ⟨(erase_aborts_on_first_failure dev_fault2 0 0 262144 2 (by decide) (by decide)
      (by decide) (by decide)).1,
    (erase_aborts_on_first_failure dev_fault2 0 0 262144 2 (by decide) (by decide)
      (by decide) (by decide)).2.1⟩

/-! ## Boot screens of firmware 0.3 -/

/-- C26: for every boot-screen address `a < 2^24` the switch block `fw_0_3_enable_bs`
builds is the five bytes of the tag "LOGO_" followed by the three low-order bytes of `a`,
most significant first; `fw_0_3_get_info` finds the tag in it and decodes exactly `a`
from it. The block for `0x200000` is `4c 4f 47 4f 5f 20 00 00`. -/
theorem switch_block_roundtrip (a : Nat) (h : a < 16777216) :
    (switch_block a).map Fin.val =
      [0x4c, 0x4f, 0x47, 0x4f, 0x5f, a / 65536, a / 256 % 256, a % 256] ∧
    memcmp_eq (Buf.ofList (switch_block a)) (Buf.ofList BS_SWITCH_TAG) 5 = true ∧
    switch_block_addr (Buf.ofList (switch_block a)) = a ∧
    (switch_block 0x200000).map Fin.val = [0x4c, 0x4f, 0x47, 0x4f, 0x5f, 0x20, 0, 0] := by
  refine ⟨?_, ?_, ?_, by decide⟩
  · simp only [switch_block, htobe32, BS_SWITCH_TAG, byte, List.drop_succ_cons, List.drop_zero,
      List.cons_append, List.nil_append, List.map_cons, List.map_nil]
    have e : a / 65536 % 256 = a / 65536 := by omega
    rw [e]
    rfl
  · simp only [memcmp_eq, decide_eq_true_eq]
    intro i hi
    have : i = 0 ∨ i = 1 ∨ i = 2 ∨ i = 3 ∨ i = 4 := by omega
    rcases this with rfl | rfl | rfl | rfl | rfl <;> rfl
  · simp [switch_block_addr, be32toh, memcpy, Buf.shift, Buf.ofList, switch_block, htobe32,
      BS_SWITCH_TAG, byte]
    omega

theorem switch_block_roundtrip_witness :
    switch_block_addr (Buf.ofList (switch_block 0x1a0000)) = 0x1a0000 :=
  (switch_block_roundtrip 0x1a0000 (by decide)).2.2.1

theorem fw_0_3_layout_props (n : Nat) (hn : n < SF_SIZE) : ∀ (slots addr : Nat),
    addr % 65536 = 0 → addr ≤ SF_SIZE →
    (fw_0_3_layout n slots addr).length ≤ slots ∧
    (0 < (fw_0_3_layout n slots addr).length → (fw_0_3_layout n slots addr).getD 0 0 = addr) ∧
    (∀ i, i < (fw_0_3_layout n slots addr).length →
      (fw_0_3_layout n slots addr).getD i 0 % 65536 = 0 ∧
      (fw_0_3_layout n slots addr).getD i 0 + n < SF_SIZE) ∧
    (∀ i, i + 1 < (fw_0_3_layout n slots addr).length →
      (fw_0_3_layout n slots addr).getD i 0 + n ≤
        (fw_0_3_layout n slots addr).getD (i + 1) 0) := by
  have hsz : SF_SIZE = 4194304 := by decide
  intro slots
  induction slots with
  | zero => intro addr _ _; simp [fw_0_3_layout]
  | succ slots ih =>
    intro addr ha hle
    have hsum : (addr + n) % U32 = addr + n := by simp only [U32]; omega
    simp only [fw_0_3_layout, hsum]
    by_cases hc : addr + n < SF_SIZE
    · rw [if_pos hc]
      have hnext := align_next_eq (addr + n) (by simp only [U32]; omega)
      have hna : sf_block_align_next (addr + n) % 65536 = 0 := by
        rw [hnext]; simp only [U32]; split <;> omega
      have hnle : sf_block_align_next (addr + n) ≤ SF_SIZE := by
        rw [hnext]; simp only [U32]; split <;> omega
      have hnge : addr + n ≤ sf_block_align_next (addr + n) := by
        rw [hnext]; simp only [U32]; split <;> omega
      obtain ⟨r1, r2, r3, r4⟩ := ih (sf_block_align_next (addr + n)) hna hnle
      refine ⟨by simp only [List.length_cons]; omega, by intro _; rfl, ?_, ?_⟩
      · intro i hi
        cases i with
        | zero => exact ⟨ha, hc⟩
        | succ i =>
          simp only [List.length_cons] at hi
          simpa using r3 i (by omega)
      · intro i hi
        simp only [List.length_cons] at hi
        cases i with
        | zero =>
          have := r2 (by omega)
          simp only [List.getD_cons_succ, List.getD_cons_zero]
          omega
        | succ i =>
          simpa using r4 i (by omega)
    · rw [if_neg hc]
      simp

theorem fw_0_3_get_info_layout (fuel : Nat) (d d1 : Device) (memaddr ret : Nat)
    (fi fi1 : fw_info) (junk : Buf)
    (h : fw_0_3_get_info fuel d memaddr fi junk = some (ret, d1, fi1)) :
    fi1.have_bs = true ∧
    fi1.bs_num = (fw_0_3_layout (membuf_size d) FW_MAX_BS BS_START_ADDR).length ∧
    fi1.bs_addr = fw_0_3_layout (membuf_size d) FW_MAX_BS BS_START_ADDR ++
      fi.bs_addr.drop (fw_0_3_layout (membuf_size d) FW_MAX_BS BS_START_ADDR).length := by
  unfold fw_0_3_get_info at h
  simp only at h
  split at h
  · exact absurd h (by simp)
  · split at h
    · simp only [Option.some.injEq, Prod.mk.injEq] at h
      obtain ⟨-, -, rfl⟩ := h
      exact ⟨rfl, rfl, rfl⟩
    · split at h
      · simp only [Option.some.injEq, Prod.mk.injEq] at h
        obtain ⟨-, -, rfl⟩ := h
        exact ⟨rfl, rfl, rfl⟩
      · split at h
        · simp only [Option.some.injEq, Prod.mk.injEq] at h
          obtain ⟨-, -, rfl⟩ := h
          exact ⟨rfl, rfl, rfl⟩
        · simp only [Option.some.injEq, Prod.mk.injEq] at h
          obtain ⟨-, -, rfl⟩ := h
          exact ⟨rfl, rfl, rfl⟩

theorem fw_0_3_get_info_total (fuel : Nat) (d : Device) (memaddr : Nat) (fi : fw_info)
    (junk : Buf) (hfuel : 65 < fuel) (hmb : 1 ≤ membuf_size d) (hnf : ∀ k, d.faults k = 0) :
    ∃ d1 fi1, fw_0_3_get_info fuel d memaddr fi junk = some (0, d1, fi1) := by
  obtain ⟨d1, buf1, hr⟩ := sf_read_total fuel d memaddr BS_SWITCH_ADDR 64 junk (by decide)
    (by omega) hmb hnf
  unfold fw_0_3_get_info
  simp only [hr, ne_eq, not_true_eq_false, if_false]
  split
  · exact ⟨_, _, rfl⟩
  · split
    · exact ⟨_, _, rfl⟩
    · exact ⟨_, _, rfl⟩

/-- C27: the flash layout `fw_0_3_get_info` computes is well formed. For every panel with
`1 <= width * height < 4 MiB`, whatever the call returns, the description it leaves has
`bs_num <= 12`, `bs_addr[0] = 0x180000` when `bs_num > 0`, every `bs_addr[i]` (`i < bs_num`)
a multiple of 64 KiB with `bs_addr[i] + width * height < 4 MiB`, and
`bs_addr[i + 1] >= bs_addr[i] + width * height`. On a device without transport failure the
call returns 0. -/
theorem fw_0_3_layout_well_formed (fuel : Nat) (d : Device) (memaddr : Nat) (fi : fw_info)
    (junk : Buf) (h1 : 1 ≤ d.width * d.height) (h2 : d.width * d.height < SF_SIZE) :
    (∀ ret d1 fi1, fw_0_3_get_info fuel d memaddr fi junk = some (ret, d1, fi1) →
      fi1.bs_num ≤ 12 ∧
      (0 < fi1.bs_num → fi1.bs_addr.getD 0 0 = 0x180000) ∧
      (∀ i, i < fi1.bs_num →
        fi1.bs_addr.getD i 0 % 65536 = 0 ∧
        fi1.bs_addr.getD i 0 + d.width * d.height < SF_SIZE) ∧
      (∀ i, i + 1 < fi1.bs_num →
        fi1.bs_addr.getD i 0 + d.width * d.height ≤ fi1.bs_addr.getD (i + 1) 0)) ∧
    (65 < fuel → (∀ k, d.faults k = 0) →
      ∃ d1 fi1, fw_0_3_get_info fuel d memaddr fi junk = some (0, d1, fi1)) := by
  have hsz : SF_SIZE = 4194304 := by decide
  have hmb : membuf_size d = d.width * d.height := by
    unfold membuf_size
    apply Nat.mod_eq_of_lt
    simp only [U32]; omega
  refine ⟨?_, ?_⟩
  · intro ret d1 fi1 h
    obtain ⟨-, hnum, haddr⟩ := fw_0_3_get_info_layout fuel d d1 memaddr ret fi fi1 junk h
    obtain ⟨r1, r2, r3, r4⟩ := fw_0_3_layout_props (membuf_size d) (by rw [hmb]; exact h2)
      FW_MAX_BS BS_START_ADDR (by decide) (by decide)
    rw [hmb] at hnum haddr r1 r2 r3 r4
    have hget : ∀ i, i < fi1.bs_num → fi1.bs_addr.getD i 0 =
        (fw_0_3_layout (d.width * d.height) FW_MAX_BS BS_START_ADDR).getD i 0 := by
      intro i hi
      rw [hnum] at hi
      rw [haddr]
      simp only [List.getD_eq_getElem?_getD]
      rw [List.getElem?_append_left hi]
    rw [hnum] at *
    refine ⟨r1, ?_, ?_, ?_⟩
    · intro h0
      rw [hget 0 h0, r2 h0]
      rfl
    · intro i hi
      rw [hget i hi]
      exact r3 i hi
    · intro i hi
      rw [hget i (by omega), hget (i + 1) hi]
      exact r4 i hi
  · intro hfuel hnf
    exact fw_0_3_get_info_total fuel d memaddr fi junk hfuel (by rw [hmb]; exact h1) hnf

theorem fw_0_3_layout_well_formed_witness :
    ∃ d1 fi1, fw_0_3_get_info 66 panel_1200x1600 0 fw_two_bs (fun _ => 0) = some (0, d1, fi1) ∧
      fi1.bs_num ≤ 12 :=
  have h := fw_0_3_layout_well_formed 66 panel_1200x1600 0 fw_two_bs (fun _ => 0) (by decide)
    (by decide)
  match h.2 (by decide) (fun _ => rfl) with
  | ⟨d1, fi1, e⟩ => ⟨d1, fi1, e, (h.1 0 d1 fi1 e).1⟩

theorem fw_enable_bs_at_bs_num (fuel : Nat) (d : Device) (memaddr : Nat) (junk : Buf) :
    fw_enable_bs fuel d memaddr fw_two_bs 2 junk =
      fw_0_3_enable_bs fuel d memaddr fw_two_bs 2 junk := by
  unfold fw_enable_bs
  rw [if_neg (by decide), if_neg (by decide), if_pos (by decide)]

theorem fw_write_bs_at_bs_num (fuel : Nat) (d : Device) (memaddr size : Nat) (bs junk : Buf) :
    fw_write_bs fuel d memaddr fw_two_bs bs size 2 junk = some (EINVAL, d) := by
  unfold fw_write_bs
  rw [if_neg (by decide), if_pos (by decide)]

theorem write_flash_cmd_777 (fuel : Nat) (d : Device) (memaddr faddr : Nat) (junk : Buf)
    (hf : faddr ≤ 4194301) :
    write_flash_cmd fuel d memaddr file_777 faddr 0 (fun _ => 0) (fun _ => 0) 0 junk =
      sf_write fuel d memaddr (memcpy (fun _ => 0) 0 file_777.content 3) 3 0 true junk := by
  have hr : read_buf_from_file file_777 (fun _ => 0) (fun _ => 0) 0 =
      (0, memcpy (fun _ => 0) 0 file_777.content 3, 3) := by
    unfold read_buf_from_file
    rw [if_neg (by decide), if_neg (by decide), if_neg (by decide)]
    rfl
  have e4 : (SF_SIZE + U32 - faddr) % U32 = 4194304 - faddr := by
    have : SF_SIZE = 4194304 := by decide
    simp only [U32]; omega
  unfold write_flash_cmd
  rw [hr]
  simp only [e4]
  have e3 : (if True ∨ 3 < 0 then 3 % U32 else 0) = 3 := by decide
  rw [e3, if_neg (show ¬ (((0 : Nat) : Int) < 0) by decide), if_neg (by omega)]

theorem write_cmds_short (fuel : Nat) (d : Device) (memaddr : Nat) (junk : Buf) :
    read_buf_from_file file_short (fun _ => 0) (fun _ => 0) 0 =
      ( EIO, memcpy (fun _ => 0) 0 file_short.content 3, 3) ∧
    write_flash_cmd fuel d memaddr file_short 0 0 (fun _ => 0) (fun _ => 0) 0 junk =
      sf_write fuel d memaddr (memcpy (fun _ => 0) 0 file_short.content 3) 3 0 true junk ∧
    write_fw_cmd fuel d memaddr file_short (fun _ => 0) (fun _ => 0) 0 junk =
      sf_write fuel d memaddr (memcpy (fun _ => 0) 0 file_short.content 3) 3 0 true junk := by
  have hr : read_buf_from_file file_short (fun _ => 0) (fun _ => 0) 0 =
      ( EIO, memcpy (fun _ => 0) 0 file_short.content 3, 3) := by
    unfold read_buf_from_file
    rw [if_neg (by decide), if_neg (by decide), if_pos (by decide)]
    rfl
  refine ⟨hr, ?_, ?_⟩
  · unfold write_flash_cmd
    rw [hr]
    have e4 : (SF_SIZE + U32 - 0) % U32 = 4194304 := by decide
    simp only [e4]
    have e3 : (if True ∨ 3 < 0 then 3 % U32 else 0) = 3 := by decide
    rw [e3, if_neg (show ¬ ((( EIO : Nat) : Int) < 0) by decide), if_neg (by omega)]
  · unfold write_fw_cmd
    rw [hr]
    simp only
    rw [if_neg (show ¬ ((( EIO : Nat) : Int) < 0) by decide)]
    rfl

theorem fw_0_3_enable_bs_ok (fuel : Nat) (d d1 : Device) (memaddr : Nat) (fi : fw_info)
    (index : Nat) (junk : Buf)
    (h : sf_write fuel d memaddr (Buf.ofList (switch_block (fi.bs_addr.getD index 0))) 8
      BS_SWITCH_ADDR true junk = some (0, d1)) :
    fw_0_3_enable_bs fuel d memaddr fi index junk =
      some (0, d1, { fi with bs_act := index }) := by
  unfold fw_0_3_enable_bs
  rw [h]
  rfl

/-! ## Enabling a boot screen -/

/-- C25 fails in the code: the range test of `fw_enable_bs` is `index > bs_num`, so the
index `bs_num` itself passes. With two boot screens (firmware 0.3, fault-free device),
index 2 is not rejected: the call returns 0, not EINVAL, the slot `bs_addr[2]` (never set
by the layout, 0 here) is read and written into the switch block at `0x170000`, and the
active boot screen becomes 2. The sibling `fw_write_bs` rejects the same index. -/
theorem fw_enable_bs_accepts_bs_num :
    (2 : Nat) ≥ fw_two_bs.bs_num ∧
    (∃ d1 fi1, fw_enable_bs 4194306 dev1 0 fw_two_bs 2 (fun _ => 0) = some (0, d1, fi1) ∧
      fi1.bs_act = 2 ∧
      (∀ i, i < 8 → d1.flash (BS_SWITCH_ADDR + i) =
        Buf.ofList (switch_block (fw_two_bs.bs_addr.getD 2 0)) i)) ∧
    fw_write_bs 4194306 dev1 0 fw_two_bs (fun _ => 0) 65536 2 (fun _ => 0) =
      some (EINVAL, dev1) := by
  refine ⟨by decide, ?_, fw_write_bs_at_bs_num _ _ _ _ _ _⟩
  obtain ⟨d1, hw⟩ := sf_write_total 4194306 dev1 0
    (Buf.ofList (switch_block (fw_two_bs.bs_addr.getD 2 0))) 8 BS_SWITCH_ADDR true (fun _ => 0)
    (by decide) (by decide) (by decide) (by decide) (fun _ => rfl)
  obtain ⟨hfl, -⟩ := sf_write_ok 4194306 dev1 d1 0 _ 8 BS_SWITCH_ADDR true (fun _ => 0)
    (by decide) (by decide) hw
  refine ⟨d1, { fw_two_bs with bs_act := 2 }, ?_, rfl, ?_⟩
  · rw [fw_enable_bs_at_bs_num]
    exact fw_0_3_enable_bs_ok _ _ _ _ _ _ _ hw
  · intro i hi
    have e : BS_SWITCH_ADDR + i - BS_SWITCH_ADDR = i := by omega
    rw [hfl, if_pos ⟨by omega, by omega⟩, e]

/-! ## The flash-writing commands -/

/-- C21 fails in the code: `write_flash_cmd` hands the constant 0 to `sf_write` as the
destination, not `faddr`. Writing a 3-byte file of sevens at flash address 65536 on a
fault-free device succeeds, puts the three bytes at flash addresses 0..2 and leaves the
flash from 65536 on as it was; whatever `faddr`, the call is `sf_write` at address 0. -/
theorem write_flash_cmd_ignores_faddr :
    (∃ d1, write_flash_cmd 4194306 dev1 0 file_777 65536 0 (fun _ => 0) (fun _ => 0) 0
        (fun _ => 0) = some (0, d1) ∧
      (∀ x, x < 3 → d1.flash x = 7) ∧
      (∀ x, 65536 ≤ x → d1.flash x = dev1.flash x)) ∧
    (∀ fuel d memaddr faddr junk, faddr ≤ 4194301 →
      write_flash_cmd fuel d memaddr file_777 faddr 0 (fun _ => 0) (fun _ => 0) 0 junk =
        sf_write fuel d memaddr (memcpy (fun _ => 0) 0 file_777.content 3) 3 0 true junk) := by
  have hgen := write_flash_cmd_777
  refine ⟨?_, hgen⟩
  obtain ⟨d1, hw⟩ := sf_write_total 4194306 dev1 0
    (memcpy (fun _ => 0) 0 file_777.content 3) 3 0 true (fun _ => 0)
    (by decide) (by decide) (by decide) (by decide) (fun _ => rfl)
  obtain ⟨hfl, -⟩ := sf_write_ok 4194306 dev1 d1 0 _ 3 0 true (fun _ => 0)
    (by decide) (by decide) hw
  refine ⟨d1, ?_, ?_, ?_⟩
  · rw [hgen _ _ _ _ _ (by decide)]
    exact hw
  · intro x hx
    rw [hfl, if_pos ⟨by omega, by omega⟩]
    simp only [memcpy]
    rw [if_pos ⟨by omega, by omega⟩]
    rfl
  · intro x hx
    rw [hfl, if_neg (by omega)]

/-- C22 fails in the code: both commands test the result of `read_buf_from_file` with
`ret < 0`, and its error results are positive errno values. On a short read (3 bytes
delivered of a 10-byte file) `read_buf_from_file` reports EIO, yet `write_flash_cmd` and
`write_fw_cmd` go on, write the 3 bytes into the flash of a fault-free device and
return 0. -/
theorem read_error_swallowed :
    (read_buf_from_file file_short (fun _ => 0) (fun _ => 0) 0).1 = EIO ∧
    (∃ d1, write_flash_cmd 4194306 dev1 0 file_short 0 0 (fun _ => 0) (fun _ => 0) 0
        (fun _ => 0) = some (0, d1) ∧
      (∀ x, x < 3 → d1.flash x = 7 ∧ dev1.flash x = 0)) ∧
    (∃ d1, write_fw_cmd 4194306 dev1 0 file_short (fun _ => 0) (fun _ => 0) 0
        (fun _ => 0) = some (0, d1) ∧
      (∀ x, x < 3 → d1.flash x = 7 ∧ dev1.flash x = 0)) := by
  obtain ⟨hr, hf1, hf2⟩ := write_cmds_short 4194306 dev1 0 (fun _ => 0)
  obtain ⟨d1, hw⟩ := sf_write_total 4194306 dev1 0
    (memcpy (fun _ => 0) 0 file_short.content 3) 3 0 true (fun _ => 0)
    (by decide) (by decide) (by decide) (by decide) (fun _ => rfl)
  obtain ⟨hfl, -⟩ := sf_write_ok 4194306 dev1 d1 0 _ 3 0 true (fun _ => 0)
    (by decide) (by decide) hw
  have hflash : ∀ x, x < 3 → d1.flash x = 7 ∧ dev1.flash x = 0 := by
    intro x hx
    refine ⟨?_, rfl⟩
    rw [hfl, if_pos ⟨by omega, by omega⟩]
    simp only [memcpy]
    rw [if_pos ⟨by omega, by omega⟩]
    rfl
  refine ⟨by rw [hr], ⟨d1, ?_, hflash⟩, ⟨d1, ?_, hflash⟩⟩
  · rw [hf1]; exact hw
  · rw [hf2]; exact hw

/-! ## Command descriptors of the memory transfers -/

theorem read_mem_cdb_eq (addr len : Nat) :
    read_mem_cdb addr len =
      [0xfe, 0, addr / 16777216 % 256, addr / 65536 % 256, addr / 256 % 256, addr % 256,
        0x81, len / 256 % 256, len % 256, 0, 0, 0, 0, 0, 0, 0] := rfl

theorem write_mem_cdb_eq (addr len : Nat) (fast : Bool) :
    write_mem_cdb addr len fast =
      [0xfe, 0, addr / 16777216 % 256, addr / 65536 % 256, addr / 256 % 256, addr % 256,
        if fast then 0xa5 else 0x82, len / 256 % 256, len % 256, 0, 0, 0, 0, 0, 0, 0] := by
  cases fast <;> rfl

theorem spec_chunks_nth (addr size k : Nat) (hk : k < spec_chunk_count size) :
    (spec_chunks addr size)[k]? =
      some ((addr + 65535 * k) % U32, min (size - 65535 * k) 65535) := by
  have h := spec_chunks_from_nth addr size size 0 k
    (by
      have := spec_chunks_count addr size
      unfold spec_chunks at this
      omega)
  simpa [spec_chunks] using h

/-- C24: every descriptor `it8951_sg_read_mem` and `it8951_sg_write_mem` build is 16 bytes:
byte 0 is 0xfe, bytes 2..5 the chunk address most significant byte first, byte 6 is 0x81
for a read, 0x82 for a write and 0xa5 for a fast write, bytes 7..8 the chunk length most
significant byte first, and the other bytes are 0; the fast and the normal write
descriptor differ in byte 6 only. In a transfer of `size` bytes the k-th descriptor
carries the 32-bit address `memaddr + 65535 * k`, the bytes moved so far, and the length
`min(size - 65535 * k, 65535)`. -/
theorem mem_cdb_layout (fuel : Nat) (d : Device) (memaddr : Nat) (buf : Buf) (size : Nat)
    (fast : Bool) (hm : memaddr < U32) (hs : size < 2147483648) (hfuel : size < fuel)
    (hnf : ∀ k, d.faults k = 0) :
    (∀ addr len, (Cmd.read_mem addr len).cdb =
      [0xfe, 0, addr / 16777216 % 256, addr / 65536 % 256, addr / 256 % 256, addr % 256,
        0x81, len / 256 % 256, len % 256, 0, 0, 0, 0, 0, 0, 0]) ∧
    (∀ addr len, (Cmd.write_mem addr len false).cdb =
      [0xfe, 0, addr / 16777216 % 256, addr / 65536 % 256, addr / 256 % 256, addr % 256,
        0x82, len / 256 % 256, len % 256, 0, 0, 0, 0, 0, 0, 0]) ∧
    (∀ addr len, (Cmd.write_mem addr len true).cdb =
      [0xfe, 0, addr / 16777216 % 256, addr / 65536 % 256, addr / 256 % 256, addr % 256,
        0xa5, len / 256 % 256, len % 256, 0, 0, 0, 0, 0, 0, 0]) ∧
    (∀ addr len i, i ≠ 6 →
      (Cmd.write_mem addr len true).cdb.getD i 0 =
        (Cmd.write_mem addr len false).cdb.getD i 0) ∧
    (∃ d1 buf1, it8951_sg_read_mem fuel d memaddr buf size = some (0, d1, buf1) ∧
      ∀ k, k < spec_chunk_count size →
        d1.log[d.log.length + k]? =
          some (Cmd.read_mem ((memaddr + 65535 * k) % U32) (min (size - 65535 * k) 65535))) ∧
    (∃ d1, it8951_sg_write_mem fuel d memaddr buf size fast = some (0, d1) ∧
      ∀ k, k < spec_chunk_count size →
        d1.log[d.log.length + k]? =
          some (Cmd.write_mem ((memaddr + 65535 * k) % U32) (min (size - 65535 * k) 65535)
            fast)) := by
  refine ⟨fun addr len => read_mem_cdb_eq addr len,
    fun addr len => write_mem_cdb_eq addr len false,
    fun addr len => write_mem_cdb_eq addr len true, ?_, ?_, ?_⟩
  · intro addr len i hi
    show (write_mem_cdb addr len true).getD i 0 = (write_mem_cdb addr len false).getD i 0
    rw [write_mem_cdb_eq, write_mem_cdb_eq]
    match i with
    | 0 | 1 | 2 | 3 | 4 | 5 => rfl
    | 6 => exact absurd rfl hi
    | 7 | 8 | 9 | 10 | 11 | 12 | 13 | 14 | 15 => rfl
    | n + 16 => rfl
  · obtain ⟨d1, buf1, h1, hlog, -, -⟩ := read_mem_delivers fuel d memaddr buf size hs hfuel hnf
    refine ⟨d1, buf1, h1, ?_⟩
    intro k hk
    rw [hlog, List.getElem?_append_right (by omega)]
    simp only [Nat.add_sub_cancel_left]
    rw [List.getElem?_map, spec_chunks_nth memaddr size k hk]
    rfl
  · obtain ⟨d1, h1, hlog, -, -⟩ := write_mem_lands fuel d memaddr buf size fast hm hs hfuel hnf
    refine ⟨d1, h1, ?_⟩
    intro k hk
    rw [hlog, List.getElem?_append_right (by omega)]
    simp only [Nat.add_sub_cancel_left]
    rw [List.getElem?_map, spec_chunks_nth memaddr size k hk]
    rfl

theorem mem_cdb_layout_witness :
    (Cmd.read_mem 0x12345678 0xabcd).cdb =
      [0xfe, 0, 0x12, 0x34, 0x56, 0x78, 0x81, 0xab, 0xcd, 0, 0, 0, 0, 0, 0, 0] ∧
    ∃ d1, it8951_sg_write_mem 65537 dev0 0x100000 (fun _ => 7) 65536 true = some (0, d1) ∧
      (d1.log[dev0.log.length + 1]?).map Cmd.cdb =
        some [0xfe, 0, 0x00, 0x10, 0xff, 0xff, 0xa5, 0, 1, 0, 0, 0, 0, 0, 0, 0] := by
  have h := mem_cdb_layout 65537 dev0 0x100000 (fun _ => 7) 65536 true (by decide) (by decide)
    (by decide) (fun _ => rfl)
  obtain ⟨d1, e, hk⟩ := h.2.2.2.2.2
  refine ⟨h.1 0x12345678 0xabcd, d1, e, ?_⟩
  rw [hk 1 (by decide)]
  decide

/-! ## The pixel copy of `it8951_sg_load_area` -/

/-- C28 fails in the code, by the defect of `sanitize_zone` shown for C14 (the height test
at sg.c:608 compares the zone width with the image height). On a 1200x1600 panel, with a
400x300 image and the user zone x=0, y=0, width=300, height=1600, the sanitized zone keeps
the height 1600 and `it8951_sg_load_area` copies 300 * 1600 = 480000 bytes from an image
buffer of 400 * 300 = 120000 bytes. -/
theorem load_area_reads_past_image :
    sanitize_zone (some ⟨0, 0, 300, 1600⟩) panel_1200x1600 (some image_400x300) =
      (0, ⟨0, 0, 300, 1600⟩) ∧
    it8951_sg_load_area_payload panel_1200x1600 0 (some image_400x300)
        (some ⟨0, 0, 300, 1600⟩) =
      (0, some ({ memaddr := 2147483648, x := 0, y := 0, width := 300, height := 1600 },
        480000)) ∧
    ¬ ((480000 : Int) ≤ image_400x300.width * image_400x300.height) := by
  decide

/-! ## `sf_read` on a device without memory bridge -/

theorem read_mem_zero (fuel : Nat) (d : Device) (memaddr : Nat) (buf : Buf) :
    it8951_sg_read_mem (fuel + 1) d memaddr buf 0 = some (0, d, buf) := by
  simp [it8951_sg_read_mem, it8951_sg_read_mem_loop]

theorem sf_read_loop_zero_bridge (memaddr addr count : Nat) (hc : count < U32) :
    ∀ (fuel read : Nat) (d : Device) (buf : Buf), read < count → membuf_size d = 0 →
      (∀ k, d.faults k = 0) → sf_read_loop fuel d memaddr addr count buf read = none := by
  intro fuel
  induction fuel with
  | zero => intro read d buf _ _ _; rfl
  | succ fuel ih =>
    intro read d buf hr hmb hnf
    simp only [sf_read_loop, hmb, Nat.not_lt_zero, if_false]
    rw [sg_sf_read_eq]
    have he := ioctl_nofault d (.spi_read ((addr + read) % U32) memaddr 0) (fun _ => 0) hnf
    generalize hcmd : Cmd.spi_read ((addr + read) % U32) memaddr 0 = c at he ⊢
    rw [he]
    simp only [ne_eq, not_true_eq_false, if_false]
    cases fuel with
    | zero => rfl
    | succ fuel =>
      rw [read_mem_zero]
      simp only [ne_eq, not_true_eq_false, if_false, Nat.add_zero]
      have hlt : read % U32 < count := by
        rw [Nat.mod_eq_of_lt (by omega)]; exact hr
      rw [if_pos hlt, Nat.mod_eq_of_lt (by omega)]
      apply ih read _ _ hr
      · rw [membuf_size_congr d _ (ioctl_width d c _) (ioctl_height d c _)]; exact hmb
      · intro k; rw [ioctl_faults]; exact hnf k

/-- C30 fails in the code: on a device that reports a panel without columns the memory
bridge `width * height` is 0, every chunk of `sf_read` has size 0 and `read` never
advances. Reading one byte at flash address 0 submits flash-to-memory commands of size 0
without end: whatever the number of loop iterations allowed, `sf_read` does not return. -/
theorem sf_read_zero_bridge_never_returns :
    membuf_size dev_0x600 = 0 ∧
    ∀ fuel, sf_read fuel dev_0x600 0 0 1 (fun _ => 0) = none := by
  refine ⟨rfl, ?_⟩
  intro fuel
  unfold sf_read
  rw [if_neg (by decide)]
  exact sf_read_loop_zero_bridge 0 0 1 (by decide) fuel 0 dev_0x600 _ (by decide) rfl
    (fun _ => rfl)

/-! ## The commands a call issues -/

theorem issued_refl (d : Device) (P : Cmd → Prop) : d.issued d P :=
  ⟨[], by simp, by simp⟩

theorem issued_trans (d d1 d2 : Device) (P : Cmd → Prop) (h1 : d.issued d1 P)
    (h2 : d1.issued d2 P) : d.issued d2 P := by
  obtain ⟨l1, e1, p1⟩ := h1
  obtain ⟨l2, e2, p2⟩ := h2
  refine ⟨l1 ++ l2, by rw [e2, e1, List.append_assoc], ?_⟩
  intro c hc
  rcases List.mem_append.mp hc with h | h
  · exact p1 c h
  · exact p2 c h

theorem ioctl_issued (d : Device) (c : Cmd) (p : Buf) (P : Cmd → Prop) (h : P c) :
    d.issued (ioctl d c p).2 P :=
  ⟨[c], ioctl_log d c p, by simpa using h⟩

theorem write_mem_loop_issued (P : Cmd → Prop) (memaddr : Nat) (buf : Buf) (size : Nat)
    (fast : Bool) (hP : ∀ a l, P (.write_mem a l fast)) :
    ∀ (fuel written : Nat) (d : Device) (r : Nat × Device),
      it8951_sg_write_mem_loop fuel d memaddr buf size fast written = some r →
      d.issued r.2 P := by
  intro fuel
  induction fuel with
  | zero => intro w d r h; simp [it8951_sg_write_mem_loop] at h
  | succ fuel ih =>
    intro w d r h
    by_cases hlt : sext w < size
    · simp only [it8951_sg_write_mem_loop, if_pos hlt] at h
      generalize (if (size + U64 - sext w) % U64 < (1 <<< 16) - 1 then (size + U64 - sext w) % U64
        else (1 <<< 16) - 1) = ws at h
      have h0 := ioctl_issued d (.write_mem ((memaddr + w) % U32) ws fast) (buf.shift w) P
        (hP _ _)
      split at h
      · simp only [Option.some.injEq] at h
        rw [← h]
        exact h0
      · exact issued_trans _ _ _ P h0 (ih _ _ _ h)
    · simp only [it8951_sg_write_mem_loop, if_neg hlt, Option.some.injEq] at h
      rw [← h]
      exact issued_refl d P

theorem read_mem_loop_issued (P : Cmd → Prop) (memaddr : Nat) (size : Nat)
    (hP : ∀ a l, P (.read_mem a l)) :
    ∀ (fuel read : Nat) (d : Device) (buf : Buf) (r : Nat × Device × Buf),
      it8951_sg_read_mem_loop fuel d memaddr buf size read = some r →
      d.issued r.2.1 P := by
  intro fuel
  induction fuel with
  | zero => intro w d buf r h; simp [it8951_sg_read_mem_loop] at h
  | succ fuel ih =>
    intro w d buf r h
    by_cases hlt : sext w < size
    · simp only [it8951_sg_read_mem_loop, if_pos hlt] at h
      generalize (if (size + U64 - sext w) % U64 < (1 <<< 16) - 1 then (size + U64 - sext w) % U64
        else (1 <<< 16) - 1) = ws at h
      have h0 := ioctl_issued d (.read_mem ((memaddr + w) % U32) ws) (fun _ => 0) P (hP _ _)
      split at h
      · simp only [Option.some.injEq] at h
        rw [← h]
        exact h0
      · exact issued_trans _ _ _ P h0 (ih _ _ _ _ h)
    · simp only [it8951_sg_read_mem_loop, if_neg hlt, Option.some.injEq] at h
      rw [← h]
      exact issued_refl d P

theorem erase_loop_issued (P : Cmd → Prop) (s : Sf) (sfaddr : Nat) :
    ∀ (k i : Nat) (d : Device),
      (∀ j, j < k → P (.spi_erase ((sfaddr + (i + j) * s.block_size) % U32) (s.block_size - 1))) →
      d.issued (erase_loop s sfaddr k i d).2 P := by
  intro k
  induction k with
  | zero => intro i d _; exact issued_refl d P
  | succ k ih =>
    intro i d hP
    simp only [erase_loop]
    have h0 := ioctl_issued d (.spi_erase ((sfaddr + i * s.block_size) % U32) (s.block_size - 1))
      (fun _ => 0) P (by simpa using hP 0 (by omega))
    split
    · exact h0
    · refine issued_trans _ _ _ P h0 (ih _ _ ?_)
      intro j hj
      have e : i + 1 + j = i + (j + 1) := by omega
      rw [e]
      exact hP (j + 1) (by omega)

theorem sf_read_loop_issued (P : Cmd → Prop) (memaddr addr count : Nat)
    (hr : ∀ a m sz, P (.spi_read a m sz)) (hm : ∀ a l, P (.read_mem a l)) :
    ∀ (fuel read : Nat) (d : Device) (buf : Buf) (r : Nat × Device × Buf),
      sf_read_loop fuel d memaddr addr count buf read = some r → d.issued r.2.1 P := by
  intro fuel
  induction fuel with
  | zero => intro w d buf r h; simp [sf_read_loop] at h
  | succ fuel ih =>
    intro w d buf r h
    simp only [sf_read_loop, sg_sf_read_eq] at h
    generalize (if (count + U32 - w) % U32 < membuf_size d then (count + U32 - w) % U32
      else membuf_size d) = sz at h
    have h0 := ioctl_issued d (.spi_read ((addr + w) % U32) memaddr sz) (fun _ => 0) P
      (hr _ _ _)
    split at h
    · simp only [Option.some.injEq] at h
      rw [← h]
      exact h0
    · split at h
      · exact absurd h (by simp)
      · rename_i e2 d2 chunk hrm
        have h1 := read_mem_loop_issued P memaddr _ hm _ _ _ _ _ hrm
        have h01 := issued_trans _ _ _ P h0 h1
        split at h
        · simp only [Option.some.injEq] at h
          rw [← h]
          exact h01
        · split at h
          · exact issued_trans _ _ _ P h01 (ih _ _ _ _ h)
          · simp only [Option.some.injEq] at h
            rw [← h]
            exact h01

theorem sf_read_issued (P : Cmd → Prop) (fuel : Nat) (d : Device) (memaddr addr count : Nat)
    (buf : Buf) (r : Nat × Device × Buf)
    (hr : ∀ a m sz, P (.spi_read a m sz)) (hm : ∀ a l, P (.read_mem a l))
    (h : sf_read fuel d memaddr addr count buf = some r) : d.issued r.2.1 P := by
  unfold sf_read at h
  split at h
  · simp only [Option.some.injEq] at h
    rw [← h]
    exact issued_refl d P
  · exact sf_read_loop_issued P memaddr addr count hr hm _ _ _ _ _ h

theorem sf_verify_issued (P : Cmd → Prop) (fuel : Nat) (d : Device) (memaddr addr size : Nat)
    (ref junk : Buf) (r : Nat × Device)
    (hr : ∀ a m sz, P (.spi_read a m sz)) (hm : ∀ a l, P (.read_mem a l))
    (h : sf_verify fuel d memaddr addr size ref junk = some r) : d.issued r.2 P := by
  unfold sf_verify at h
  split at h
  · exact absurd h (by simp)
  · rename_i e d1 buf hrd
    have h1 := sf_read_issued P _ _ _ _ _ _ _ hr hm hrd
    split at h
    · simp only [Option.some.injEq] at h
      rw [← h]; exact h1
    · split at h
      · simp only [Option.some.injEq] at h
        rw [← h]; exact h1
      · simp only [Option.some.injEq] at h
        rw [← h]; exact h1

theorem sf_write_aligned_loop_issued (lo hi memaddr addr count : Nat) (buf : Buf)
    (hlo : lo ≤ addr) (hhi : addr + count ≤ hi) (hU : hi ≤ SF_SIZE) :
    ∀ (fuel written : Nat) (d : Device) (r : Nat × Device), written ≤ count →
      sf_write_aligned_loop fuel d memaddr buf count addr written = some r →
      d.issued r.2 (Cmd.flash_within lo hi) := by
  have hsz : SF_SIZE = 4194304 := by decide
  intro fuel
  induction fuel with
  | zero => intro w d r _ h; simp [sf_write_aligned_loop] at h
  | succ fuel ih =>
    intro w d r hw h
    simp only [sf_write_aligned_loop, sg_sf_write_eq] at h
    rw [chunk_size_eq count w (membuf_size d) hw (by simp only [U32]; omega)] at h
    have ha : (addr + w) % U32 = addr + w := by simp only [U32]; omega
    rw [ha] at h
    generalize hsize : min (count - w) (membuf_size d) = size at h
    have hsl : size ≤ count - w := by omega
    have hnext : (w + size) % U32 = w + size := by simp only [U32]; omega
    rw [hnext] at h
    split at h
    · exact absurd h (by simp)
    · rename_i e d1 hwm
      have h1 : d.issued d1 (Cmd.flash_within lo hi) :=
        write_mem_loop_issued _ memaddr _ size false (fun _ _ => trivial) _ _ _ _ hwm
      split at h
      · simp only [Option.some.injEq] at h
        rw [← h]
        exact h1
      · have h2 := ioctl_issued d1 (.spi_write (addr + w) memaddr size) (fun _ => 0)
          (Cmd.flash_within lo hi) ⟨by omega, by omega⟩
        have h12 := issued_trans _ _ _ _ h1 h2
        split at h
        · simp only [Option.some.injEq] at h
          rw [← h]
          exact h12
        · split at h
          · exact issued_trans _ _ _ _ h12 (ih _ _ _ (by omega) h)
          · simp only [Option.some.injEq] at h
            rw [← h]
            exact h12

theorem sf_write_aligned_issued (lo hi : Nat) (fuel : Nat) (d : Device) (memaddr : Nat)
    (buf : Buf) (count addr : Nat) (verify : Bool) (junk : Buf) (r : Nat × Device)
    (ha : addr % 65536 = 0) (hcnt : count % 65536 = 0)
    (hlo : lo ≤ addr) (hhi : addr + count ≤ hi) (hU : hi ≤ SF_SIZE)
    (h : sf_write_aligned fuel d memaddr buf count addr verify junk = some r) :
    d.issued r.2 (Cmd.flash_within lo hi) := by
  have hsz : SF_SIZE = 4194304 := by decide
  have hb : sf.block_size = 65536 := by decide
  have hna : ¬ (addr % sf.block_size ≠ 0) := by rw [hb]; simpa using ha
  have he : d.issued (it8951_sg_sf_erase d sf addr count).2 (Cmd.flash_within lo hi) := by
    unfold it8951_sg_sf_erase
    rw [if_neg hna]
    simp only [erase_n_blocks]
    apply erase_loop_issued
    intro j hj
    rw [hb]
    have hj2 : j < (count + 65535) / 65536 := hj
    have e : (addr + (0 + j) * 65536) % U32 = addr + j * 65536 := by
      simp only [U32]; omega
    rw [e]
    exact ⟨by omega, by omega, by omega⟩
  unfold sf_write_aligned at h
  simp only at h
  split at h
  · simp only [Option.some.injEq] at h
    rw [← h]
    exact he
  · split at h
    · exact absurd h (by simp)
    · rename_i e2 d2 hl
      have h2 := sf_write_aligned_loop_issued lo hi memaddr addr count buf hlo hhi hU _ _ _ _
        (Nat.zero_le _) hl
      have h02 := issued_trans _ _ _ _ he h2
      split at h
      · simp only [Option.some.injEq] at h
        rw [← h]
        exact h02
      · split at h
        · exact issued_trans _ _ _ _ h02
            (sf_verify_issued _ _ _ _ _ _ _ _ _ (fun _ _ _ => trivial) (fun _ _ => trivial) h)
        · simp only [Option.some.injEq] at h
          rw [← h]
          exact h02

theorem sf_write_issued (fuel : Nat) (d : Device) (memaddr : Nat) (buf : Buf)
    (count addr : Nat) (verify : Bool) (junk : Buf) (r : Nat × Device)
    (hrange : addr + count ≤ SF_SIZE)
    (h : sf_write fuel d memaddr buf count addr verify junk = some r) :
    d.issued r.2
      (Cmd.flash_within (addr - addr % 65536) ((addr + count + 65535) / 65536 * 65536)) := by
  have hsz : SF_SIZE = 4194304 := by decide
  rw [sf_write_unfold fuel d memaddr buf count addr verify junk hrange] at h
  by_cases hal : addr % 65536 = 0 ∧ count % 65536 = 0
  · rw [if_pos hal] at h
    exact sf_write_aligned_issued _ _ fuel d memaddr buf count addr verify junk r hal.1 hal.2
      (by omega) (by omega) (by omega) h
  · rw [if_neg hal] at h
    split at h
    · exact absurd h (by simp)
    · rename_i e d1 buf_align hrd
      have h1 := sf_read_issued
        (Cmd.flash_within (addr - addr % 65536) ((addr + count + 65535) / 65536 * 65536))
        _ _ _ _ _ _ _ (fun _ _ _ => trivial) (fun _ _ => trivial) hrd
      split at h
      · simp only [Option.some.injEq] at h
        rw [← h]
        exact h1
      · exact issued_trans _ _ _ _ h1
          (sf_write_aligned_issued _ _ fuel d1 memaddr _ _ _ verify junk r (by omega) (by omega)
            (Nat.le_refl _) (by omega) (by omega) h)

/-- C29 (as amended): for every request inside the flash (`addr + len <= 4 MiB`) the aligned
superset satisfies `alignDown(addr) <= addr` and
`addr + len <= alignUp(addr + len) <= 4 MiB`, and whatever `sf_write` returns, every erase
command it issued starts on a block boundary and every erase and memory-to-flash command
it issued covers only addresses of the superset, hence below 4 MiB; after a successful
write the flash content from 4 MiB on is what it was. On a device without transport
failure and with a non-empty memory bridge the write is successful. -/
theorem sf_write_inside_flash (fuel : Nat) (d : Device) (memaddr : Nat) (buf : Buf)
    (count addr : Nat) (verify : Bool) (junk : Buf) (hm : memaddr < U32)
    (hrange : addr + count ≤ SF_SIZE) :
    sf_block_align_prev addr ≤ addr ∧
    addr + count ≤ sf_block_align_next (addr + count) ∧
    sf_block_align_next (addr + count) ≤ SF_SIZE ∧
    (∀ e d1, sf_write fuel d memaddr buf count addr verify junk = some (e, d1) →
      ∃ l, d1.log = d.log ++ l ∧ ∀ c ∈ l,
        Cmd.flash_within (sf_block_align_prev addr) (sf_block_align_next (addr + count)) c) ∧
    (∀ d1, sf_write fuel d memaddr buf count addr verify junk = some (0, d1) →
      ∀ x, SF_SIZE ≤ x → d1.flash x = d.flash x) ∧
    (SF_SIZE + 1 < fuel → 1 ≤ membuf_size d → (∀ k, d.faults k = 0) →
      ∃ d1, sf_write fuel d memaddr buf count addr verify junk = some (0, d1)) := by
  have hsz : SF_SIZE = 4194304 := by decide
  have hstart : sf_block_align_prev addr = addr - addr % 65536 :=
    align_prev_eq addr (by simp only [U32]; omega)
  have hend : sf_block_align_next (addr + count) = (addr + count + 65535) / 65536 * 65536 := by
    rw [align_next_eq (addr + count) (by simp only [U32]; omega)]
    simp only [U32]
    split <;> omega
  rw [hstart, hend]
  refine ⟨by omega, by omega, by omega, ?_, ?_, ?_⟩
  · intro e d1 h
    exact sf_write_issued fuel d memaddr buf count addr verify junk (e, d1) hrange h
  · intro d1 h x hx
    obtain ⟨hfl, -⟩ := sf_write_ok fuel d d1 memaddr buf count addr verify junk hm hrange h
    rw [hfl x, if_neg (by omega)]
  · intro hfuel hmb hnf
    exact sf_write_total fuel d memaddr buf count addr verify junk hm hrange hfuel hmb hnf

theorem sf_write_inside_flash_witness :
    ∃ d1, sf_write 4194306 dev_200x200 0 (fun _ => 7) 65536 0 false (fun _ => 0) =
        some (0, d1) ∧
      ∃ l, d1.log = dev_200x200.log ++ l ∧ ∀ c ∈ l,
        Cmd.flash_within (sf_block_align_prev 0) (sf_block_align_next (0 + 65536)) c := by
  have h := sf_write_inside_flash 4194306 dev_200x200 0 (fun _ => 7) 65536 0 false
    (fun _ => 0) (by decide) (by decide)
  obtain ⟨d1, h1⟩ := h.2.2.2.2.2 (by decide) (by decide) (fun _ => rfl)
  exact ⟨d1, h1, h.2.2.2.1 0 d1 h1⟩

/-- C29 (as stated) fails for the memory-to-flash commands: they start where the previous
chunk ended, and a chunk is as long as the memory bridge. With a 200x200 panel (a bridge
of 40000 bytes) the aligned write of one block at address 0 issues its second
memory-to-flash command at flash address 40000, which is not a multiple of 65536. -/
theorem sf_write_chunk_not_block_aligned :
    (sf_write 4 dev_200x200 0 (fun _ => 7) 65536 0 false (fun _ => 0)).map
        (fun r => (r.1, r.2.log)) =
      some (0, [Cmd.spi_erase 0 65535, Cmd.write_mem 0 40000 false, Cmd.spi_write 0 0 40000,
        Cmd.write_mem 0 25536 false, Cmd.spi_write 40000 0 25536]) ∧
    40000 % 65536 ≠ 0 := by
  decide

theorem issued_countP_zero (d d1 : Device) (f : Cmd → Bool)
    (h : d.issued d1 (fun c => f c = false)) :
    ∃ l, d1.log = d.log ++ l ∧ l.countP f = 0 := by
  obtain ⟨l, e, hl⟩ := h
  refine ⟨l, e, ?_⟩
  rw [List.countP_eq_zero]
  intro c hc
  simp [hl c hc]

theorem chunk_count_step (c m : Nat) (hm : 1 ≤ m) (hc : m < c) :
    max 1 ((c + m - 1) / m) = 1 + max 1 ((c - m + m - 1) / m) := by
  have e1 : c + m - 1 = (c - m + m - 1) + m := by omega
  have h2 : 1 ≤ (c - m + m - 1) / m := by
    rw [Nat.le_div_iff_mul_le (by omega)]
    omega
  rw [e1, Nat.add_div_right _ (by omega)]
  omega

theorem chunk_count_last (c m : Nat) (hm : 1 ≤ m) (hc : c ≤ m) :
    max 1 ((c + m - 1) / m) = 1 := by
  have h2 : (c + m - 1) / m ≤ 1 := by
    have : (c + m - 1) / m < 2 := by
      rw [Nat.div_lt_iff_lt_mul (by omega)]
      omega
    omega
  omega

/-- The flash-to-memory commands of a successful `sf_read` loop, with a memory bridge of at
least one byte: `max(1, ceil(remaining / bridge))` of them. -/
theorem sf_read_loop_count (memaddr addr count : Nat) (hrange : addr + count ≤ SF_SIZE) :
    ∀ (fuel read : Nat) (d d1 : Device) (buf buf1 : Buf), read ≤ count →
      1 ≤ membuf_size d →
      sf_read_loop fuel d memaddr addr count buf read = some (0, d1, buf1) →
      ∃ l, d1.log = d.log ++ l ∧
        l.countP Cmd.is_spi_read =
          max 1 ((count - read + membuf_size d - 1) / membuf_size d) := by
  have hsz : SF_SIZE = 4194304 := by decide
  intro fuel
  induction fuel with
  | zero => intro read d d1 buf buf1 _ _ h; simp [sf_read_loop] at h
  | succ fuel ih =>
    intro read d d1 buf buf1 hr hmb h
    simp only [sf_read_loop] at h
    rw [chunk_size_eq count read (membuf_size d) hr (by simp only [U32]; omega)] at h
    have ha : (addr + read) % U32 = addr + read := by simp only [U32]; omega
    rw [sg_sf_read_eq, ha] at h
    generalize hsize : min (count - read) (membuf_size d) = size at h
    have hsl : size ≤ count - read := by omega
    generalize hc : Cmd.spi_read (addr + read) memaddr size = c at h
    have hcs : c.is_spi_read = true := by rw [← hc]; rfl
    by_cases he : (ioctl d c (fun _ => 0)).1 = 0
    · rw [if_neg (by simpa using he)] at h
      cases hrm : it8951_sg_read_mem fuel (ioctl d c (fun _ => 0)).2 memaddr
          (buf.shift read) size with
      | none => rw [hrm] at h; simp at h
      | some r =>
        obtain ⟨e2, d2, chunk⟩ := r
        rw [hrm] at h
        simp only at h
        by_cases he2 : e2 = 0
        · subst he2
          simp only [ne_eq, not_true_eq_false, if_false] at h
          obtain ⟨-, -, -, -, hwi2, hhe2, -⟩ :=
            read_mem_loop_ok memaddr size (by omega) fuel 0 _ d2 _ chunk (by omega) hrm
          obtain ⟨l2, hl2, hc2⟩ := issued_countP_zero _ d2 Cmd.is_spi_read
            (read_mem_loop_issued (fun c => c.is_spi_read = false) memaddr size
              (fun _ _ => rfl) _ _ _ _ _ hrm)
          rw [ioctl_log] at hl2
          have hmb2 : membuf_size d2 = membuf_size d := by
            rw [membuf_size_congr _ d2 hwi2 hhe2]
            exact membuf_size_congr d _ (ioctl_width d c _) (ioctl_height d c _)
          have hnext : (read + size) % U32 = read + size := by simp only [U32]; omega
          rw [hnext] at h
          by_cases hlt : read + size < count
          · rw [if_pos hlt] at h
            obtain ⟨l3, hl3, hc3⟩ := ih (read + size) d2 d1 _ buf1 (by omega)
              (by rw [hmb2]; exact hmb) h
            refine ⟨c :: (l2 ++ l3), ?_, ?_⟩
            · rw [hl3, hl2]; simp
            · rw [List.countP_cons_of_pos _ _ hcs, List.countP_append, hc2, hc3, hmb2]
              have hsm : size = membuf_size d := by omega
              have e : count - (read + size) = count - read - membuf_size d := by omega
              rw [e, chunk_count_step (count - read) (membuf_size d) hmb (by omega)]
              omega
          · rw [if_neg hlt] at h
            simp only [Option.some.injEq, Prod.mk.injEq, true_and] at h
            obtain ⟨h1, -⟩ := h
            subst h1
            refine ⟨c :: l2, ?_, ?_⟩
            · rw [hl2]; simp
            · rw [List.countP_cons_of_pos _ _ hcs, hc2,
                chunk_count_last (count - read) (membuf_size d) hmb (by omega)]
        · rw [if_pos (by simpa using he2)] at h
          simp only [Option.some.injEq, Prod.mk.injEq] at h
          exact absurd h.1 he2
    · rw [if_pos (by simpa using he)] at h
      simp only [Option.some.injEq, Prod.mk.injEq] at h
      exact absurd h.1 he

/-- With a memory bridge of at least one byte, on a device without transport failure,
`sf_read` of an in-range region returns 0 after `max(1, ceil(count / bridge))`
flash-to-memory commands. -/
theorem sf_read_terminates_with_bridge (fuel : Nat) (d : Device) (memaddr addr count : Nat)
    (buf : Buf) (hrange : addr + count ≤ SF_SIZE) (hfuel : count + 1 < fuel)
    (hmb : 1 ≤ membuf_size d) (hnf : ∀ k, d.faults k = 0) :
    ∃ d1 buf1 l, sf_read fuel d memaddr addr count buf = some (0, d1, buf1) ∧
      d1.log = d.log ++ l ∧
      l.countP Cmd.is_spi_read = max 1 ((count + membuf_size d - 1) / membuf_size d) := by
  have hsz : SF_SIZE = 4194304 := by decide
  obtain ⟨d1, buf1, h⟩ := sf_read_total fuel d memaddr addr count buf hrange hfuel hmb hnf
  have h2 := h
  unfold sf_read at h2
  rw [if_neg (by simp only [U32]; omega)] at h2
  obtain ⟨l, hl, hc⟩ := sf_read_loop_count memaddr addr count hrange fuel 0 d d1 buf buf1
    (Nat.zero_le _) hmb h2
  exact ⟨d1, buf1, l, h, hl, by simpa using hc⟩

end It8951
